import Mathlib

/-!
A verification development for the combicode merge/index/round-trip engine
(`combicode-js/index.js`).  JavaScript strings are modelled as `List Char`,
JavaScript numbers occurring in this core (all non-negative integers) as `Nat`.
External collaborators (directory walking, byte-size formatting, the
skip-content glob predicate) are passed in as parameters, mirroring the
spec's external-interface contract.
-/

namespace Combicode

/-- JavaScript strings are modelled as lists of characters. -/
abbrev Str := List Char

/-- Turn a Lean string literal into the `Str` model. -/
def str (s : String) : Str := s.data

/-- `s.split("\n")` : split on newline; always returns at least one fragment,
a trailing newline yields a trailing empty fragment (JS semantics). -/
def splitNl : Str → List Str
  | [] => [[]]
  | c :: t =>
    if c = '\n' then [] :: splitNl t
    else
      match splitNl t with
      | [] => [[c]]
      | h :: r => (c :: h) :: r

/-- `s.endsWith("\n")`. -/
def endsWithNl (s : Str) : Bool :=
  match s.getLast? with
  | some c => c = '\n'
  | none => false

/-- The whitespace class used for JS `\s` and `trim()`.  (JS additionally
includes rare Unicode space characters; the ASCII set suffices for this
development.) -/
def isWsChar (c : Char) : Bool :=
  c = ' ' ∨ c = '\t' ∨ c = '\n' ∨ c = '\r' ∨ c = '\x0b' ∨ c = '\x0c'

/-- JS `\w` character class: `[A-Za-z0-9_]`. -/
def isWordChar (c : Char) : Bool :=
  c.isAlpha ∨ c.isDigit ∨ c = '_'

/-- JS `.` (no `s` flag): any character except line terminators. -/
def isDotChar (c : Char) : Bool :=
  ¬ (c = '\n' ∨ c = '\r')

/-- JS `[\s\S]`: truly any character. -/
def isAnyChar (_ : Char) : Bool := true

/-- `s.trim()`. -/
def jsTrim (s : Str) : Str :=
  ((s.dropWhile isWsChar).reverse.dropWhile isWsChar).reverse

/-- `s.toLowerCase()` (ASCII; the inputs here are file extensions). -/
def jsToLower (s : Str) : Str := s.map Char.toLower

/-- Decimal rendering of a JS non-negative integer (template-literal
`${n}`). -/
def natStr (n : Nat) : Str := (Nat.repr n).data

/-- Number of lines `s.split("\n").length` would report. -/
def splitNlLen (s : Str) : Nat := (splitNl s).length

/-- Line count as computed by `main` (index.js:1572–1575): a string ending
with a newline contributes one fragment fewer than `split` reports. -/
def jsLineCount (content : Str) : Nat :=
  if endsWithNl content then splitNlLen content - 1 else splitNlLen content

/-- `s.includes(c)` for a single character. -/
def containsChar (s : Str) (c : Char) : Bool := s.contains c

-- ---------------------------------------------------------------------------
-- A small backtracking regular-expression engine.
--
-- Each JS regex literal used by the source is transcribed below into a `RE`
-- term.  Repetition operators in those literals only ever apply to
-- single-character classes, so `RE` offers starred/plus forms over classes
-- only; alternation, optional groups and capture groups are general.  The
-- matcher is written in continuation-passing style; alternatives are tried
-- in the same order a backtracking JS engine tries them (greedy repetitions
-- prefer longer, lazy ones prefer shorter, `|` prefers the left branch,
-- `?` prefers presence), so the first success is the JS match.
-- ---------------------------------------------------------------------------

/-- Regular expressions, restricted to the shapes appearing in the source. -/
inductive RE where
  /-- literal character sequence -/
  | lit : Str → RE
  /-- a single character of a class -/
  | one : (Char → Bool) → RE
  /-- greedy star over a class (`x*`) -/
  | starG : (Char → Bool) → RE
  /-- lazy star over a class (`x*?`) -/
  | starL : (Char → Bool) → RE
  /-- greedy plus over a class (`x+`) -/
  | plusG : (Char → Bool) → RE
  /-- lazy plus over a class (`x+?`) -/
  | plusL : (Char → Bool) → RE
  /-- numbered capture group -/
  | grp : Nat → RE → RE
  /-- concatenation -/
  | cat : RE → RE → RE
  /-- ordered alternation (`a|b`) -/
  | alt : RE → RE → RE
  /-- greedy option (`a?`) -/
  | opt : RE → RE
  /-- end-of-input anchor (`$`, JS non-multiline) -/
  | eos : RE
  /-- word-boundary assertion `\b` as used in the source: it always follows
  a literal ending in a word character, hence asserts that the next input
  character is not a word character (or input ends) -/
  | noWordAfter : RE

/-- Capture bindings: group index paired with the captured characters.
Later bindings shadow earlier ones (each group in the transcribed patterns
matches at most once). -/
abbrev Caps := List (Nat × Str)

/-- `m[n]` as an optional value (`undefined` for an unmatched group). -/
def capGet (cs : Caps) (n : Nat) : Option Str :=
  (cs.find? (fun p => p.1 = n)).map (·.2)

/-- `m[n] || ""` : captured text, empty when the group did not participate. -/
def capStr (cs : Caps) (n : Nat) : Str := (capGet cs n).getD []

/-- Greedy class repetition: consume as many `f`-characters as possible,
backtracking to shorter runs, finally trying the continuation in place. -/
def starGRun {α : Type} (f : Char → Bool) : Str → (Str → Option α) → Option α
  | [], k => k []
  | c :: t, k =>
    if f c then
      (starGRun f t k).orElse (fun _ => k (c :: t))
    else k (c :: t)

/-- Lazy class repetition: try the continuation first, consuming a further
`f`-character only on failure. -/
def starLRun {α : Type} (f : Char → Bool) : Str → (Str → Option α) → Option α
  | [], k => k []
  | c :: t, k =>
    (k (c :: t)).orElse (fun _ => if f c then starLRun f t k else none)

/-- The matcher.  `reM re s cs k` matches `re` against a prefix of `s`
extending the bindings `cs`, and runs the continuation `k` on the bindings
and remaining input; candidate decompositions are tried in JS backtracking
order, so the overall first success is the JS behaviour. -/
def reM {α : Type} : RE → Str → Caps → (Caps → Str → Option α) → Option α
  | .lit l, s, cs, k => if l.isPrefixOf s then k cs (s.drop l.length) else none
  | .one f, s, cs, k =>
    match s with
    | [] => none
    | c :: t => if f c then k cs t else none
  | .starG f, s, cs, k => starGRun f s (k cs)
  | .starL f, s, cs, k => starLRun f s (k cs)
  | .plusG f, s, cs, k =>
    match s with
    | [] => none
    | c :: t => if f c then starGRun f t (k cs) else none
  | .plusL f, s, cs, k =>
    match s with
    | [] => none
    | c :: t => if f c then starLRun f t (k cs) else none
  | .grp n r, s, cs, k =>
    reM r s cs (fun cs2 s2 => k ((n, s.take (s.length - s2.length)) :: cs2) s2)
  | .cat a b, s, cs, k => reM a s cs (fun cs2 s2 => reM b s2 cs2 k)
  | .alt a b, s, cs, k => (reM a s cs k).orElse (fun _ => reM b s cs k)
  | .opt r, s, cs, k => (reM r s cs k).orElse (fun _ => k cs s)
  | .eos, s, cs, k => match s with | [] => k cs [] | _ :: _ => none
  | .noWordAfter, s, cs, k =>
    match s with
    | [] => k cs []
    | c :: _ => if isWordChar c then none else k cs s

/-- Concatenation of a pattern list. -/
def reCat : List RE → RE
  | [] => .lit []
  | [r] => r
  | r :: rs => .cat r (reCat rs)

/-- Match anchored at the start of `s`; yields the bindings and the input
remaining after the matched prefix. -/
def reMatchAt (re : RE) (s : Str) : Option (Caps × Str) :=
  reM re s [] (fun cs r => some (cs, r))

/-- Leftmost match: try successive start positions (the JS unanchored
search).  Yields bindings and the input remaining after the match. -/
def reSearch (re : RE) : Str → Option (Caps × Str)
  | [] => reMatchAt re []
  | c :: t =>
    match reMatchAt re (c :: t) with
    | some r => some r
    | none => reSearch re t

/-- `str.match(/^.../)`: all parser regexes are anchored with `^`, so only
position 0 can match; yields the capture bindings. -/
def jsMatchA (re : RE) (s : Str) : Option Caps :=
  (reMatchAt re s).map (·.1)

/-- `re.test(str)` for an unanchored regex. -/
def reTest (re : RE) (s : Str) : Bool := (reSearch re s).isSome

-- ---------------------------------------------------------------------------
-- Code elements and the shared block-termination strategies
-- (index.js:130–233).
-- ---------------------------------------------------------------------------

/-- A code element as produced by the language parsers
(`{ type, label, startLine, endLine, size }`, lines 1-indexed inclusive). -/
structure Elem where
  type : Str
  label : Str
  startLine : Nat
  endLine : Nat
  size : Nat
deriving DecidableEq, Repr

/-- UTF-8 byte length of a line (`Buffer.byteLength(line, "utf8")`). -/
def utf8Bytes (l : Str) : Nat := (l.map Char.utf8Size).sum

/-- `computeByteSize` (index.js:217–223): bytes of lines `s..e` (clipped to
the array) plus one newline byte per line. -/
def computeByteSize (lines : List Str) (s e : Nat) : Nat :=
  ((lines.drop s).take (e + 1 - s)).foldl (fun acc l => acc + utf8Bytes l + 1) 0

/-- `buildElement` (index.js:225–233): convert 0-indexed line span to a
1-indexed element. -/
def buildElement (type label : Str) (startLine endLine : Nat)
    (lines : List Str) : Elem :=
  { type := type, label := label, startLine := startLine + 1,
    endLine := endLine + 1, size := computeByteSize lines startLine endLine }

/-- One line of `findBraceBlockEnd`'s character scan: threading the depth
and the `foundOpen` flag; the third component signals that depth returned
to zero at a `}` after an opening brace was seen. -/
def braceLineStep : Int → Bool → Str → Int × Bool × Bool
  | d, fo, [] => (d, fo, false)
  | d, fo, c :: t =>
    if c = '{' then braceLineStep (d + 1) true t
    else if c = '}' then
      if fo ∧ d - 1 = 0 then (d - 1, fo, true)
      else braceLineStep (d - 1) fo t
    else braceLineStep d fo t

/-- The scan loop of `findBraceBlockEnd`, walking the suffix of the line
array from index `i`; when the suffix is exhausted `i` has reached
`lines.length`, so `i - 1` is the JS fall-through result
`lines.length - 1`. -/
def findBraceBlockEndGo : Nat → Int → Bool → List Str → Nat
  | i, _, _, [] => i - 1
  | i, d, fo, line :: rest =>
    let r := braceLineStep d fo line
    if r.2.2 then i else findBraceBlockEndGo (i + 1) r.1 r.2.1 rest

/-- `findBraceBlockEnd` (index.js:134–152). -/
def findBraceBlockEnd (lines : List Str) (startLine : Nat) : Nat :=
  if startLine < lines.length then
    findBraceBlockEndGo startLine 0 false (lines.drop startLine)
  else lines.length - 1

/-- Leading-whitespace length, `line.match(/^(\s*)/)[1].length`. -/
def indentOf (l : Str) : Nat := (l.takeWhile isWsChar).length

/-- The scan loop of `findIndentBlockEnd` from index `i`: blank lines are
skipped, a non-blank line at or below the base indentation ends the block
at the previous line, and running off the end yields `lines.length - 1`
(the suffix is exhausted exactly when `i = lines.length`). -/
def findIndentBlockEndGo : Nat → Nat → List Str → Nat
  | i, _, [] => i - 1
  | i, baseIndent, line :: rest =>
    if jsTrim line = [] then findIndentBlockEndGo (i + 1) baseIndent rest
    else if indentOf line ≤ baseIndent then i - 1
    else findIndentBlockEndGo (i + 1) baseIndent rest

/-- `findIndentBlockEnd` (index.js:157–171). -/
def findIndentBlockEnd (lines : List Str) (startLine : Nat) : Nat :=
  if startLine ≥ lines.length then startLine
  else
    findIndentBlockEndGo (startLine + 1) (indentOf (lines.getD startLine []))
      (lines.drop (startLine + 1))

/-- Does `s` start with keyword `w` at a word boundary (`/^w\b/`)? -/
def startsKw (w : Str) (s : Str) : Bool :=
  w.isPrefixOf s &&
    match (s.drop w.length).head? with
    | none => true
    | some c => ! isWordChar c

/-- `/^(class|module|def|do|if|unless|case|while|until|for|begin)\b/`. -/
def rubyOpenKw (s : Str) : Bool :=
  [str "class", str "module", str "def", str "do", str "if", str "unless",
    str "case", str "while", str "until", str "for",
    str "begin"].any (fun w => startsKw w s)

/-- The tail of `/\bdo\s*(\|[^|]*\|)?\s*$/` after the literal `do`:
whitespace, an optional `|...|` block-parameter list, whitespace, then the
end of the line.  Each boundary in this sub-pattern is deterministic (`|` is
not whitespace), so no backtracking is needed. -/
def rubyDoTail (s : Str) : Bool :=
  let s1 := s.dropWhile isWsChar
  match s1 with
  | '|' :: t =>
    let t1 := t.dropWhile (fun c => ¬ c = '|')
    match t1 with
    | '|' :: t2 => (t2.dropWhile isWsChar).isEmpty
    | _ => false
  | _ => s1.isEmpty

/-- `/\bdo\s*(\|[^|]*\|)?\s*$/.test(s)`: an occurrence of `do` at a word
boundary followed only by an optional block-parameter list and whitespace. -/
def rubyDoTest : Str → Bool
  | [] => false
  | c :: t =>
    (startsKw (str "do") (c :: t) ∧ rubyDoTail (t.drop 1)) ∨ rubyDoTestAfter c t
where
  /-- continue the scan knowing the previous character. -/
  rubyDoTestAfter : Char → Str → Bool
  | _, [] => false
  | p, c :: t =>
    (¬ isWordChar p ∧ startsKw (str "do") (c :: t) ∧ rubyDoTail (t.drop 1)) ∨
      rubyDoTestAfter c t

/-- The scan loop of `findRubyBlockEnd` from index `i` over the remaining
lines. -/
def findRubyBlockEndGo : Nat → Int → List Str → Nat
  | i, _, [] => i - 1
  | i, depth, line :: rest =>
    let trimmed := jsTrim line
    let depth1 := if rubyOpenKw trimmed ∨ rubyDoTest trimmed then depth + 1
      else depth
    if startsKw (str "end") trimmed then
      if depth1 - 1 = 0 then i else findRubyBlockEndGo (i + 1) (depth1 - 1) rest
    else findRubyBlockEndGo (i + 1) depth1 rest

/-- `findRubyBlockEnd` (index.js:176–195). -/
def findRubyBlockEnd (lines : List Str) (startLine : Nat) : Nat :=
  if startLine < lines.length then
    findRubyBlockEndGo startLine 0 (lines.drop startLine)
  else lines.length - 1

/-- `/\b(function|if|for|while|repeat)\b/.test(s)`: some keyword occurs with
word boundaries on both sides. -/
def luaOpenTest : Str → Bool
  | [] => false
  | c :: t => luaKwHere (c :: t) ∨ luaOpenAfter c t
where
  luaKwHere (s : Str) : Bool :=
    [str "function", str "if", str "for", str "while",
      str "repeat"].any (fun w => startsKw w s)
  luaOpenAfter : Char → Str → Bool
  | _, [] => false
  | p, c :: t => (¬ isWordChar p ∧ luaKwHere (c :: t)) ∨ luaOpenAfter c t

/-- `/\bend\s*[,)\]]/.test(s)`: `end` at a left word boundary followed by
whitespace and one of `,` `)` `]`. -/
def luaEndBracketTest : Str → Bool
  | [] => false
  | c :: t => endHere (c :: t) ∨ endAfter c t
where
  endHere (s : Str) : Bool :=
    (str "end").isPrefixOf s &&
      match (s.drop 3).dropWhile isWsChar with
      | c :: _ => c = ',' || c = ')' || c = ']'
      | [] => false
  endAfter : Char → Str → Bool
  | _, [] => false
  | p, c :: t => (¬ isWordChar p ∧ endHere (c :: t)) ∨ endAfter c t

/-- The scan loop of `findLuaBlockEnd` from index `i` over the remaining
lines. -/
def findLuaBlockEndGo : Nat → Int → List Str → Nat
  | i, _, [] => i - 1
  | i, depth, line :: rest =>
    let trimmed := jsTrim line
    let depth1 := if luaOpenTest trimmed then depth + 1 else depth
    if startsKw (str "end") trimmed ∨ luaEndBracketTest trimmed ∨
        trimmed = str "end" then
      if depth1 - 1 = 0 then i
      else findLuaBlockEndGo (i + 1) (depth1 - 1) rest
    else findLuaBlockEndGo (i + 1) depth1 rest

/-- `findLuaBlockEnd` (index.js:200–215). -/
def findLuaBlockEnd (lines : List Str) (startLine : Nat) : Nat :=
  if startLine < lines.length then
    findLuaBlockEndGo startLine 0 (lines.drop startLine)
  else lines.length - 1

/-- `s.includes(sub)` : substring containment. -/
def containsSub (sub : Str) : Str → Bool
  | [] => sub.isPrefixOf []
  | c :: t => sub.isPrefixOf (c :: t) || containsSub sub t

-- ---------------------------------------------------------------------------
-- The language-parser regexes, transcribed literally from index.js.
-- Group numbers follow the JS numbering (order of opening parentheses).
-- ---------------------------------------------------------------------------

def isQuoteChar (c : Char) : Bool := c = '\'' || c = '"' || c = '`'
def isNotQuoteChar (c : Char) : Bool := ! isQuoteChar c
def isNotRParen (c : Char) : Bool := ! (c = ')')
def isCFnChar (c : Char) : Bool :=
  isWordChar c || isWsChar c || c = '*' || c = '&'
def isCsTypeChar (c : Char) : Bool :=
  isWordChar c || c = '<' || c = '>' || c = '[' || c = ']' || c = ',' ||
    isWsChar c
def isLuaNameChar (c : Char) : Bool := isWordChar c || c = '.' || c = ':'
def isPerlPkgChar (c : Char) : Bool := isWordChar c || c = ':'
def isRubySfxChar (c : Char) : Bool := c = '?' || c = '!' || c = '='

/-- a keyword followed by `\s+`, the building block of optional-modifier
groups such as `(public\s+|private\s+)?`. -/
def kw1 (w : String) : RE := .cat (.lit (str w)) (.plusG isWsChar)

/-- ordered alternation of several branches. -/
def reAlts : List RE → RE
  | [] => .lit []
  | [r] => r
  | r :: rs => .alt r (reAlts rs)

-- Python (index.js:237–300)
def PY_CLASS : RE := reCat [.lit (str "class"), .plusG isWsChar,
  .grp 1 (.plusG isWordChar),
  .opt (.grp 2 (reCat [.lit (str "("), .starL isDotChar, .lit (str ")")])),
  .starG isWsChar, .lit (str ":")]
def PY_ADEF : RE := reCat [.lit (str "async"), .plusG isWsChar,
  .lit (str "def"), .plusG isWsChar, .grp 1 (.plusG isWordChar),
  .starG isWsChar, .lit (str "("), .grp 2 (.starL isDotChar), .lit (str ")"),
  .opt (.grp 3 (reCat [.starG isWsChar, .lit (str "->"), .starL isDotChar])),
  .starG isWsChar, .lit (str ":")]
def PY_DEF : RE := reCat [.lit (str "def"), .plusG isWsChar,
  .grp 1 (.plusG isWordChar),
  .starG isWsChar, .lit (str "("), .grp 2 (.starL isDotChar), .lit (str ")"),
  .opt (.grp 3 (reCat [.starG isWsChar, .lit (str "->"), .starL isDotChar])),
  .starG isWsChar, .lit (str ":")]
def PY_LOOP : RE := reCat [.grp 1 (.alt (.lit (str "for")) (.lit (str "while"))),
  .plusG isWsChar, .grp 2 (.plusG isDotChar), .lit (str ":"),
  .starG isWsChar, .eos]

-- JavaScript (index.js:302–392)
def JS_CLASS : RE := reCat [.opt (.grp 1 (kw1 "export")),
  .opt (.grp 2 (kw1 "default")), .lit (str "class"), .plusG isWsChar,
  .grp 3 (.plusG isWordChar)]
def JS_DESCRIBE : RE := reCat [.lit (str "describe"), .starG isWsChar,
  .lit (str "("), .starG isWsChar, .one isQuoteChar,
  .grp 1 (.plusG isNotQuoteChar), .one isQuoteChar]
def JS_TEST : RE := reCat [.grp 1 (.alt (.lit (str "it")) (.lit (str "test"))),
  .starG isWsChar, .lit (str "("), .starG isWsChar, .one isQuoteChar,
  .grp 2 (.plusG isNotQuoteChar), .one isQuoteChar]
def JS_AFUNC : RE := reCat [.opt (.grp 1 (kw1 "export")),
  .opt (.grp 2 (kw1 "default")), .lit (str "async"), .plusG isWsChar,
  .lit (str "function"), .plusG isWsChar, .grp 3 (.plusG isWordChar),
  .starG isWsChar, .lit (str "("), .grp 4 (.starL isDotChar), .lit (str ")")]
def JS_FUNC : RE := reCat [.opt (.grp 1 (kw1 "export")),
  .opt (.grp 2 (kw1 "default")), .lit (str "function"), .plusG isWsChar,
  .grp 3 (.plusG isWordChar), .starG isWsChar, .lit (str "("),
  .grp 4 (.starL isDotChar), .lit (str ")")]
def JS_ARROW : RE := reCat [.opt (.grp 1 (kw1 "export")),
  .grp 2 (reAlts [.lit (str "const"), .lit (str "let"), .lit (str "var")]),
  .plusG isWsChar, .grp 3 (.plusG isWordChar), .starG isWsChar,
  .lit (str "="), .starG isWsChar, .opt (.grp 4 (kw1 "async")),
  .opt (.lit (str "(")), .grp 5 (.starL isDotChar), .opt (.lit (str ")")),
  .starG isWsChar, .lit (str "=>")]
def JS_LOOP : RE := reCat [.grp 1 (.alt (.lit (str "for")) (.lit (str "while"))),
  .starG isWsChar, .lit (str "("), .grp 2 (.plusG isDotChar), .lit (str ")"),
  .starG isWsChar, .opt (.lit (str "\x7b"))]

-- TypeScript (index.js:394–482)
def TS_IFACE : RE := reCat [.opt (.grp 1 (kw1 "export")),
  .opt (.grp 2 (kw1 "default")), .lit (str "interface"), .plusG isWsChar,
  .grp 3 (.plusG isWordChar)]
def TS_CLASS : RE := reCat [.opt (.grp 1 (kw1 "export")),
  .opt (.grp 2 (kw1 "default")), .opt (.grp 3 (kw1 "abstract")),
  .lit (str "class"), .plusG isWsChar, .grp 4 (.plusG isWordChar)]
def TS_FUNC : RE := reCat [.opt (.grp 1 (kw1 "export")),
  .opt (.grp 2 (kw1 "default")), .lit (str "function"), .plusG isWsChar,
  .grp 3 (.plusG isWordChar), .starG isWsChar, .lit (str "("),
  .grp 4 (.starL isDotChar), .lit (str ")")]

-- Go (index.js:484–534)
def GO_STRUCT : RE := reCat [.lit (str "type"), .plusG isWsChar,
  .grp 1 (.plusG isWordChar), .plusG isWsChar, .lit (str "struct"),
  .noWordAfter]
def GO_IFACE : RE := reCat [.lit (str "type"), .plusG isWsChar,
  .grp 1 (.plusG isWordChar), .plusG isWsChar, .lit (str "interface"),
  .noWordAfter]
def GO_FUNC : RE := reCat [.lit (str "func"), .plusG isWsChar,
  .opt (.grp 1 (reCat [.lit (str "("), .starL isDotChar, .lit (str ")"),
    .starG isWsChar])),
  .grp 2 (.plusG isWordChar), .starG isWsChar, .lit (str "("),
  .grp 3 (.starL isDotChar), .lit (str ")")]
def GO_LOOP : RE := reCat [.lit (str "for"), .plusG isWsChar,
  .grp 1 (.plusG isDotChar), .starG isWsChar, .lit (str "\x7b")]

-- Rust (index.js:536–604)
def RS_STRUCT : RE := reCat [.opt (.grp 1 (kw1 "pub")), .lit (str "struct"),
  .plusG isWsChar, .grp 2 (.plusG isWordChar)]
def RS_ENUM : RE := reCat [.opt (.grp 1 (kw1 "pub")), .lit (str "enum"),
  .plusG isWsChar, .grp 2 (.plusG isWordChar)]
def RS_TRAIT : RE := reCat [.opt (.grp 1 (kw1 "pub")), .lit (str "trait"),
  .plusG isWsChar, .grp 2 (.plusG isWordChar)]
def RS_IMPL : RE := reCat [.lit (str "impl"), .plusG isWsChar,
  .grp 1 (.plusL isDotChar), .starG isWsChar, .lit (str "\x7b")]
def RS_FN : RE := reCat [.opt (.grp 1 (kw1 "pub")), .opt (.grp 2 (kw1 "async")),
  .lit (str "fn"), .plusG isWsChar, .grp 3 (.plusG isWordChar),
  .starG isWsChar, .lit (str "("), .grp 4 (.starL isDotChar), .lit (str ")")]
def RS_LOOP : RE := reCat [.grp 1 (reAlts [.lit (str "for"),
  .lit (str "while"), .lit (str "loop")]), .noWordAfter,
  .opt (.grp 2 (.starG isDotChar)), .lit (str "\x7b")]

-- Java (index.js:606–672)
def JV_VIS : RE := reAlts [kw1 "public", kw1 "private", kw1 "protected"]
def JV_CLASS : RE := reCat [.opt (.grp 1 JV_VIS), .opt (.grp 2 (kw1 "static")),
  .opt (.grp 3 (kw1 "abstract")), .opt (.grp 4 (kw1 "final")),
  .lit (str "class"), .plusG isWsChar, .grp 5 (.plusG isWordChar)]
def JV_IFACE : RE := reCat [.opt (.grp 1 JV_VIS), .lit (str "interface"),
  .plusG isWsChar, .grp 2 (.plusG isWordChar)]
def JV_ENUM : RE := reCat [.opt (.grp 1 JV_VIS), .lit (str "enum"),
  .plusG isWsChar, .grp 2 (.plusG isWordChar)]
def JV_METHOD : RE := reCat [.opt (.grp 1 JV_VIS), .opt (.grp 2 (kw1 "static")),
  .opt (.grp 3 (kw1 "abstract")), .opt (.grp 4 (kw1 "final")),
  .opt (.grp 5 (kw1 "synchronized")),
  .opt (.grp 6 (.cat (.plusG isWordChar) (.plusG isWsChar))),
  .grp 7 (.plusG isWordChar), .starG isWsChar, .lit (str "("),
  .grp 8 (.starL isDotChar), .lit (str ")"), .starG isWsChar,
  .grp 9 (.alt (.lit (str "\x7b")) (.lit (str "throws")))]
def JV_LOOP : RE := reCat [.grp 1 (.alt (.lit (str "for")) (.lit (str "while"))),
  .starG isWsChar, .lit (str "("), .grp 2 (.plusG isDotChar), .lit (str ")"),
  .starG isWsChar, .opt (.lit (str "\x7b"))]

-- C/C++ (index.js:674–728)
def CC_CLASS : RE := reCat [.lit (str "class"), .plusG isWsChar,
  .grp 1 (.plusG isWordChar)]
def CC_STRUCT : RE := reCat [.opt (.grp 1 (kw1 "typedef")),
  .lit (str "struct"), .plusG isWsChar, .grp 2 (.plusG isWordChar)]
def CC_FUNC : RE := reCat [.grp 1 (.cat (.one isWordChar) (.plusL isCFnChar)),
  .plusG isWsChar, .grp 2 (.plusG isWordChar), .starG isWsChar,
  .lit (str "("), .grp 3 (.starG isNotRParen), .lit (str ")"),
  .starG isWsChar, .grp 4 (.alt (.lit (str "\x7b")) .eos)]
def CC_LOOP : RE := reCat [.grp 1 (.alt (.lit (str "for")) (.lit (str "while"))),
  .starG isWsChar, .lit (str "("), .grp 2 (.plusG isDotChar), .lit (str ")"),
  .starG isWsChar, .opt (.lit (str "\x7b"))]

-- C# (index.js:730–785)
def CS_VIS : RE := reAlts [kw1 "public", kw1 "private", kw1 "protected",
  kw1 "internal"]
def CS_TYPE : RE := reCat [.opt (.grp 1 CS_VIS), .opt (.grp 2 (kw1 "static")),
  .opt (.grp 3 (.alt (kw1 "abstract") (kw1 "sealed"))),
  .opt (.grp 4 (kw1 "partial")),
  .grp 5 (reAlts [.lit (str "class"), .lit (str "struct"),
    .lit (str "interface"), .lit (str "enum"), .lit (str "record")]),
  .plusG isWsChar, .grp 6 (.plusG isWordChar)]
def CS_METHOD : RE := reCat [.opt (.grp 1 CS_VIS), .opt (.grp 2 (kw1 "static")),
  .opt (.grp 3 (kw1 "async")),
  .opt (.grp 4 (reAlts [kw1 "virtual", kw1 "override", kw1 "abstract"])),
  .grp 5 (.cat (.one isWordChar) (.starL isCsTypeChar)), .plusG isWsChar,
  .grp 6 (.plusG isWordChar), .starG isWsChar, .lit (str "("),
  .grp 7 (.starL isDotChar), .lit (str ")"), .starG isWsChar,
  .opt (.lit (str "\x7b"))]
def CS_LOOP : RE := reCat [.grp 1 (reAlts [.lit (str "for"),
  .lit (str "foreach"), .lit (str "while")]), .starG isWsChar,
  .lit (str "("), .grp 2 (.plusG isDotChar), .lit (str ")"),
  .starG isWsChar, .opt (.lit (str "\x7b"))]

-- PHP (index.js:787–832)
def PH_TYPE : RE := reCat [.opt (.grp 1 (kw1 "abstract")),
  .opt (.grp 2 (kw1 "final")),
  .grp 3 (reAlts [.lit (str "class"), .lit (str "interface"),
    .lit (str "trait")]), .plusG isWsChar, .grp 4 (.plusG isWordChar)]
def PH_FUNC : RE := reCat [.opt (.grp 1 (reAlts [kw1 "public", kw1 "private",
  kw1 "protected"])), .opt (.grp 2 (kw1 "static")), .lit (str "function"),
  .plusG isWsChar, .grp 3 (.plusG isWordChar), .starG isWsChar,
  .lit (str "("), .grp 4 (.starL isDotChar), .lit (str ")")]
def PH_LOOP : RE := reCat [.grp 1 (reAlts [.lit (str "for"),
  .lit (str "foreach"), .lit (str "while")]), .starG isWsChar,
  .lit (str "("), .grp 2 (.plusG isDotChar), .lit (str ")"),
  .starG isWsChar, .opt (.lit (str "\x7b"))]

-- Ruby (index.js:834–879)
def RB_CLASS : RE := reCat [.lit (str "class"), .plusG isWsChar,
  .grp 1 (.plusG isWordChar)]
def RB_MODULE : RE := reCat [.lit (str "module"), .plusG isWsChar,
  .grp 1 (.plusG isWordChar)]
def RB_DEF : RE := reCat [.lit (str "def"), .plusG isWsChar,
  .opt (.grp 1 (.lit (str "self."))),
  .grp 2 (.cat (.plusG isWordChar) (.opt (.one isRubySfxChar))),
  .starG isWsChar,
  .opt (.grp 3 (reCat [.lit (str "("), .starL isDotChar, .lit (str ")")]))]

-- Swift (index.js:881–923)
def SW_TYPE : RE := reCat [.opt (.grp 1 (reAlts [kw1 "public", kw1 "private",
  kw1 "internal", kw1 "open", kw1 "fileprivate"])),
  .opt (.grp 2 (kw1 "final")),
  .grp 3 (reAlts [.lit (str "class"), .lit (str "struct"),
    .lit (str "enum"), .lit (str "protocol")]), .plusG isWsChar,
  .grp 4 (.plusG isWordChar)]
def SW_FUNC : RE := reCat [.opt (.grp 1 (reAlts [kw1 "public", kw1 "private",
  kw1 "internal", kw1 "open"])),
  .opt (.grp 2 (.alt (kw1 "static") (kw1 "class"))),
  .opt (.grp 3 (kw1 "override")), .lit (str "func"), .plusG isWsChar,
  .grp 4 (.plusG isWordChar), .starG isWsChar, .lit (str "("),
  .grp 5 (.starL isDotChar), .lit (str ")")]
def SW_LOOP : RE := reCat [.grp 1 (.alt (.lit (str "for")) (.lit (str "while"))),
  .plusG isWsChar, .grp 2 (.plusG isDotChar), .starG isWsChar,
  .lit (str "\x7b")]

-- Kotlin (index.js:925–970)
def KT_TYPE : RE := reCat [.opt (.grp 1 (reAlts [kw1 "open", kw1 "abstract",
  kw1 "data", kw1 "sealed"])),
  .grp 2 (reAlts [.lit (str "class"), .lit (str "interface"),
    .lit (str "object")]), .plusG isWsChar, .grp 3 (.plusG isWordChar)]
def KT_FUN : RE := reCat [.opt (.grp 1 (reAlts [kw1 "public", kw1 "private",
  kw1 "protected", kw1 "internal"])), .opt (.grp 2 (kw1 "override")),
  .opt (.grp 3 (kw1 "suspend")), .lit (str "fun"), .plusG isWsChar,
  .grp 4 (.plusG isWordChar), .starG isWsChar, .lit (str "("),
  .grp 5 (.starL isDotChar), .lit (str ")")]
def KT_LOOP : RE := reCat [.grp 1 (.alt (.lit (str "for")) (.lit (str "while"))),
  .starG isWsChar, .lit (str "("), .grp 2 (.plusG isDotChar), .lit (str ")"),
  .starG isWsChar, .opt (.lit (str "\x7b"))]

-- Scala (index.js:972–999)
def SC_TYPE : RE := reCat [.opt (.grp 1 (kw1 "case")),
  .grp 2 (reAlts [.lit (str "class"), .lit (str "object"),
    .lit (str "trait")]), .plusG isWsChar, .grp 3 (.plusG isWordChar)]
def SC_DEF : RE := reCat [.opt (.grp 1 (kw1 "override")), .lit (str "def"),
  .plusG isWsChar, .grp 2 (.plusG isWordChar), .starG isWsChar,
  .opt (.grp 3 (reCat [.lit (str "("), .starL isDotChar, .lit (str ")")]))]

-- Lua (index.js:1001–1026)
def LU_FUNC : RE := reCat [.opt (.grp 1 (kw1 "local")), .lit (str "function"),
  .plusG isWsChar, .grp 2 (.plusG isLuaNameChar), .starG isWsChar,
  .lit (str "("), .grp 3 (.starL isDotChar), .lit (str ")")]
def LU_LOOP : RE := reCat [.grp 1 (.alt (.lit (str "for")) (.lit (str "while"))),
  .plusG isWsChar, .grp 2 (.plusG isDotChar), .plusG isWsChar,
  .lit (str "do")]

-- Perl (index.js:1028–1049)
def PL_PKG : RE := reCat [.lit (str "package"), .plusG isWsChar,
  .grp 1 (.plusG isPerlPkgChar)]
def PL_SUB : RE := reCat [.lit (str "sub"), .plusG isWsChar,
  .grp 1 (.plusG isWordChar)]

-- Bash (index.js:1051–1091)
def BA_FN : RE := reCat [.opt (.grp 1 (kw1 "function")),
  .grp 2 (.plusG isWordChar), .starG isWsChar, .lit (str "("),
  .starG isWsChar, .lit (str ")"), .starG isWsChar, .opt (.lit (str "\x7b"))]
def BA_LOOP1 : RE := reCat [.grp 1 (.alt (.lit (str "for")) (.lit (str "while"))),
  .plusG isWsChar, .grp 2 (.plusL isDotChar), .lit (str ";"),
  .starG isWsChar, .lit (str "do")]
def BA_LOOP2 : RE := reCat [.grp 1 (.alt (.lit (str "for")) (.lit (str "while"))),
  .plusG isWsChar, .grp 2 (.plusG isDotChar)]

-- ---------------------------------------------------------------------------
-- Language parsers.  Each JS parser is a for-loop over lines in which every
-- matching branch ends in `continue`, so a line yields at most one element;
-- each parser is therefore modelled as a per-line `Option Elem` function
-- collected with `filterMap` over the line indices.
-- ---------------------------------------------------------------------------

/-- Run a per-line scanner over all lines, in order. -/
def scanWith (f : Nat → Option Elem) (lines : List Str) : List Elem :=
  (List.range lines.length).filterMap f

def pyLine (lines : List Str) (i : Nat) : Option Elem :=
  let trimmed := jsTrim (lines.getD i [])
  match jsMatchA PY_CLASS trimmed with
  | some m =>
    let e := findIndentBlockEnd lines i
    some (buildElement (str "class") (str "class " ++ capStr m 1) i e lines)
  | none =>
  match jsMatchA PY_ADEF trimmed with
  | some m =>
    let e := findIndentBlockEnd lines i
    let sig := capStr m 1 ++ str "(" ++ capStr m 2 ++ str ")" ++ capStr m 3
    let type := if capStr m 1 = str "__init__" then str "ctor" else str "async"
    some (buildElement type
      ((if type = str "ctor" then str "ctor" else str "async") ++ str " " ++ sig)
      i e lines)
  | none =>
  match jsMatchA PY_DEF trimmed with
  | some m =>
    let e := findIndentBlockEnd lines i
    let sig := capStr m 1 ++ str "(" ++ capStr m 2 ++ str ")" ++ capStr m 3
    let type := if capStr m 1 = str "__init__" then str "ctor"
      else if (str "test_").isPrefixOf (capStr m 1) then str "test"
      else str "fn"
    let label := if type = str "ctor" then str "ctor " ++ sig
      else if type = str "test" then str "test " ++ sig
      else str "fn " ++ sig
    some (buildElement type label i e lines)
  | none =>
  match jsMatchA PY_LOOP trimmed with
  | some m =>
    let e := findIndentBlockEnd lines i
    if e - i + 1 > 5 then
      some (buildElement (str "loop")
        (str "loop " ++ capStr m 1 ++ str " " ++ capStr m 2) i e lines)
    else none
  | none => none

def parsePython (lines : List Str) : List Elem := scanWith (pyLine lines) lines

/-- The shared `for`/`while` brace-loop branch
(`^(for|while)\s*\((.+)\)\s*\{?` etc.). -/
def braceLoopBranch (re : RE) (lines : List Str) (i : Nat) (trimmed : Str) :
    Option Elem :=
  match jsMatchA re trimmed with
  | some m =>
    let e := findBraceBlockEnd lines i
    if e - i + 1 > 5 then
      some (buildElement (str "loop")
        (str "loop " ++ capStr m 1 ++ str " " ++ capStr m 2) i e lines)
    else none
  | none => none

def jsLine (lines : List Str) (i : Nat) : Option Elem :=
  let trimmed := jsTrim (lines.getD i [])
  match jsMatchA JS_CLASS trimmed with
  | some m =>
    let e := findBraceBlockEnd lines i
    some (buildElement (str "class") (str "class " ++ capStr m 3) i e lines)
  | none =>
  match jsMatchA JS_DESCRIBE trimmed with
  | some m =>
    let e := findBraceBlockEnd lines i
    some (buildElement (str "describe") (str "describe " ++ capStr m 1) i e lines)
  | none =>
  match jsMatchA JS_TEST trimmed with
  | some m =>
    let e := findBraceBlockEnd lines i
    some (buildElement (str "test") (str "test " ++ capStr m 2) i e lines)
  | none =>
  match jsMatchA JS_AFUNC trimmed with
  | some m =>
    let e := findBraceBlockEnd lines i
    some (buildElement (str "async")
      (str "async " ++ capStr m 3 ++ str "(" ++ capStr m 4 ++ str ")") i e lines)
  | none =>
  match jsMatchA JS_FUNC trimmed with
  | some m =>
    let e := findBraceBlockEnd lines i
    let type := if capStr m 3 = str "constructor" then str "ctor" else str "fn"
    some (buildElement type
      (type ++ str " " ++ capStr m 3 ++ str "(" ++ capStr m 4 ++ str ")")
      i e lines)
  | none =>
  match jsMatchA JS_ARROW trimmed with
  | some m =>
    if containsChar trimmed '{' || i + 1 < lines.length then
      -- only include if it has a block body; in every case this branch
      -- `continue`s (index.js:361–377)
      if containsChar trimmed '{' ||
          (decide (i + 1 < lines.length) &&
            (str "\x7b").isPrefixOf (jsTrim (lines.getD (i + 1) []))) then
        let e := findBraceBlockEnd lines i
        if e > i then
          let type := if (capGet m 4).isSome then str "async" else str "fn"
          some (buildElement type
            (type ++ str " " ++ capStr m 3 ++ str "(" ++ capStr m 5 ++ str ")")
            i e lines)
        else none
      else none
    else braceLoopBranch JS_LOOP lines i trimmed
  | none => braceLoopBranch JS_LOOP lines i trimmed

def parseJavaScript (lines : List Str) : List Elem :=
  scanWith (jsLine lines) lines

def tsLine (lines : List Str) (i : Nat) : Option Elem :=
  let trimmed := jsTrim (lines.getD i [])
  match jsMatchA TS_IFACE trimmed with
  | some m =>
    let e := findBraceBlockEnd lines i
    some (buildElement (str "class") (str "interface " ++ capStr m 3) i e lines)
  | none =>
  match jsMatchA TS_CLASS trimmed with
  | some m =>
    let e := findBraceBlockEnd lines i
    some (buildElement (str "class") (str "class " ++ capStr m 4) i e lines)
  | none =>
  match jsMatchA JS_DESCRIBE trimmed with
  | some m =>
    let e := findBraceBlockEnd lines i
    some (buildElement (str "describe") (str "describe " ++ capStr m 1) i e lines)
  | none =>
  match jsMatchA JS_TEST trimmed with
  | some m =>
    let e := findBraceBlockEnd lines i
    some (buildElement (str "test") (str "test " ++ capStr m 2) i e lines)
  | none =>
  match jsMatchA JS_AFUNC trimmed with
  | some m =>
    let e := findBraceBlockEnd lines i
    some (buildElement (str "async")
      (str "async " ++ capStr m 3 ++ str "(" ++ capStr m 4 ++ str ")") i e lines)
  | none =>
  match jsMatchA TS_FUNC trimmed with
  | some m =>
    let e := findBraceBlockEnd lines i
    some (buildElement (str "fn")
      (str "fn " ++ capStr m 3 ++ str "(" ++ capStr m 4 ++ str ")") i e lines)
  | none =>
  match jsMatchA JS_ARROW trimmed with
  | some m =>
    if containsChar trimmed '{' then
      let e := findBraceBlockEnd lines i
      if e > i then
        let type := if (capGet m 4).isSome then str "async" else str "fn"
        some (buildElement type
          (type ++ str " " ++ capStr m 3 ++ str "(" ++ capStr m 5 ++ str ")")
          i e lines)
      else none
    else braceLoopBranch JS_LOOP lines i trimmed
  | none => braceLoopBranch JS_LOOP lines i trimmed

def parseTypeScript (lines : List Str) : List Elem :=
  scanWith (tsLine lines) lines

def goLine (lines : List Str) (i : Nat) : Option Elem :=
  let trimmed := jsTrim (lines.getD i [])
  match jsMatchA GO_STRUCT trimmed with
  | some m =>
    let e := findBraceBlockEnd lines i
    some (buildElement (str "class") (str "struct " ++ capStr m 1) i e lines)
  | none =>
  match jsMatchA GO_IFACE trimmed with
  | some m =>
    let e := findBraceBlockEnd lines i
    some (buildElement (str "class") (str "interface " ++ capStr m 1) i e lines)
  | none =>
  match jsMatchA GO_FUNC trimmed with
  | some m =>
    let e := findBraceBlockEnd lines i
    let receiver := match capGet m 1 with
      | some s => jsTrim s ++ str " "
      | none => []
    let name := capStr m 2
    let type := if (str "Test").isPrefixOf name then str "test" else str "fn"
    some (buildElement type
      ((if type = str "test" then str "test" else str "fn") ++ str " " ++
        receiver ++ name ++ str "(" ++ capStr m 3 ++ str ")") i e lines)
  | none =>
  match jsMatchA GO_LOOP trimmed with
  | some m =>
    let e := findBraceBlockEnd lines i
    if e - i + 1 > 5 then
      some (buildElement (str "loop") (str "loop for " ++ capStr m 1) i e lines)
    else none
  | none => none

def parseGo (lines : List Str) : List Elem := scanWith (goLine lines) lines

def rsLine (lines : List Str) (i : Nat) : Option Elem :=
  let trimmed := jsTrim (lines.getD i [])
  match jsMatchA RS_STRUCT trimmed with
  | some m =>
    let e := findBraceBlockEnd lines i
    some (buildElement (str "class") (str "struct " ++ capStr m 2) i e lines)
  | none =>
  match jsMatchA RS_ENUM trimmed with
  | some m =>
    let e := findBraceBlockEnd lines i
    some (buildElement (str "class") (str "enum " ++ capStr m 2) i e lines)
  | none =>
  match jsMatchA RS_TRAIT trimmed with
  | some m =>
    let e := findBraceBlockEnd lines i
    some (buildElement (str "class") (str "trait " ++ capStr m 2) i e lines)
  | none =>
  match jsMatchA RS_IMPL trimmed with
  | some m =>
    let e := findBraceBlockEnd lines i
    some (buildElement (str "impl") (str "impl " ++ capStr m 1) i e lines)
  | none =>
  match jsMatchA RS_FN trimmed with
  | some m =>
    let e := findBraceBlockEnd lines i
    let type := if (str "test_").isPrefixOf (capStr m 3) then str "test"
      else if (capGet m 2).isSome then str "async" else str "fn"
    some (buildElement type
      (type ++ str " " ++ capStr m 3 ++ str "(" ++ capStr m 4 ++ str ")")
      i e lines)
  | none =>
  match jsMatchA RS_LOOP trimmed with
  | some m =>
    let e := findBraceBlockEnd lines i
    if e - i + 1 > 5 then
      some (buildElement (str "loop")
        (str "loop " ++ capStr m 1 ++
          (if capStr m 2 ≠ [] then str " " ++ jsTrim (capStr m 2) else []))
        i e lines)
    else none
  | none => none

def parseRust (lines : List Str) : List Elem := scanWith (rsLine lines) lines

def jvLine (lines : List Str) (i : Nat) : Option Elem :=
  let trimmed := jsTrim (lines.getD i [])
  match jsMatchA JV_CLASS trimmed with
  | some m =>
    let e := findBraceBlockEnd lines i
    some (buildElement (str "class") (str "class " ++ capStr m 5) i e lines)
  | none =>
  match jsMatchA JV_IFACE trimmed with
  | some m =>
    let e := findBraceBlockEnd lines i
    some (buildElement (str "class") (str "interface " ++ capStr m 2) i e lines)
  | none =>
  match jsMatchA JV_ENUM trimmed with
  | some m =>
    let e := findBraceBlockEnd lines i
    some (buildElement (str "class") (str "enum " ++ capStr m 2) i e lines)
  | none =>
  match jsMatchA JV_METHOD trimmed with
  | some m =>
    if (capStr m 7) ∈ [str "if", str "for", str "while", str "switch",
        str "catch", str "return"] then braceLoopBranch JV_LOOP lines i trimmed
    else
      let e := findBraceBlockEnd lines i
      let name := capStr m 7
      let hasReturnType := match capGet m 6 with
        | none => false
        | some s => ! (jsTrim s).isEmpty
      let type := if ! hasReturnType then str "ctor"
        else if (str "test").isPrefixOf name then str "test"
        else str "fn"
      some (buildElement type
        (type ++ str " " ++ name ++ str "(" ++ capStr m 8 ++ str ")") i e lines)
  | none => braceLoopBranch JV_LOOP lines i trimmed

def parseJava (lines : List Str) : List Elem := scanWith (jvLine lines) lines

def ccLine (lines : List Str) (i : Nat) : Option Elem :=
  let trimmed := jsTrim (lines.getD i [])
  match jsMatchA CC_CLASS trimmed with
  | some m =>
    let e := findBraceBlockEnd lines i
    some (buildElement (str "class") (str "class " ++ capStr m 1) i e lines)
  | none =>
  match jsMatchA CC_STRUCT trimmed with
  | some m =>
    let e := findBraceBlockEnd lines i
    some (buildElement (str "class") (str "struct " ++ capStr m 2) i e lines)
  | none =>
  match jsMatchA CC_FUNC trimmed with
  | some m =>
    if (capStr m 2) ∈ [str "if", str "for", str "while", str "switch",
        str "return", str "typedef", str "struct", str "class",
        str "enum"] then braceLoopBranch CC_LOOP lines i trimmed
    else
      let e := findBraceBlockEnd lines i
      some (buildElement (str "fn")
        (str "fn " ++ capStr m 2 ++ str "(" ++ capStr m 3 ++ str ")") i e lines)
  | none => braceLoopBranch CC_LOOP lines i trimmed

def parseCCpp (lines : List Str) : List Elem := scanWith (ccLine lines) lines

def csLine (lines : List Str) (i : Nat) : Option Elem :=
  let trimmed := jsTrim (lines.getD i [])
  match jsMatchA CS_TYPE trimmed with
  | some m =>
    let e := findBraceBlockEnd lines i
    some (buildElement (str "class") (capStr m 5 ++ str " " ++ capStr m 6)
      i e lines)
  | none =>
  match jsMatchA CS_METHOD trimmed with
  | some m =>
    if (capStr m 6) ∈ [str "if", str "for", str "while", str "switch",
        str "catch", str "return", str "class", str "struct",
        str "interface", str "enum"] then
      braceLoopBranch CS_LOOP lines i trimmed
    else
      let e := findBraceBlockEnd lines i
      let type := if (capGet m 3).isSome then str "async" else str "fn"
      some (buildElement type
        (type ++ str " " ++ capStr m 6 ++ str "(" ++ capStr m 7 ++ str ")")
        i e lines)
  | none => braceLoopBranch CS_LOOP lines i trimmed

def parseCSharp (lines : List Str) : List Elem := scanWith (csLine lines) lines

def phLine (lines : List Str) (i : Nat) : Option Elem :=
  let trimmed := jsTrim (lines.getD i [])
  match jsMatchA PH_TYPE trimmed with
  | some m =>
    let e := findBraceBlockEnd lines i
    some (buildElement (str "class") (capStr m 3 ++ str " " ++ capStr m 4)
      i e lines)
  | none =>
  match jsMatchA PH_FUNC trimmed with
  | some m =>
    let e := findBraceBlockEnd lines i
    let type := if capStr m 3 = str "__construct" then str "ctor"
      else if (str "test").isPrefixOf (capStr m 3) then str "test"
      else str "fn"
    some (buildElement type
      (type ++ str " " ++ capStr m 3 ++ str "(" ++ capStr m 4 ++ str ")")
      i e lines)
  | none => braceLoopBranch PH_LOOP lines i trimmed

def parsePHP (lines : List Str) : List Elem := scanWith (phLine lines) lines

def rbLine (lines : List Str) (i : Nat) : Option Elem :=
  let trimmed := jsTrim (lines.getD i [])
  match jsMatchA RB_CLASS trimmed with
  | some m =>
    let e := findRubyBlockEnd lines i
    some (buildElement (str "class") (str "class " ++ capStr m 1) i e lines)
  | none =>
  match jsMatchA RB_MODULE trimmed with
  | some m =>
    let e := findRubyBlockEnd lines i
    some (buildElement (str "class") (str "module " ++ capStr m 1) i e lines)
  | none =>
  match jsMatchA RB_DEF trimmed with
  | some m =>
    let e := findRubyBlockEnd lines i
    let pre := capStr m 1
    let type := if capStr m 2 = str "initialize" then str "ctor"
      else if (str "test_").isPrefixOf (capStr m 2) then str "test"
      else str "fn"
    some (buildElement type
      (type ++ str " " ++ pre ++ capStr m 2 ++ capStr m 3) i e lines)
  | none => none

def parseRuby (lines : List Str) : List Elem := scanWith (rbLine lines) lines

def swLine (lines : List Str) (i : Nat) : Option Elem :=
  let trimmed := jsTrim (lines.getD i [])
  match jsMatchA SW_TYPE trimmed with
  | some m =>
    let e := findBraceBlockEnd lines i
    some (buildElement (str "class") (capStr m 3 ++ str " " ++ capStr m 4)
      i e lines)
  | none =>
  match jsMatchA SW_FUNC trimmed with
  | some m =>
    let e := findBraceBlockEnd lines i
    let name := capStr m 4
    let type := if name = str "init" then str "ctor"
      else if (str "test").isPrefixOf name then str "test"
      else str "fn"
    some (buildElement type
      (type ++ str " " ++ name ++ str "(" ++ capStr m 5 ++ str ")") i e lines)
  | none =>
  match jsMatchA SW_LOOP trimmed with
  | some m =>
    let e := findBraceBlockEnd lines i
    if e - i + 1 > 5 then
      some (buildElement (str "loop")
        (str "loop " ++ capStr m 1 ++ str " " ++ capStr m 2) i e lines)
    else none
  | none => none

def parseSwift (lines : List Str) : List Elem := scanWith (swLine lines) lines

def ktLine (lines : List Str) (i : Nat) : Option Elem :=
  let trimmed := jsTrim (lines.getD i [])
  match jsMatchA KT_TYPE trimmed with
  | some m =>
    let e := findBraceBlockEnd lines i
    some (buildElement (str "class") (capStr m 2 ++ str " " ++ capStr m 3)
      i e lines)
  | none =>
  match jsMatchA KT_FUN trimmed with
  | some m =>
    let e := findBraceBlockEnd lines i
    let type := if (str "test").isPrefixOf (capStr m 4) then str "test"
      else if (capGet m 3).isSome then str "async"
      else str "fn"
    some (buildElement type
      (type ++ str " " ++ capStr m 4 ++ str "(" ++ capStr m 5 ++ str ")")
      i e lines)
  | none => braceLoopBranch KT_LOOP lines i trimmed

def parseKotlin (lines : List Str) : List Elem := scanWith (ktLine lines) lines

def scLine (lines : List Str) (i : Nat) : Option Elem :=
  let trimmed := jsTrim (lines.getD i [])
  match jsMatchA SC_TYPE trimmed with
  | some m =>
    let e := findBraceBlockEnd lines i
    some (buildElement (str "class")
      (capStr m 1 ++ capStr m 2 ++ str " " ++ capStr m 3) i e lines)
  | none =>
  match jsMatchA SC_DEF trimmed with
  | some m =>
    let e := findBraceBlockEnd lines i
    let type := if (str "test").isPrefixOf (capStr m 2) then str "test"
      else str "fn"
    some (buildElement type
      (type ++ str " " ++ capStr m 2 ++ capStr m 3) i e lines)
  | none => none

def parseScala (lines : List Str) : List Elem := scanWith (scLine lines) lines

def luLine (lines : List Str) (i : Nat) : Option Elem :=
  let trimmed := jsTrim (lines.getD i [])
  match jsMatchA LU_FUNC trimmed with
  | some m =>
    let e := findLuaBlockEnd lines i
    some (buildElement (str "fn")
      (str "fn " ++ capStr m 2 ++ str "(" ++ capStr m 3 ++ str ")") i e lines)
  | none =>
  match jsMatchA LU_LOOP trimmed with
  | some m =>
    let e := findLuaBlockEnd lines i
    if e - i + 1 > 5 then
      some (buildElement (str "loop")
        (str "loop " ++ capStr m 1 ++ str " " ++ capStr m 2) i e lines)
    else none
  | none => none

def parseLua (lines : List Str) : List Elem := scanWith (luLine lines) lines

def plLine (lines : List Str) (i : Nat) : Option Elem :=
  let trimmed := jsTrim (lines.getD i [])
  match jsMatchA PL_PKG trimmed with
  | some m =>
    some (buildElement (str "class") (str "package " ++ capStr m 1) i i lines)
  | none =>
  match jsMatchA PL_SUB trimmed with
  | some m =>
    let e := findBraceBlockEnd lines i
    some (buildElement (str "fn") (str "fn " ++ capStr m 1) i e lines)
  | none => none

def parsePerl (lines : List Str) : List Elem := scanWith (plLine lines) lines

/-- The Bash loop branch searches forward for the first line whose trimmed
text is exactly `done` (index.js:1074–1088). -/
def bashLoopEnd (lines : List Str) (i : Nat) : Nat :=
  match (List.range lines.length).find?
      (fun j => decide (i + 1 ≤ j) && decide (jsTrim (lines.getD j []) = str "done")) with
  | some j => j
  | none => i

def baLine (lines : List Str) (i : Nat) : Option Elem :=
  let trimmed := jsTrim (lines.getD i [])
  match jsMatchA BA_FN trimmed with
  | some m =>
    if (capGet m 1).isSome then
      let e := findBraceBlockEnd lines i
      some (buildElement (str "fn") (str "fn " ++ capStr m 2) i e lines)
    else if containsSub (str "()") trimmed then
      let e := findBraceBlockEnd lines i
      some (buildElement (str "fn") (str "fn " ++ capStr m 2) i e lines)
    else baLoopBranch lines i trimmed
  | none => baLoopBranch lines i trimmed
where
  baLoopBranch (lines : List Str) (i : Nat) (trimmed : Str) : Option Elem :=
    let m0 := match jsMatchA BA_LOOP1 trimmed with
      | some m => some m
      | none => jsMatchA BA_LOOP2 trimmed
    match m0 with
    | some m =>
      let e := bashLoopEnd lines i
      if e - i + 1 > 5 then
        some (buildElement (str "loop")
          (str "loop " ++ capStr m 1 ++ str " " ++ capStr m 2) i e lines)
      else none
    | none => none

def parseBash (lines : List Str) : List Elem := scanWith (baLine lines) lines

-- ---------------------------------------------------------------------------
-- Dispatch (`parseCodeStructure`, index.js:72–128).
-- ---------------------------------------------------------------------------

/-- Index of the last occurrence of `c` in `s`, if any. -/
def lastIdxOf (c : Char) (s : Str) : Option Nat :=
  (List.range s.length).foldl
    (fun acc i => if s.getD i ' ' = c then some i else acc) none

/-- `path.basename`: the final path component (POSIX separator). -/
def baseOf (p : Str) : Str :=
  match lastIdxOf '/' p with
  | some i => p.drop (i + 1)
  | none => p

/-- `path.extname(p)`: from the last `.` of the final component; a leading
dot (dotfile) does not start an extension. -/
def extnameOf (p : Str) : Str :=
  let base := baseOf p
  match lastIdxOf '.' base with
  | none => []
  | some 0 => []
  | some i => base.drop i

/-- The extension dispatch table of `parseCodeStructure`. -/
def knownExts : List Str :=
  [str ".py", str ".js", str ".jsx", str ".mjs", str ".cjs", str ".ts",
    str ".tsx", str ".mts", str ".cts", str ".go", str ".rs", str ".java",
    str ".c", str ".h", str ".cpp", str ".hpp", str ".cc", str ".cxx",
    str ".cs", str ".php", str ".rb", str ".swift", str ".kt", str ".kts",
    str ".scala", str ".sc", str ".lua", str ".pl", str ".pm", str ".sh",
    str ".bash", str ".zsh"]

/-- The dispatch of `parseCodeStructure` on the lower-cased extension. -/
def dispatchExt (ext : Str) (lines : List Str) : List Elem :=
  if ext = str ".py" then parsePython lines
  else if ext = str ".js" ∨ ext = str ".jsx" ∨ ext = str ".mjs" ∨
      ext = str ".cjs" then parseJavaScript lines
  else if ext = str ".ts" ∨ ext = str ".tsx" ∨ ext = str ".mts" ∨
      ext = str ".cts" then parseTypeScript lines
  else if ext = str ".go" then parseGo lines
  else if ext = str ".rs" then parseRust lines
  else if ext = str ".java" then parseJava lines
  else if ext = str ".c" ∨ ext = str ".h" ∨ ext = str ".cpp" ∨
      ext = str ".hpp" ∨ ext = str ".cc" ∨ ext = str ".cxx" then
    parseCCpp lines
  else if ext = str ".cs" then parseCSharp lines
  else if ext = str ".php" then parsePHP lines
  else if ext = str ".rb" then parseRuby lines
  else if ext = str ".swift" then parseSwift lines
  else if ext = str ".kt" ∨ ext = str ".kts" then parseKotlin lines
  else if ext = str ".scala" ∨ ext = str ".sc" then parseScala lines
  else if ext = str ".lua" then parseLua lines
  else if ext = str ".pl" ∨ ext = str ".pm" then parsePerl lines
  else if ext = str ".sh" ∨ ext = str ".bash" ∨ ext = str ".zsh" then
    parseBash lines
  else []

/-- `parseCodeStructure` (index.js:72–128).  Total by construction: every
branch, including the default, returns a (possibly empty) element list. -/
def parseCodeStructure (filePath : Str) (content : Str) : List Elem :=
  dispatchExt (jsToLower (extnameOf filePath)) (splitNl content)

-- ---------------------------------------------------------------------------
-- Element nesting (`nestElements`, index.js:1101–1135).
--
-- The JS loop mutates: a node is appended to its parent's `children` array
-- when attached and its own children array is filled in later.  Here the
-- stack keeps, for each open node, the children collected so far, and the
-- node is materialised when it is popped (or at the final flush); since
-- children are appended in processing order in both versions, the resulting
-- forest is the same.
-- ---------------------------------------------------------------------------

/-- A nested code element. -/
inductive CNode where
  | mk : Elem → List CNode → CNode
deriving Repr

def CNode.el : CNode → Elem
  | .mk e _ => e

def CNode.children : CNode → List CNode
  | .mk _ cs => cs

/-- The sort comparator (index.js:1105–1108): start line ascending, ties by
larger line span first.  Spans are JS integer differences, hence `Int`. -/
def nestLe (a b : Elem) : Bool :=
  if a.startLine ≠ b.startLine then a.startLine < b.startLine
  else (b.endLine : Int) - b.startLine ≤ (a.endLine : Int) - a.startLine

/-- The containment test of the attachment loop (index.js:1119):
`el.startLine >= parent.startLine && el.endLine <= parent.endLine`. -/
def elContains (parent el : Elem) : Bool :=
  parent.startLine ≤ el.startLine && el.endLine ≤ parent.endLine

/-- An open node: its element and the children materialised so far. -/
structure Frame where
  el : Elem
  children : List CNode

/-- The pop loop (index.js:1117–1123) with the current top frame held as an
accumulator: while the top does not contain `el`, materialise it into the
frame below (or the root list). -/
def popUntilGo (el : Elem) (f : Frame) : List Frame → List CNode →
    List Frame × List CNode
  | fs, roots =>
    if elContains f.el el then (f :: fs, roots)
    else
      match fs with
      | [] => ([], roots ++ [CNode.mk f.el f.children])
      | g :: gs =>
        popUntilGo el ⟨g.el, g.children ++ [CNode.mk f.el f.children]⟩ gs roots

/-- Pop stack entries whose range does not contain the current element. -/
def popUntil (el : Elem) : List Frame → List CNode → List Frame × List CNode
  | [], roots => ([], roots)
  | f :: fs, roots => popUntilGo el f fs roots

/-- Process one element of the sorted list. -/
def nestStep (st : List Frame × List CNode) (el : Elem) :
    List Frame × List CNode :=
  let (stack, roots) := popUntil el st.1 st.2
  (⟨el, []⟩ :: stack, roots)

/-- Close every remaining frame at the end of the loop. -/
def flushGo (f : Frame) : List Frame → List CNode → List CNode
  | [], roots => roots ++ [CNode.mk f.el f.children]
  | g :: gs, roots =>
    flushGo ⟨g.el, g.children ++ [CNode.mk f.el f.children]⟩ gs roots

def flushStack : List Frame → List CNode → List CNode
  | [], roots => roots
  | f :: fs, roots => flushGo f fs roots

/-- Stable insertion of `a` after every element that compares at or before
it. -/
def insSorted {α : Type} (le : α → α → Bool) (a : α) : List α → List α
  | [] => [a]
  | b :: t => if le b a then b :: insSorted le a t else a :: b :: t

/-- A stable sort by the comparator, modelling `Array.prototype.sort`
(stable per ES2019).  A stable sort's output is uniquely determined by the
comparator, so insertion sort stands in for the engine's algorithm. -/
def jsSort {α : Type} (le : α → α → Bool) : List α → List α
  | [] => []
  | a :: t => insSorted le a (jsSort le t)

/-- `nestElements` (index.js:1101–1135). -/
def nestElements (elements : List Elem) : List CNode :=
  if elements.isEmpty then []
  else
    let sorted := jsSort nestLe elements
    let st := sorted.foldl nestStep ([], [])
    flushStack st.1 st.2

-- ---------------------------------------------------------------------------
-- The pipeline's file records and per-file processing (index.js:1562–1592).
-- Reading file contents from disk is external I/O; an `InFile` carries the
-- walker-provided metadata together with the content the read would return.
-- The walker's byte-size formatting (`formatBytes`, floating point) is an
-- external collaborator and enters as an opaque `fmtBytes` parameter.
-- ---------------------------------------------------------------------------

/-- A file as delivered by the directory walker. -/
structure InFile where
  relativePath : Str
  content : Str
  size : Nat
  formattedSize : Str

/-- A file after the content/parse pass of `main`. -/
structure PFile where
  relativePath : Str
  content : Str
  size : Nat
  formattedSize : Str
  lineCount : Nat
  mlStart : Nat
  mlEnd : Nat
  codeElements : List CNode

/-- The read loop body (index.js:1562–1592).  A skipped file gets
`content = null` (modelled as the empty string; it is never rendered),
`lineCount = 0` and no elements.  `mlStart`/`mlEnd` are assigned later;
they start at 0 (JS `undefined` is never read before assignment). -/
def processFile (parse : Bool) (skip : Str → Bool) (f : InFile) : PFile :=
  if skip f.relativePath then
    { relativePath := f.relativePath, content := [], size := f.size,
      formattedSize := f.formattedSize, lineCount := 0, mlStart := 0,
      mlEnd := 0, codeElements := [] }
  else
    { relativePath := f.relativePath, content := f.content, size := f.size,
      formattedSize := f.formattedSize, lineCount := jsLineCount f.content,
      mlStart := 0, mlEnd := 0,
      codeElements :=
        if parse then nestElements (parseCodeStructure f.relativePath f.content)
        else [] }

def processAll (parse : Bool) (skip : Str → Bool) (files : List InFile) :
    List PFile :=
  files.map (processFile parse skip)

/-- Step 1 (index.js:1622–1634): provisional ML offsets from a running
cursor starting at 1; a skipped file occupies `4 + 1` lines, a kept file
`4 + lineCount`. -/
def assignTempMl (skip : Str → Bool) : Nat → List PFile → List PFile
  | _, [] => []
  | tempMl, f :: fs =>
    if skip f.relativePath then
      { f with mlStart := tempMl, mlEnd := tempMl + 1 } ::
        assignTempMl skip (tempMl + 4 + 1) fs
    else
      { f with mlStart := tempMl, mlEnd := tempMl + f.lineCount - 1 } ::
        assignTempMl skip (tempMl + 4 + f.lineCount) fs

/-- Step 4 (index.js:1661–1674): true ML offsets.  The cursor starts at
`totalHeaderLines + 1`; content begins two lines (header + fence) after the
block start; a skipped file's placeholder is a single line. -/
def assignRealMl (skip : Str → Bool) : Nat → List PFile → List PFile
  | _, [] => []
  | currentMl, f :: fs =>
    if skip f.relativePath then
      { f with mlStart := currentMl + 2, mlEnd := currentMl + 2 } ::
        assignRealMl skip (currentMl + 2 + 1 + 2) fs
    else
      { f with mlStart := currentMl + 2, mlEnd := currentMl + 2 + f.lineCount - 1 } ::
        assignRealMl skip (currentMl + 2 + f.lineCount + 2) fs

-- ---------------------------------------------------------------------------
-- Code-index tree generation (`generateCodeIndex`, index.js:1245–1319).
-- ---------------------------------------------------------------------------

/-- The nested directory structure: a JS object whose values are either a
`{ __file }` leaf or a sub-object.  Entries keep insertion order. -/
inductive DirT where
  | file : PFile → DirT
  | dir : List (Str × DirT) → DirT

/-- Replace the value at an existing key (keeping its position) or append a
new binding — JS property assignment order semantics. -/
def setKey (k : Str) (v : DirT) : List (Str × DirT) → List (Str × DirT)
  | [] => [(k, v)]
  | (k2, v2) :: rest =>
    if k2 = k then (k, v) :: rest else (k2, v2) :: setKey k v rest

/-- Insert one file under its path parts (index.js:1250–1263).  Descending
through an existing `__file` leaf would in JS attach keys to the file
object, which the renderer never visits; the file system guarantees a path
is not both a file and a directory, so such keys are dropped here. -/
def insertPath (f : PFile) : List Str → List (Str × DirT) → List (Str × DirT)
  | [], level => level
  | [part], level => setKey part (.file f) level
  | part :: rest, level =>
    match level.find? (fun e => e.1 = part) with
    | some (_, .dir sub) => setKey part (.dir (insertPath f rest sub)) level
    | some (_, .file _) => level
    | none => setKey part (.dir (insertPath f rest [])) level

/-- `file.relativePath.split(path.sep)` with the POSIX separator. -/
def splitSlash : Str → List Str
  | [] => [[]]
  | c :: t =>
    if c = '/' then [] :: splitSlash t
    else
      match splitSlash t with
      | [] => [[c]]
      | h :: r => (c :: h) :: r

/-- Build the directory structure from the file list. -/
def buildStructure (files : List PFile) : List (Str × DirT) :=
  files.foldl (fun level f => insertPath f (splitSlash f.relativePath) level) []

/-- Is `s` a canonical array index (`"0"`, or digits without a leading zero,
below 2³² − 1)?  Such object keys enumerate first, in ascending order. -/
def isArrayIdx (s : Str) : Bool :=
  (! s.isEmpty) && s.all Char.isDigit &&
    (s = str "0" || s.head? ≠ some '0') && natOfDigits s < 4294967295
where
  natOfDigits (s : Str) : Nat :=
    s.foldl (fun acc c => acc * 10 + (c.toNat - '0'.toNat)) 0

/-- `Object.keys` enumeration order: array-index keys ascending, then the
remaining keys in insertion order. -/
def jsKeysOrder (entries : List (Str × DirT)) : List (Str × DirT) :=
  jsSort (fun a b => isArrayIdx.natOfDigits a.1 ≤ isArrayIdx.natOfDigits b.1)
      (entries.filter (fun e => isArrayIdx e.1)) ++
    entries.filter (fun e => ! isArrayIdx e.1)

theorem insSorted_perm {α : Type} (le : α → α → Bool) (a : α) (l : List α) :
    (insSorted le a l).Perm (a :: l) := by
  induction l with
  | nil => simp [insSorted]
  | cons b t ih =>
    simp only [insSorted]
    by_cases h : le b a
    · simp only [h, if_true]
      exact (ih.cons b).trans (List.Perm.swap a b t)
    · simp [h]

theorem jsSort_perm {α : Type} (le : α → α → Bool) (l : List α) :
    (jsSort le l).Perm l := by
  induction l with
  | nil => simp [jsSort]
  | cons a t ih => exact (insSorted_perm le a (jsSort le t)).trans (ih.cons a)

theorem sizeOf_of_perm {α : Type} [SizeOf α] {l1 l2 : List α}
    (h : l1.Perm l2) : sizeOf l1 = sizeOf l2 := by
  induction h with
  | nil => rfl
  | cons x _ ih => simp [ih]
  | swap x y l => simp; omega
  | trans _ _ ih1 ih2 => omega

theorem jsKeysOrder_perm (entries : List (Str × DirT)) :
    (jsKeysOrder entries).Perm entries := by
  unfold jsKeysOrder
  exact ((jsSort_perm _ _).append_right _).trans
    (List.filter_append_perm _ entries)

theorem sizeOf_jsKeysOrder (entries : List (Str × DirT)) :
    sizeOf (jsKeysOrder entries) = sizeOf entries :=
  sizeOf_of_perm (jsKeysOrder_perm entries)

/-- `renderCodeElements` (index.js:1296–1315): one line per element, then
its children indented, with the ML range derived from the file's
`mlStart`. -/
def renderCodeElements (fmtBytes : Nat → Str) (mlOffset : Nat) :
    List CNode → Str → Str
  | [], _ => []
  | CNode.mk el children :: rest, pfx =>
    let isLast := rest.isEmpty
    let connector := if isLast then str "└── " else str "├── "
    let childPfx := pfx ++ (if isLast then str "    " else str "│   ")
    let olRange := str "OL: " ++ natStr el.startLine ++ str "-" ++
      natStr el.endLine
    let mlRange := str "ML: " ++ natStr ((mlOffset + el.startLine) - 1) ++
      str "-" ++ natStr ((mlOffset + el.endLine) - 1)
    (pfx ++ connector ++ el.label ++ str " [" ++ olRange ++ str " | " ++
        mlRange ++ str " | " ++ fmtBytes el.size ++ str "]\n") ++
      (if children.length > 0 then
        renderCodeElements fmtBytes mlOffset children childPfx
      else []) ++
      renderCodeElements fmtBytes mlOffset rest pfx

/-- `renderTree` (index.js:1265–1294), on key-ordered entries. -/
def renderEntries (fmtBytes : Nat → Str) (skip : Str → Bool) (noParse : Bool) :
    List (Str × DirT) → Str → Str
  | [], _ => []
  | (key, v) :: rest, pfx =>
    let isLast := rest.isEmpty
    let connector := if isLast then str "└── " else str "├── "
    let childPfx := pfx ++ (if isLast then str "    " else str "│   ")
    (match v with
      | .file f =>
        let olRange := str "OL: 1-" ++ natStr f.lineCount
        let mlRange := str "ML: " ++ natStr f.mlStart ++ str "-" ++
          natStr f.mlEnd
        let isSkipped := skip f.relativePath
        (pfx ++ connector ++ key ++ str " [" ++ olRange ++ str " | " ++
            mlRange ++ str " | " ++ f.formattedSize ++ str "]\n") ++
          (if isSkipped then
            childPfx ++ str "(Content omitted - file size: " ++
              f.formattedSize ++ str ")\n"
          else if (! noParse) && f.codeElements.length > 0 then
            renderCodeElements fmtBytes f.mlStart f.codeElements childPfx
          else [])
      | .dir sub =>
        (pfx ++ connector ++ key ++ str "/\n") ++
          renderEntries fmtBytes skip noParse (jsKeysOrder sub) childPfx) ++
      renderEntries fmtBytes skip noParse rest pfx
termination_by entries _ => sizeOf entries
decreasing_by
  all_goals simp [sizeOf_jsKeysOrder]
  all_goals omega

/-- `generateCodeIndex` (index.js:1245–1319).  `rootName` is the walker-side
`path.basename(root)`. -/
def generateCodeIndex (files : List PFile) (rootName : Str)
    (skip : Str → Bool) (noParse : Bool) (fmtBytes : Nat → Str) : Str :=
  (rootName ++ str "/\n") ++
    renderEntries fmtBytes skip noParse (jsKeysOrder (buildStructure files)) []

-- ---------------------------------------------------------------------------
-- Assembling the output document (index.js:1594–1755).
-- ---------------------------------------------------------------------------

/-- `DEFAULT_SYSTEM_PROMPT` (index.js:15–23). -/
def DEFAULT_SYSTEM_PROMPT : Str :=
  str "You are an expert software architect. The user is providing you with the complete source code for a project, contained in a single file. Your task is to meticulously analyze the provided codebase to gain a comprehensive understanding of its structure, functionality, dependencies, and overall architecture.\n\nA code map with expanded tree structure `<code_index>` is provided below to give you a high-level overview. The subsequent section `<merged_code>` contain the full content of each file (read using the command `sed -n '<ML_START>,<ML_END>p' combicode.txt`), clearly marked with a file header.\n\nYour instructions are:\n1.  Analyze Thoroughly: Read through every file to understand its purpose and how it interacts with other files.\n2.  Identify Key Components: Pay close attention to configuration files (like package.json, pyproject.toml), entry points (like index.js, main.py), and core logic.\n3.  Use the Code Map: The code map shows classes, functions, loops with their line numbers (OL = Original Line, ML = Merged Line) and sizes for precise navigation.\n"

/-- `LLMS_TXT_SYSTEM_PROMPT` (index.js:25–30). -/
def LLMS_TXT_SYSTEM_PROMPT : Str :=
  str "You are an expert software architect. The user is providing you with the full documentation for a project. This file contains the complete context needed to understand the project's features, APIs, and usage for a specific version. Your task is to act as a definitive source of truth based *only* on this provided documentation.\n\nWhen answering questions or writing code, adhere strictly to the functions, variables, and methods described in this context. Do not use or suggest any deprecated or older functionalities that are not present here.\n\nA code map with expanded tree structure is provided below for a high-level overview.\n"

/-- The system prompt selected by `--llms-txt` (index.js:1596–1598). -/
def systemPromptOf (llmsTxt : Bool) : Str :=
  if llmsTxt then LLMS_TXT_SYSTEM_PROMPT else DEFAULT_SYSTEM_PROMPT

/-- Step 3 (index.js:1648–1659): the fixed line count preceding the first
file block. -/
def totalHeaderLines (hdr : Bool) (prompt : Str) (codeIndexLineCount : Nat) :
    Nat :=
  if hdr then
    splitNlLen prompt + 1 + codeIndexLineCount + 1 + 1 + 1
  else 1

/-- `relativePath.replace(/\\/g, "/")` (index.js:1725). -/
def replaceBS (s : Str) : Str := s.map (fun c => if c = '\\' then '/' else c)

/-- One FileBlock of the output (index.js:1724–1751): header line, opening
fence, verbatim content (with a newline forced if missing) or the omission
placeholder, closing fence, blank separator. -/
def fileBlock (skip : Str → Bool) (f : PFile) : Str :=
  (str "# FILE: " ++ replaceBS f.relativePath ++ str " [OL: 1-" ++
    natStr f.lineCount ++ str " | ML: " ++ natStr f.mlStart ++ str "-" ++
    natStr f.mlEnd ++ str " | " ++ f.formattedSize ++ str "]\n") ++
  str "````\n" ++
  (if skip f.relativePath then
    str "(Content omitted - file size: " ++ f.formattedSize ++ str ")\n"
  else
    f.content ++ (if endsWithNl f.content then [] else str "\n")) ++
  str "````\n\n"

/-- The output document (index.js:1704–1755):  prompt (plus its forced
newline), the code-index section and sentinels when the header is enabled,
then one FileBlock per file and the closing sentinel. -/
def assembleDoc (hdr : Bool) (prompt codeIndex : Str) (files : List PFile)
    (skip : Str → Bool) : Str :=
  (if hdr then
    prompt ++ str "\n" ++ str "<code_index>\n" ++ codeIndex ++
      str "</code_index>\n\n" ++ str "<merged_code>\n"
  else str "<merged_code>\n") ++
  (files.map (fileBlock skip)).flatten ++
  str "</merged_code>\n"

/-- Configuration of one combine-mode invocation (argument-parsing and the
walker are external). -/
structure Config where
  parse : Bool
  header : Bool
  llmsTxt : Bool
  rootName : Str
  fmtBytes : Nat → Str

/-- The processed file list before ML assignment. -/
def procFiles (cfg : Config) (skip : Str → Bool) (files : List InFile) :
    List PFile :=
  processAll cfg.parse skip files

/-- Pass 1–2: provisional offsets and the provisional code index. -/
def indexPass1 (cfg : Config) (skip : Str → Bool) (files : List InFile) : Str :=
  generateCodeIndex (assignTempMl skip 1 (procFiles cfg skip files))
    cfg.rootName skip (! cfg.parse) cfg.fmtBytes

/-- The measured line count of a rendered code index (index.js:1643–1646);
the index ends with a newline, so `split` overcounts by one. -/
def indexLineCount (codeIndex : Str) : Nat :=
  if endsWithNl codeIndex then splitNlLen codeIndex - 1
  else splitNlLen codeIndex

/-- Step 3's header-line count for this invocation. -/
def headerLinesOf (cfg : Config) (skip : Str → Bool) (files : List InFile) :
    Nat :=
  totalHeaderLines cfg.header (systemPromptOf cfg.llmsTxt)
    (indexLineCount (indexPass1 cfg skip files))

/-- Step 4's final ML table. -/
def filesPass2 (cfg : Config) (skip : Str → Bool) (files : List InFile) :
    List PFile :=
  assignRealMl skip (headerLinesOf cfg skip files + 1)
    (procFiles cfg skip files)

/-- Step 5: the final code index. -/
def indexPass2 (cfg : Config) (skip : Str → Bool) (files : List InFile) : Str :=
  generateCodeIndex (filesPass2 cfg skip files) cfg.rootName skip
    (! cfg.parse) cfg.fmtBytes

/-- The whole combine pipeline: the text `main` writes to the output file. -/
def combineDoc (cfg : Config) (skip : Str → Bool) (files : List InFile) : Str :=
  assembleDoc cfg.header (systemPromptOf cfg.llmsTxt)
    (indexPass2 cfg skip files) (filesPass2 cfg skip files) skip

-- ---------------------------------------------------------------------------
-- Extraction (`recreateFromFile`, index.js:1325–1394).  Only the parsing of
-- the merged document is modelled; writing files to disk is external I/O.
-- ---------------------------------------------------------------------------

/-- `/# FILE:\s*(.+?)\s*\[.*?\]\n````\n([\s\S]*?)\n````/` (index.js:1336). -/
def FILE_RE : RE :=
  reCat [.lit (str "# FILE:"), .starG isWsChar, .grp 1 (.plusL isDotChar),
    .starG isWsChar, .lit (str "["), .starL isDotChar, .lit (str "]"),
    .lit (str "\n````\n"), .grp 2 (.starL isAnyChar), .lit (str "\n````")]

/-- `/### \*\*FILE:\*\*\s*`(.+?)`\n````\n([\s\S]*?)\n````/`
(index.js:1351). -/
def LEGACY_RE : RE :=
  reCat [.lit (str "### **FILE:**"), .starG isWsChar, .lit (str "`"),
    .grp 1 (.plusL isDotChar), .lit (str "`"), .lit (str "\n````\n"),
    .grp 2 (.starL isAnyChar), .lit (str "\n````")]

theorem orElse_eq_some {α : Type} {x : Option α} {g : Unit → Option α} {a : α}
    (h : (x.orElse g) = some a) : x = some a ∨ (x = none ∧ g () = some a) := by
  cases x with
  | some b => left; simpa [Option.orElse] using h
  | none => right; exact ⟨rfl, by simpa [Option.orElse] using h⟩

theorem starGRun_imp {α : Type} (f : Char → Bool) :
    ∀ (s : Str) (k : Str → Option α) (a : α), starGRun f s k = some a →
      ∃ s', s'.length ≤ s.length ∧ k s' = some a := by
  intro s
  induction s with
  | nil => intro k a h; exact ⟨[], by simp, h⟩
  | cons c t ih =>
    intro k a h
    simp only [starGRun] at h
    by_cases hc : f c
    · simp only [hc, if_true] at h
      rcases orElse_eq_some h with h1 | ⟨_, h2⟩
      · obtain ⟨s', hlen, hk⟩ := ih k a h1
        exact ⟨s', by simpa using Nat.le_succ_of_le hlen, hk⟩
      · exact ⟨c :: t, le_refl _, h2⟩
    · simp only [hc, if_false] at h
      exact ⟨c :: t, le_refl _, h⟩

theorem starLRun_imp {α : Type} (f : Char → Bool) :
    ∀ (s : Str) (k : Str → Option α) (a : α), starLRun f s k = some a →
      ∃ s', s'.length ≤ s.length ∧ k s' = some a := by
  intro s
  induction s with
  | nil => intro k a h; exact ⟨[], by simp, h⟩
  | cons c t ih =>
    intro k a h
    simp only [starLRun] at h
    rcases orElse_eq_some h with h1 | ⟨_, h2⟩
    · exact ⟨c :: t, le_refl _, h1⟩
    · by_cases hc : f c
      · simp only [hc, if_true] at h2
        obtain ⟨s', hlen, hk⟩ := ih k a h2
        exact ⟨s', by simpa using Nat.le_succ_of_le hlen, hk⟩
      · simp [hc] at h2

/-- The continuation of a successful match is applied to a no-longer input. -/
theorem reM_imp {α : Type} :
    ∀ (re : RE) (s : Str) (cs : Caps) (k : Caps → Str → Option α) (a : α),
      reM re s cs k = some a →
      ∃ cs' s', s'.length ≤ s.length ∧ k cs' s' = some a := by
  intro re
  induction re with
  | lit l =>
    intro s cs k a h
    simp only [reM] at h
    by_cases hp : l.isPrefixOf s
    · simp only [hp, if_true] at h
      exact ⟨cs, s.drop l.length, by simp, h⟩
    · simp [hp] at h
  | one f =>
    intro s cs k a h
    cases s with
    | nil => simp [reM] at h
    | cons c t =>
      simp only [reM] at h
      by_cases hc : f c
      · simp only [hc, if_true] at h
        exact ⟨cs, t, by simp, h⟩
      · simp [hc] at h
  | starG f =>
    intro s cs k a h
    obtain ⟨s', hlen, hk⟩ := starGRun_imp f s (k cs) a h
    exact ⟨cs, s', hlen, hk⟩
  | starL f =>
    intro s cs k a h
    obtain ⟨s', hlen, hk⟩ := starLRun_imp f s (k cs) a h
    exact ⟨cs, s', hlen, hk⟩
  | plusG f =>
    intro s cs k a h
    cases s with
    | nil => simp [reM] at h
    | cons c t =>
      simp only [reM] at h
      by_cases hc : f c
      · simp only [hc, if_true] at h
        obtain ⟨s', hlen, hk⟩ := starGRun_imp f t (k cs) a h
        exact ⟨cs, s', by simpa using Nat.le_succ_of_le hlen, hk⟩
      · simp [hc] at h
  | plusL f =>
    intro s cs k a h
    cases s with
    | nil => simp [reM] at h
    | cons c t =>
      simp only [reM] at h
      by_cases hc : f c
      · simp only [hc, if_true] at h
        obtain ⟨s', hlen, hk⟩ := starLRun_imp f t (k cs) a h
        exact ⟨cs, s', by simpa using Nat.le_succ_of_le hlen, hk⟩
      · simp [hc] at h
  | grp n r ih =>
    intro s cs k a h
    simp only [reM] at h
    obtain ⟨cs2, s2, hlen, hk⟩ := ih s cs _ a h
    exact ⟨(n, s.take (s.length - s2.length)) :: cs2, s2, hlen, hk⟩
  | cat p q ihp ihq =>
    intro s cs k a h
    simp only [reM] at h
    obtain ⟨cs1, s1, hlen1, hk1⟩ := ihp s cs _ a h
    obtain ⟨cs2, s2, hlen2, hk2⟩ := ihq s1 cs1 k a hk1
    exact ⟨cs2, s2, hlen2.trans hlen1, hk2⟩
  | alt p q ihp ihq =>
    intro s cs k a h
    simp only [reM] at h
    rcases orElse_eq_some h with h1 | ⟨_, h2⟩
    · exact ihp s cs k a h1
    · exact ihq s cs k a h2
  | opt r ih =>
    intro s cs k a h
    simp only [reM] at h
    rcases orElse_eq_some h with h1 | ⟨_, h2⟩
    · exact ih s cs k a h1
    · exact ⟨cs, s, le_refl _, h2⟩
  | eos =>
    intro s cs k a h
    cases s with
    | nil => exact ⟨cs, [], by simp, h⟩
    | cons c t => simp [reM] at h
  | noWordAfter =>
    intro s cs k a h
    cases s with
    | nil => exact ⟨cs, [], by simp, h⟩
    | cons c t =>
      simp only [reM] at h
      by_cases hc : isWordChar c
      · simp [hc] at h
      · simp only [hc, if_false] at h
        exact ⟨cs, c :: t, le_refl _, h⟩

/-- A match of a pattern headed by a non-empty literal strictly shrinks the
input. -/
theorem reMatchAt_cat_lit_lt {l : Str} (hl : l ≠ []) (r : RE) (s : Str)
    (cs : Caps) (rest : Str)
    (h : reMatchAt (.cat (.lit l) r) s = some (cs, rest)) :
    rest.length < s.length := by
  simp only [reMatchAt, reM] at h
  by_cases hp : l.isPrefixOf s
  · simp only [hp, if_true] at h
    obtain ⟨cs', s2, hlen, hk⟩ := reM_imp r (s.drop l.length) [] _ (cs, rest) h
    have hrest : s2 = rest := by
      simpa using congrArg (fun x => x.map Prod.snd) hk
    have hls : l.length ≤ s.length :=
      List.IsPrefix.length_le ((List.isPrefixOf_iff_prefix).mp hp)
    have hlpos : 0 < l.length := List.length_pos.mpr hl
    have hlen2 : s2.length ≤ s.length - l.length := by simpa using hlen
    have hrl : rest.length = s2.length := by rw [hrest]
    omega
  · simp [hp] at h

theorem reSearch_lt {l : Str} (hl : l ≠ []) (r : RE) :
    ∀ (s : Str) (cs : Caps) (rest : Str),
      reSearch (.cat (.lit l) r) s = some (cs, rest) →
      rest.length < s.length := by
  intro s
  induction s with
  | nil =>
    intro cs rest h
    simp only [reSearch, reMatchAt, reM] at h
    have : ¬ l.isPrefixOf ([] : Str) := by
      cases l with
      | nil => exact absurd rfl hl
      | cons c t => simp [List.isPrefixOf]
    simp [this] at h
  | cons c t ih =>
    intro cs rest h
    simp only [reSearch] at h
    cases hm : reMatchAt (.cat (.lit l) r) (c :: t) with
    | some p =>
      rw [hm] at h
      cases h
      exact reMatchAt_cat_lit_lt hl r _ _ _ hm
    | none =>
      rw [hm] at h
      have := ih cs rest h
      simpa using Nat.lt_succ_of_lt this

/-- The exec loop of `recreateFromFile` (index.js:1339–1347 and 1352–1357):
repeatedly take the leftmost match, skipping a block whose body's trimmed
text starts with `(Content omitted`.  The fuel only bounds the number of
rounds: both patterns begin with a non-empty literal, so a match strictly
shrinks the remaining input (`reSearch_lt`) and `s.length + 1` rounds are
never exhausted. -/
def scanBlocksF (re : RE) : Nat → Str → List (Str × Str)
  | 0, _ => []
  | fuel + 1, s =>
    match reSearch re s with
    | none => []
    | some (cs, rest) =>
      (if (str "(Content omitted").isPrefixOf (jsTrim (capStr cs 2)) then []
      else [(jsTrim (capStr cs 1), capStr cs 2)]) ++ scanBlocksF re fuel rest

def scanBlocks (re : RE) (s : Str) : List (Str × Str) :=
  scanBlocksF re (s.length + 1) s

/-- The parsing phase of `recreateFromFile`: the current header pattern,
falling back to the legacy pattern when no file matched.  (The subsequent
"no files found" exit and the on-disk writes are outside the model.) -/
def recreateParse (content : Str) : List (Str × Str) :=
  let files := scanBlocks FILE_RE content
  if files.isEmpty then scanBlocks LEGACY_RE content
  else files

-- ---------------------------------------------------------------------------
-- Basic facts about the string model.
-- ---------------------------------------------------------------------------

theorem splitNl_ne_nil (s : Str) : splitNl s ≠ [] := by
  cases s with
  | nil => simp [splitNl]
  | cons c t =>
    simp only [splitNl]
    by_cases hc : c = '\n'
    · simp [hc]
    · simp only [hc, if_false]
      cases splitNl t <;> simp

theorem splitNlLen_pos (s : Str) : 1 ≤ splitNlLen s := by
  have := splitNl_ne_nil s
  unfold splitNlLen
  cases h : splitNl s with
  | nil => exact absurd h this
  | cons a b => simp

theorem splitNl_cons_ne (c : Char) (t : Str) (hc : ¬ c = '\n') :
    splitNlLen (c :: t) = splitNlLen t := by
  unfold splitNlLen
  simp only [splitNl, hc, if_false]
  cases h : splitNl t with
  | nil => exact absurd h (splitNl_ne_nil t)
  | cons a b => simp

theorem endsWithNl_exists (s : Str) (h : endsWithNl s = true) :
    ∃ s0, s = s0 ++ ['\n'] := by
  unfold endsWithNl at h
  cases hg : s.getLast? with
  | none => rw [hg] at h; simp at h
  | some c =>
    rw [hg] at h
    have hc : c = '\n' := by simpa using h
    subst hc
    have hne : s ≠ [] := by
      intro he
      rw [he] at hg
      simp at hg
    refine ⟨s.dropLast, ?_⟩
    have hlast : s.getLast hne = '\n' := by
      have := List.getLast?_eq_getLast s hne
      rw [hg] at this
      exact (Option.some.injEq _ _).mp this.symm
    conv_lhs => rw [← List.dropLast_append_getLast hne]
    rw [hlast]

theorem splitNlLen_append_nl (s0 : Str) : 2 ≤ splitNlLen (s0 ++ ['\n']) := by
  induction s0 with
  | nil =>
    show 2 ≤ splitNlLen ['\n']
    decide
  | cons c t ih =>
    by_cases hc : c = '\n'
    · have h1 : splitNlLen ((c :: t) ++ ['\n']) = 1 + splitNlLen (t ++ ['\n']) := by
        unfold splitNlLen
        simp [splitNl, hc]
        omega
      have := splitNlLen_pos (t ++ ['\n'])
      omega
    · have : (c :: t) ++ ['\n'] = c :: (t ++ ['\n']) := rfl
      rw [this, splitNl_cons_ne c _ hc]
      exact ih

theorem endsWithNl_splitNlLen (s : Str) (h : endsWithNl s = true) :
    2 ≤ splitNlLen s := by
  obtain ⟨s0, rfl⟩ := endsWithNl_exists s h
  exact splitNlLen_append_nl s0

theorem jsLineCount_pos (content : Str) : 1 ≤ jsLineCount content := by
  unfold jsLineCount
  by_cases h : endsWithNl content = true
  · have := endsWithNl_splitNlLen content h
    simp only [h, if_true]
    omega
  · simp only [h]
    simpa using splitNlLen_pos content

/-- A processed, non-omitted file has at least one content line. -/
theorem processFile_lineCount_pos (parse : Bool) (skip : Str → Bool)
    (f : InFile) (h : skip f.relativePath = false) :
    1 ≤ (processFile parse skip f).lineCount := by
  unfold processFile
  simp only [h, Bool.false_eq_true, if_false]
  exact jsLineCount_pos f.content

theorem processFile_relativePath (parse : Bool) (skip : Str → Bool)
    (f : InFile) : (processFile parse skip f).relativePath = f.relativePath := by
  unfold processFile
  by_cases h : skip f.relativePath <;> simp [h]

/-- Shape of the files produced by the final resolver pass: each output file
comes from an input file, keeping path and line count, with the ML range the
pass assigns. -/
theorem assignRealMl_shape (skip : Str → Bool) :
    ∀ (cur : Nat) (fs : List PFile) (g : PFile), g ∈ assignRealMl skip cur fs →
      ∃ f ∈ fs, g.relativePath = f.relativePath ∧ g.lineCount = f.lineCount ∧
        ((skip f.relativePath = true ∧ g.mlEnd = g.mlStart) ∨
          (skip f.relativePath = false ∧
            g.mlEnd = g.mlStart + f.lineCount - 1)) := by
  intro cur fs
  induction fs generalizing cur with
  | nil => intro g hg; simp [assignRealMl] at hg
  | cons f fs ih =>
    intro g hg
    by_cases hs : skip f.relativePath
    · simp only [assignRealMl, hs, if_true, List.mem_cons] at hg
      rcases hg with hg | hg
      · exact ⟨f, List.mem_cons_self f fs, by subst hg; simp,
          by subst hg; simp, Or.inl ⟨hs, by subst hg; simp⟩⟩
      · obtain ⟨f2, hf2, hrest⟩ := ih _ g hg
        exact ⟨f2, List.mem_cons_of_mem f hf2, hrest⟩
    · simp only [assignRealMl, hs, Bool.false_eq_true, if_false,
        List.mem_cons] at hg
      rcases hg with hg | hg
      · refine ⟨f, List.mem_cons_self f fs, by subst hg; simp,
          by subst hg; simp, Or.inr ⟨by simpa using hs, ?_⟩⟩
        subst hg
        simp
      · obtain ⟨f2, hf2, hrest⟩ := ih _ g hg
        exact ⟨f2, List.mem_cons_of_mem f hf2, hrest⟩

/-- A member of the processed file list has positive line count unless
omitted. -/
theorem processAll_lineCount (parse : Bool) (skip : Str → Bool)
    (files : List InFile) (g : PFile) (hg : g ∈ processAll parse skip files)
    (h : skip g.relativePath = false) : 1 ≤ g.lineCount := by
  unfold processAll at hg
  obtain ⟨f, _, rfl⟩ := List.mem_map.mp hg
  apply processFile_lineCount_pos
  rwa [processFile_relativePath] at h

-- ---------------------------------------------------------------------------
-- Shared concrete inputs used by witnesses and counterexamples.
-- ---------------------------------------------------------------------------

/-- A simple decimal byte formatter standing in for the walker's
`formatBytes` on the concrete examples. -/
def exFmt : Nat → Str := fun n => natStr n ++ str "B"

def exCfg : Config :=
  { parse := true, header := true, llmsTxt := false, rootName := str "proj",
    fmtBytes := exFmt }

def exCfgNH : Config :=
  { parse := true, header := false, llmsTxt := false, rootName := str "proj",
    fmtBytes := exFmt }

def exNoSkip : Str → Bool := fun _ => false

def exSkipB : Str → Bool := fun p => p = str "b.txt"

def exFiles : List InFile :=
  [{ relativePath := str "a.txt", content := str "x\n", size := 2,
     formattedSize := str "2B" },
   { relativePath := str "b.txt", content := str "hello", size := 5,
     formattedSize := str "5B" }]

/-- `filesPass2 exCfgNH exSkipB exFiles` evaluates to these two records. -/
def exA2 : PFile :=
  { relativePath := str "a.txt", content := str "x\n", size := 2,
    formattedSize := str "2B", lineCount := 1, mlStart := 4, mlEnd := 4,
    codeElements := [] }

def exB2 : PFile :=
  { relativePath := str "b.txt", content := [], size := 5,
    formattedSize := str "5B", lineCount := 0, mlStart := 9, mlEnd := 9,
    codeElements := [] }

theorem exPass2_eval : filesPass2 exCfgNH exSkipB exFiles = [exA2, exB2] := by
  rfl

-- ---------------------------------------------------------------------------
-- Claim theorems.
-- ---------------------------------------------------------------------------

/-- **C2** (content-preservation law).  After the resolver's final pass
(`assignRealMl`, step 4 of `main`), every non-omitted file satisfies
`mlEnd - mlStart = olEnd - olStart` where its OL range is `1..lineCount`
(so `olEnd - olStart = lineCount - 1`), and every content-omitted file's ML
range has length exactly 1 (`mlEnd = mlStart`) regardless of its OL
length. -/
theorem claim_C2_content_preservation (cfg : Config) (skip : Str → Bool)
    (files : List InFile) (f : PFile)
    (hf : f ∈ filesPass2 cfg skip files) :
    (skip f.relativePath = false →
      f.mlStart ≤ f.mlEnd ∧ f.mlEnd - f.mlStart = f.lineCount - 1) ∧
    (skip f.relativePath = true →
      f.mlEnd = f.mlStart ∧ f.mlEnd - f.mlStart + 1 = 1) := by
  unfold filesPass2 at hf
  obtain ⟨g, hgmem, hpath, hlc, hml⟩ := assignRealMl_shape skip _ _ f hf
  constructor
  · intro hns
    rw [hpath] at hns
    rcases hml with ⟨hsk, _⟩ | ⟨hsk, heq⟩
    · rw [hns] at hsk; cases hsk
    · have hpos : 1 ≤ g.lineCount :=
        processAll_lineCount cfg.parse skip files g hgmem hsk
      rw [hlc]
      omega
  · intro hsk2
    rw [hpath] at hsk2
    rcases hml with ⟨_, heq⟩ | ⟨hsk, _⟩
    · omega
    · rw [hsk2] at hsk; cases hsk

/-- Witness for C2 at a concrete invocation: the non-omitted file `a.txt`
of `exFiles` (line count 1, final ML range 4–4). -/
theorem claim_C2_witness :
    (exSkipB exA2.relativePath = false →
      exA2.mlStart ≤ exA2.mlEnd ∧ exA2.mlEnd - exA2.mlStart = exA2.lineCount - 1) ∧
    (exSkipB exA2.relativePath = true →
      exA2.mlEnd = exA2.mlStart ∧ exA2.mlEnd - exA2.mlStart + 1 = 1) :=
  claim_C2_content_preservation exCfgNH exSkipB exFiles exA2
    (by rw [exPass2_eval]; exact List.mem_cons_self _ _)

-- ---------------------------------------------------------------------------
-- C6: the loop-length filter.  Every parser emits a `loop` element only
-- under the guard `end - i + 1 > 5`, so a loop element always spans at
-- least six lines.
-- ---------------------------------------------------------------------------

/-- A loop element spans strictly more than five lines. -/
def loopSpanOk (e : Elem) : Prop :=
  e.type = str "loop" → e.startLine + 5 ≤ e.endLine

theorem braceLoopBranch_loopOk (re : RE) (lines : List Str) (i : Nat)
    (trimmed : Str) (e : Elem) (he : braceLoopBranch re lines i trimmed = some e) :
    loopSpanOk e := by
  simp only [braceLoopBranch] at he
  split at he
  · split at he
    · cases he
      intro ht
      simp only [buildElement, Elem.startLine, Elem.endLine]
      omega
    · cases he
  · cases he

/-- Lift a per-line property over `scanWith`. -/
theorem scanWith_prop (P : Elem → Prop) (f : Nat → Option Elem)
    (lines : List Str) (h : ∀ i e, f i = some e → P e) :
    ∀ e ∈ scanWith f lines, P e := by
  intro e he
  unfold scanWith at he
  obtain ⟨i, _, hf⟩ := List.mem_filterMap.mp he
  exact h i e hf

theorem pyLine_loopOk (lines : List Str) (i : Nat) (e : Elem)
    (he : pyLine lines i = some e) : loopSpanOk e := by
  simp only [pyLine] at he
  split at he
  · cases he; intro ht; simp only [buildElement] at ht
    exact absurd ht (by decide)
  · split at he
    · cases he; intro ht; simp only [buildElement] at ht
      (repeat' split at ht) <;> exact absurd ht (by decide)
    · split at he
      · cases he; intro ht; simp only [buildElement] at ht
        (repeat' split at ht) <;> exact absurd ht (by decide)
      · split at he
        · split at he
          · cases he
            intro ht
            simp only [buildElement, Elem.startLine, Elem.endLine]
            omega
          · cases he
        · cases he

theorem jsLine_loopOk (lines : List Str) (i : Nat) (e : Elem)
    (he : jsLine lines i = some e) : loopSpanOk e := by
  simp only [jsLine] at he
  split at he
  · cases he; intro ht; simp only [buildElement] at ht
    exact absurd ht (by decide)
  · split at he
    · cases he; intro ht; simp only [buildElement] at ht
      exact absurd ht (by decide)
    · split at he
      · cases he; intro ht; simp only [buildElement] at ht
        exact absurd ht (by decide)
      · split at he
        · cases he; intro ht; simp only [buildElement] at ht
          exact absurd ht (by decide)
        · split at he
          · cases he; intro ht; simp only [buildElement] at ht
            (repeat' split at ht) <;> exact absurd ht (by decide)
          · split at he
            · split at he
              · split at he
                · split at he
                  · cases he; intro ht; simp only [buildElement] at ht
                    (repeat' split at ht) <;> exact absurd ht (by decide)
                  · cases he
                · cases he
              · exact braceLoopBranch_loopOk _ _ _ _ _ he
            · exact braceLoopBranch_loopOk _ _ _ _ _ he

theorem tsLine_loopOk (lines : List Str) (i : Nat) (e : Elem)
    (he : tsLine lines i = some e) : loopSpanOk e := by
  simp only [tsLine] at he
  split at he
  · cases he; intro ht; simp only [buildElement] at ht
    exact absurd ht (by decide)
  · split at he
    · cases he; intro ht; simp only [buildElement] at ht
      exact absurd ht (by decide)
    · split at he
      · cases he; intro ht; simp only [buildElement] at ht
        exact absurd ht (by decide)
      · split at he
        · cases he; intro ht; simp only [buildElement] at ht
          exact absurd ht (by decide)
        · split at he
          · cases he; intro ht; simp only [buildElement] at ht
            exact absurd ht (by decide)
          · split at he
            · cases he; intro ht; simp only [buildElement] at ht
              exact absurd ht (by decide)
            · split at he
              · split at he
                · split at he
                  · cases he; intro ht; simp only [buildElement] at ht
                    (repeat' split at ht) <;> exact absurd ht (by decide)
                  · cases he
                · exact braceLoopBranch_loopOk _ _ _ _ _ he
              · exact braceLoopBranch_loopOk _ _ _ _ _ he

theorem goLine_loopOk (lines : List Str) (i : Nat) (e : Elem)
    (he : goLine lines i = some e) : loopSpanOk e := by
  simp only [goLine] at he
  split at he
  · cases he; intro ht; simp only [buildElement] at ht
    exact absurd ht (by decide)
  · split at he
    · cases he; intro ht; simp only [buildElement] at ht
      exact absurd ht (by decide)
    · split at he
      · cases he; intro ht; simp only [buildElement] at ht
        (repeat' split at ht) <;> exact absurd ht (by decide)
      · split at he
        · split at he
          · cases he
            intro ht
            simp only [buildElement, Elem.startLine, Elem.endLine]
            omega
          · cases he
        · cases he

theorem rsLine_loopOk (lines : List Str) (i : Nat) (e : Elem)
    (he : rsLine lines i = some e) : loopSpanOk e := by
  simp only [rsLine] at he
  split at he
  · cases he; intro ht; simp only [buildElement] at ht
    exact absurd ht (by decide)
  · split at he
    · cases he; intro ht; simp only [buildElement] at ht
      exact absurd ht (by decide)
    · split at he
      · cases he; intro ht; simp only [buildElement] at ht
        exact absurd ht (by decide)
      · split at he
        · cases he; intro ht; simp only [buildElement] at ht
          exact absurd ht (by decide)
        · split at he
          · cases he; intro ht; simp only [buildElement] at ht
            (repeat' split at ht) <;> exact absurd ht (by decide)
          · split at he
            · split at he
              · cases he
                intro ht
                simp only [buildElement, Elem.startLine, Elem.endLine]
                omega
              · cases he
            · cases he

theorem jvLine_loopOk (lines : List Str) (i : Nat) (e : Elem)
    (he : jvLine lines i = some e) : loopSpanOk e := by
  simp only [jvLine] at he
  split at he
  · cases he; intro ht; simp only [buildElement] at ht
    exact absurd ht (by decide)
  · split at he
    · cases he; intro ht; simp only [buildElement] at ht
      exact absurd ht (by decide)
    · split at he
      · cases he; intro ht; simp only [buildElement] at ht
        exact absurd ht (by decide)
      · split at he
        · split at he
          · exact braceLoopBranch_loopOk _ _ _ _ _ he
          · cases he; intro ht; simp only [buildElement] at ht
            (repeat' split at ht) <;> exact absurd ht (by decide)
        · exact braceLoopBranch_loopOk _ _ _ _ _ he

theorem ccLine_loopOk (lines : List Str) (i : Nat) (e : Elem)
    (he : ccLine lines i = some e) : loopSpanOk e := by
  simp only [ccLine] at he
  split at he
  · cases he; intro ht; simp only [buildElement] at ht
    exact absurd ht (by decide)
  · split at he
    · cases he; intro ht; simp only [buildElement] at ht
      exact absurd ht (by decide)
    · split at he
      · split at he
        · exact braceLoopBranch_loopOk _ _ _ _ _ he
        · cases he; intro ht; simp only [buildElement] at ht
          exact absurd ht (by decide)
      · exact braceLoopBranch_loopOk _ _ _ _ _ he

theorem csLine_loopOk (lines : List Str) (i : Nat) (e : Elem)
    (he : csLine lines i = some e) : loopSpanOk e := by
  simp only [csLine] at he
  split at he
  · cases he; intro ht; simp only [buildElement] at ht
    exact absurd ht (by decide)
  · split at he
    · split at he
      · exact braceLoopBranch_loopOk _ _ _ _ _ he
      · cases he; intro ht; simp only [buildElement] at ht
        (repeat' split at ht) <;> exact absurd ht (by decide)
    · exact braceLoopBranch_loopOk _ _ _ _ _ he

theorem phLine_loopOk (lines : List Str) (i : Nat) (e : Elem)
    (he : phLine lines i = some e) : loopSpanOk e := by
  simp only [phLine] at he
  split at he
  · cases he; intro ht; simp only [buildElement] at ht
    exact absurd ht (by decide)
  · split at he
    · cases he; intro ht; simp only [buildElement] at ht
      (repeat' split at ht) <;> exact absurd ht (by decide)
    · exact braceLoopBranch_loopOk _ _ _ _ _ he

theorem rbLine_loopOk (lines : List Str) (i : Nat) (e : Elem)
    (he : rbLine lines i = some e) : loopSpanOk e := by
  simp only [rbLine] at he
  split at he
  · cases he; intro ht; simp only [buildElement] at ht
    exact absurd ht (by decide)
  · split at he
    · cases he; intro ht; simp only [buildElement] at ht
      exact absurd ht (by decide)
    · split at he
      · cases he; intro ht; simp only [buildElement] at ht
        (repeat' split at ht) <;> exact absurd ht (by decide)
      · cases he

theorem swLine_loopOk (lines : List Str) (i : Nat) (e : Elem)
    (he : swLine lines i = some e) : loopSpanOk e := by
  simp only [swLine] at he
  split at he
  · cases he; intro ht; simp only [buildElement] at ht
    exact absurd ht (by decide)
  · split at he
    · cases he; intro ht; simp only [buildElement] at ht
      (repeat' split at ht) <;> exact absurd ht (by decide)
    · split at he
      · split at he
        · cases he
          intro ht
          simp only [buildElement, Elem.startLine, Elem.endLine]
          omega
        · cases he
      · cases he

theorem ktLine_loopOk (lines : List Str) (i : Nat) (e : Elem)
    (he : ktLine lines i = some e) : loopSpanOk e := by
  simp only [ktLine] at he
  split at he
  · cases he; intro ht; simp only [buildElement] at ht
    exact absurd ht (by decide)
  · split at he
    · cases he; intro ht; simp only [buildElement] at ht
      (repeat' split at ht) <;> exact absurd ht (by decide)
    · exact braceLoopBranch_loopOk _ _ _ _ _ he

theorem scLine_loopOk (lines : List Str) (i : Nat) (e : Elem)
    (he : scLine lines i = some e) : loopSpanOk e := by
  simp only [scLine] at he
  split at he
  · cases he; intro ht; simp only [buildElement] at ht
    exact absurd ht (by decide)
  · split at he
    · cases he; intro ht; simp only [buildElement] at ht
      (repeat' split at ht) <;> exact absurd ht (by decide)
    · cases he

theorem luLine_loopOk (lines : List Str) (i : Nat) (e : Elem)
    (he : luLine lines i = some e) : loopSpanOk e := by
  simp only [luLine] at he
  split at he
  · cases he; intro ht; simp only [buildElement] at ht
    exact absurd ht (by decide)
  · split at he
    · split at he
      · cases he
        intro ht
        simp only [buildElement, Elem.startLine, Elem.endLine]
        omega
      · cases he
    · cases he

theorem plLine_loopOk (lines : List Str) (i : Nat) (e : Elem)
    (he : plLine lines i = some e) : loopSpanOk e := by
  simp only [plLine] at he
  split at he
  · cases he; intro ht; simp only [buildElement] at ht
    exact absurd ht (by decide)
  · split at he
    · cases he; intro ht; simp only [buildElement] at ht
      exact absurd ht (by decide)
    · cases he

theorem baLoopBranch_loopOk (lines : List Str) (i : Nat) (trimmed : Str)
    (e : Elem) (he : baLine.baLoopBranch lines i trimmed = some e) :
    loopSpanOk e := by
  simp only [baLine.baLoopBranch] at he
  split at he
  · split at he
    · cases he
      intro ht
      simp only [buildElement, Elem.startLine, Elem.endLine]
      omega
    · cases he
  · cases he

theorem baLine_loopOk (lines : List Str) (i : Nat) (e : Elem)
    (he : baLine lines i = some e) : loopSpanOk e := by
  simp only [baLine] at he
  split at he
  · split at he
    · cases he; intro ht; simp only [buildElement] at ht
      exact absurd ht (by decide)
    · split at he
      · cases he; intro ht; simp only [buildElement] at ht
        exact absurd ht (by decide)
      · exact baLoopBranch_loopOk _ _ _ _ he
  · exact baLoopBranch_loopOk _ _ _ _ he

/-- Case analysis over the extension dispatch. -/
theorem dispatchExt_prop (P : Elem → Prop) (ext : Str) (lines : List Str)
    (hpy : ∀ e ∈ parsePython lines, P e)
    (hjs : ∀ e ∈ parseJavaScript lines, P e)
    (hts : ∀ e ∈ parseTypeScript lines, P e)
    (hgo : ∀ e ∈ parseGo lines, P e)
    (hrs : ∀ e ∈ parseRust lines, P e)
    (hjv : ∀ e ∈ parseJava lines, P e)
    (hcc : ∀ e ∈ parseCCpp lines, P e)
    (hcs : ∀ e ∈ parseCSharp lines, P e)
    (hph : ∀ e ∈ parsePHP lines, P e)
    (hrb : ∀ e ∈ parseRuby lines, P e)
    (hsw : ∀ e ∈ parseSwift lines, P e)
    (hkt : ∀ e ∈ parseKotlin lines, P e)
    (hsc : ∀ e ∈ parseScala lines, P e)
    (hlu : ∀ e ∈ parseLua lines, P e)
    (hpl : ∀ e ∈ parsePerl lines, P e)
    (hba : ∀ e ∈ parseBash lines, P e)
    : ∀ e ∈ dispatchExt ext lines, P e := by
  intro e he
  unfold dispatchExt at he
  by_cases h0 : ext = str ".py"
  · rw [if_pos h0] at he; exact hpy e he
  · rw [if_neg h0] at he
    by_cases h1 : ext = str ".js" ∨ ext = str ".jsx" ∨ ext = str ".mjs" ∨ ext = str ".cjs"
    · rw [if_pos h1] at he; exact hjs e he
    · rw [if_neg h1] at he
      by_cases h2 : ext = str ".ts" ∨ ext = str ".tsx" ∨ ext = str ".mts" ∨ ext = str ".cts"
      · rw [if_pos h2] at he; exact hts e he
      · rw [if_neg h2] at he
        by_cases h3 : ext = str ".go"
        · rw [if_pos h3] at he; exact hgo e he
        · rw [if_neg h3] at he
          by_cases h4 : ext = str ".rs"
          · rw [if_pos h4] at he; exact hrs e he
          · rw [if_neg h4] at he
            by_cases h5 : ext = str ".java"
            · rw [if_pos h5] at he; exact hjv e he
            · rw [if_neg h5] at he
              by_cases h6 : ext = str ".c" ∨ ext = str ".h" ∨ ext = str ".cpp" ∨ ext = str ".hpp" ∨ ext = str ".cc" ∨ ext = str ".cxx"
              · rw [if_pos h6] at he; exact hcc e he
              · rw [if_neg h6] at he
                by_cases h7 : ext = str ".cs"
                · rw [if_pos h7] at he; exact hcs e he
                · rw [if_neg h7] at he
                  by_cases h8 : ext = str ".php"
                  · rw [if_pos h8] at he; exact hph e he
                  · rw [if_neg h8] at he
                    by_cases h9 : ext = str ".rb"
                    · rw [if_pos h9] at he; exact hrb e he
                    · rw [if_neg h9] at he
                      by_cases h10 : ext = str ".swift"
                      · rw [if_pos h10] at he; exact hsw e he
                      · rw [if_neg h10] at he
                        by_cases h11 : ext = str ".kt" ∨ ext = str ".kts"
                        · rw [if_pos h11] at he; exact hkt e he
                        · rw [if_neg h11] at he
                          by_cases h12 : ext = str ".scala" ∨ ext = str ".sc"
                          · rw [if_pos h12] at he; exact hsc e he
                          · rw [if_neg h12] at he
                            by_cases h13 : ext = str ".lua"
                            · rw [if_pos h13] at he; exact hlu e he
                            · rw [if_neg h13] at he
                              by_cases h14 : ext = str ".pl" ∨ ext = str ".pm"
                              · rw [if_pos h14] at he; exact hpl e he
                              · rw [if_neg h14] at he
                                by_cases h15 : ext = str ".sh" ∨ ext = str ".bash" ∨ ext = str ".zsh"
                                · rw [if_pos h15] at he; exact hba e he
                                · rw [if_neg h15] at he
                                  exact absurd he (List.not_mem_nil e)

/-- **C6** (loop-length filter).  For every file path, every content and
every element produced by the scanner, an element of kind `loop` spans
strictly more than five lines: `startLine + 5 ≤ endLine`, i.e.
`endLine - startLine + 1 > 5`. -/
theorem claim_C6_loop_filter (filePath content : Str) (e : Elem)
    (he : e ∈ parseCodeStructure filePath content)
    (ht : e.type = str "loop") :
    e.startLine + 5 ≤ e.endLine ∧ 5 < e.endLine - e.startLine + 1 := by
  have main : loopSpanOk e := by
    unfold parseCodeStructure at he
    refine dispatchExt_prop loopSpanOk _ _ ?_ ?_ ?_ ?_ ?_ ?_ ?_ ?_ ?_ ?_ ?_ ?_ ?_ ?_ ?_ ?_ e he
    · exact scanWith_prop _ _ _ (pyLine_loopOk _)
    · exact scanWith_prop _ _ _ (jsLine_loopOk _)
    · exact scanWith_prop _ _ _ (tsLine_loopOk _)
    · exact scanWith_prop _ _ _ (goLine_loopOk _)
    · exact scanWith_prop _ _ _ (rsLine_loopOk _)
    · exact scanWith_prop _ _ _ (jvLine_loopOk _)
    · exact scanWith_prop _ _ _ (ccLine_loopOk _)
    · exact scanWith_prop _ _ _ (csLine_loopOk _)
    · exact scanWith_prop _ _ _ (phLine_loopOk _)
    · exact scanWith_prop _ _ _ (rbLine_loopOk _)
    · exact scanWith_prop _ _ _ (swLine_loopOk _)
    · exact scanWith_prop _ _ _ (ktLine_loopOk _)
    · exact scanWith_prop _ _ _ (scLine_loopOk _)
    · exact scanWith_prop _ _ _ (luLine_loopOk _)
    · exact scanWith_prop _ _ _ (plLine_loopOk _)
    · exact scanWith_prop _ _ _ (baLine_loopOk _)
  have := main ht
  omega

/-- The loop element the python scanner produces for a six-line `for`. -/
def exLoopElem : Elem :=
  { type := str "loop", label := str "loop for x in y", startLine := 1,
    endLine := 6, size := 27 }

theorem exLoop_eval :
    parseCodeStructure (str "l.py") (str "for x in y:\n a\n a\n a\n a\n a") =
      [exLoopElem] := by
  rfl

/-- Witness for C6: the six-line python loop element. -/
theorem claim_C6_witness :
    exLoopElem.startLine + 5 ≤ exLoopElem.endLine ∧
      5 < exLoopElem.endLine - exLoopElem.startLine + 1 :=
  claim_C6_loop_filter (str "l.py") (str "for x in y:\n a\n a\n a\n a\n a")
    exLoopElem (by rw [exLoop_eval]; exact List.mem_cons_self _ _) (by rfl)

-- ---------------------------------------------------------------------------
-- C9: scanner totality and the unknown-extension default.
-- ---------------------------------------------------------------------------

theorem not_mem_of_subset_not_mem {α : Type} {l1 l2 : List α} {a : α}
    (h : a ∉ l2) (hs : ∀ x ∈ l1, x ∈ l2) : a ∉ l1 :=
  fun ha => h (hs a ha)

/-- **C9** (scanner totality).  `parseCodeStructure` is a total function
into element lists by construction — every dispatch branch, including the
default, returns a (possibly empty) list and no failure is possible — and
a path whose lower-cased extension is not in the fixed dispatch table
yields the empty list. -/
theorem claim_C9_scanner_total (filePath content : Str)
    (h : jsToLower (extnameOf filePath) ∉ knownExts) :
    parseCodeStructure filePath content = [] := by
  unfold parseCodeStructure dispatchExt
  have hne : ∀ e ∈ knownExts, ¬ jsToLower (extnameOf filePath) = e :=
    fun e he heq => h (heq ▸ he)
  rw [if_neg (hne _ (by decide)), if_neg ?_, if_neg ?_,
    if_neg (hne _ (by decide)), if_neg (hne _ (by decide)),
    if_neg (hne _ (by decide)), if_neg ?_, if_neg (hne _ (by decide)),
    if_neg (hne _ (by decide)), if_neg (hne _ (by decide)),
    if_neg (hne _ (by decide)), if_neg ?_, if_neg ?_,
    if_neg (hne _ (by decide)), if_neg ?_, if_neg ?_]
  · rintro (he | he | he) <;> exact hne _ (by decide) he
  · rintro (he | he) <;> exact hne _ (by decide) he
  · rintro (he | he) <;> exact hne _ (by decide) he
  · rintro (he | he) <;> exact hne _ (by decide) he
  · rintro (he | he | he | he | he | he) <;> exact hne _ (by decide) he
  · rintro (he | he | he | he) <;> exact hne _ (by decide) he
  · rintro (he | he | he | he) <;> exact hne _ (by decide) he

/-- Witness for C9: a `.xyz` path is not in the dispatch table and yields
the empty element list. -/
theorem claim_C9_witness :
    jsToLower (extnameOf (str "w.xyz")) ∉ knownExts ∧
      parseCodeStructure (str "w.xyz") (str "class A:\n  pass\n") = [] :=
  ⟨by decide, claim_C9_scanner_total (str "w.xyz") (str "class A:\n  pass\n")
    (by decide)⟩

-- ---------------------------------------------------------------------------
-- C5/C3: structural invariants of `nestElements`.
-- ---------------------------------------------------------------------------

/-- The propositional version of the attachment containment test. -/
def Contains (p c : Elem) : Prop :=
  p.startLine ≤ c.startLine ∧ c.endLine ≤ p.endLine

theorem elContains_iff (p c : Elem) : elContains p c = true ↔ Contains p c := by
  unfold elContains Contains
  simp

/-- Every child's range is contained in its parent's, recursively. -/
inductive Nested : CNode → Prop where
  | mk : ∀ el children, (∀ c ∈ children, Contains el (CNode.el c)) →
      (∀ c ∈ children, Nested c) → Nested (CNode.mk el children)

/-- Sibling lists are ordered by start line (non-decreasing). -/
def StartsMono (ns : List CNode) : Prop :=
  List.Pairwise (fun a b => a.el.startLine ≤ b.el.startLine) ns

/-- Sibling lists are ordered by start line, recursively. -/
inductive OrderedF : CNode → Prop where
  | mk : ∀ el children, StartsMono children →
      (∀ c ∈ children, OrderedF c) → OrderedF (CNode.mk el children)

/-- Siblings never overlap: each ends strictly before the next starts. -/
def SibDisjoint (ns : List CNode) : Prop :=
  List.Pairwise (fun a b => a.el.endLine < b.el.startLine) ns

/-- Siblings never overlap, recursively. -/
inductive DisjointF : CNode → Prop where
  | mk : ∀ el children, SibDisjoint children →
      (∀ c ∈ children, DisjointF c) → DisjointF (CNode.mk el children)

/-- Occurrence of an element in a forest. -/
inductive InTreeE : Elem → CNode → Prop where
  | here : ∀ el children, InTreeE el (CNode.mk el children)
  | child : ∀ e el children n, n ∈ children → InTreeE e n →
      InTreeE e (CNode.mk el children)

def InForestE (e : Elem) (ns : List CNode) : Prop :=
  ∃ n ∈ ns, InTreeE e n

/-- A laminar family: any two ranges are nested or disjoint. -/
def Laminar (l : List Elem) : Prop :=
  ∀ a ∈ l, ∀ b ∈ l,
    Contains a b ∨ Contains b a ∨ a.endLine < b.startLine ∨
      b.endLine < a.startLine

/-- Well-formed ranges: start at or before end. -/
def WfElems (l : List Elem) : Prop := ∀ e ∈ l, e.startLine ≤ e.endLine

theorem Contains_trans {a b c : Elem} (h1 : Contains a b) (h2 : Contains b c) :
    Contains a c := by
  unfold Contains at *
  omega

theorem insSorted_sorted {α : Type} (le : α → α → Bool)
    (htot : ∀ a b, le a b = true ∨ le b a = true)
    (htr : ∀ a b c, le a b = true → le b c = true → le a c = true)
    (a : α) (l : List α) (h : List.Pairwise (fun x y => le x y = true) l) :
    List.Pairwise (fun x y => le x y = true) (insSorted le a l) := by
  induction l with
  | nil => simp [insSorted]
  | cons b t ih =>
    rcases h with _ | ⟨hb, ht⟩
    simp only [insSorted]
    by_cases hba : le b a
    · simp only [hba, if_true]
      refine List.Pairwise.cons ?_ (ih ht)
      intro x hx
      have hx2 := (insSorted_perm le a t).mem_iff.mp hx
      rcases List.mem_cons.mp hx2 with rfl | hxm
      · exact hba
      · exact hb x hxm
    · have hab : le a b = true := (htot a b).resolve_right (by simpa using hba)
      simp only [hba, if_false]
      refine List.Pairwise.cons ?_ (List.Pairwise.cons hb ht)
      intro x hx
      rcases List.mem_cons.mp hx with rfl | hxm
      · exact hab
      · exact htr a b x hab (hb x hxm)

theorem jsSort_sorted {α : Type} (le : α → α → Bool)
    (htot : ∀ a b, le a b = true ∨ le b a = true)
    (htr : ∀ a b c, le a b = true → le b c = true → le a c = true)
    (l : List α) :
    List.Pairwise (fun x y => le x y = true) (jsSort le l) := by
  induction l with
  | nil => simp [jsSort]
  | cons a t ih => exact insSorted_sorted le htot htr a (jsSort le t) ih

theorem nestLe_total (a b : Elem) : nestLe a b = true ∨ nestLe b a = true := by
  unfold nestLe
  by_cases h : a.startLine = b.startLine
  · simp only [h, ne_eq, not_true_eq_false, if_false, decide_eq_true_eq]
    omega
  · have h2 : b.startLine ≠ a.startLine := fun he => h he.symm
    simp only [ne_eq, h, h2, not_false_eq_true, if_true, decide_eq_true_eq]
    omega

theorem nestLe_trans (a b c : Elem) (h1 : nestLe a b = true)
    (h2 : nestLe b c = true) : nestLe a c = true := by
  unfold nestLe at *
  by_cases hab : a.startLine = b.startLine <;>
    by_cases hbc : b.startLine = c.startLine <;>
    by_cases hac : a.startLine = c.startLine <;>
    simp_all [decide_eq_true_eq] <;> omega

theorem nestLe_start_le {a b : Elem} (h : nestLe a b = true) :
    a.startLine ≤ b.startLine := by
  unfold nestLe at h
  by_cases hab : a.startLine = b.startLine
  · omega
  · simp only [ne_eq, hab, not_false_eq_true, if_true, decide_eq_true_eq] at h
    omega

/-- The invariant of the attachment loop that holds for every input list:
containment, child ordering, and provenance of every stored element.
The stack's head is the top frame; `rem` is the not-yet-processed suffix
of the sorted element list. -/
structure NInv (elements : List Elem) (stack : List Frame)
    (roots : List CNode) (rem : List Elem) : Prop where
  stackC : List.Pairwise (fun a b => Contains b.el a.el) stack
  childC : ∀ f ∈ stack, ∀ c ∈ f.children, Contains f.el c.el
  childN : ∀ f ∈ stack, ∀ c ∈ f.children, Nested c
  rootsN : ∀ n ∈ roots, Nested n
  childM : ∀ f ∈ stack, StartsMono f.children
  childO : ∀ f ∈ stack, ∀ c ∈ f.children, OrderedF c
  rootsM : StartsMono roots
  rootsO : ∀ n ∈ roots, OrderedF n
  aboveS : List.Pairwise
    (fun a b => ∀ c ∈ b.children, c.el.startLine ≤ a.el.startLine) stack
  frameRem : ∀ f ∈ stack, ∀ r ∈ rem, f.el.startLine ≤ r.startLine
  childRem : ∀ f ∈ stack, ∀ c ∈ f.children, ∀ r ∈ rem,
    c.el.startLine ≤ r.startLine
  rootsRem : ∀ n ∈ roots, ∀ r ∈ rem, n.el.startLine ≤ r.startLine
  rootsStack : ∀ n ∈ roots, ∀ f ∈ stack, n.el.startLine ≤ f.el.startLine
  frameMem : ∀ f ∈ stack, f.el ∈ elements
  childMem : ∀ f ∈ stack, ∀ c ∈ f.children, ∀ e, InTreeE e c → e ∈ elements
  rootsMem : ∀ n ∈ roots, ∀ e, InTreeE e n → e ∈ elements
  remMem : ∀ r ∈ rem, r ∈ elements
  remSorted : List.Pairwise (fun a b : Elem => a.startLine ≤ b.startLine) rem

theorem InTreeE_mk {e : Elem} {el : Elem} {children : List CNode}
    (h : InTreeE e (CNode.mk el children)) :
    e = el ∨ ∃ c ∈ children, InTreeE e c := by
  cases h with
  | here => exact Or.inl rfl
  | child _ _ n hn ht => exact Or.inr ⟨n, hn, ht⟩

theorem StartsMono_append_one {ns : List CNode} {node : CNode}
    (h : StartsMono ns)
    (hb : ∀ c ∈ ns, c.el.startLine ≤ node.el.startLine) :
    StartsMono (ns ++ [node]) := by
  unfold StartsMono at *
  rw [List.pairwise_append]
  exact ⟨h, List.pairwise_singleton _ _, fun a ha b hb2 => by
    rw [List.mem_singleton] at hb2
    subst hb2
    exact hb a ha⟩

theorem SibDisjoint_append_one {ns : List CNode} {node : CNode}
    (h : SibDisjoint ns)
    (hb : ∀ c ∈ ns, c.el.endLine < node.el.startLine) :
    SibDisjoint (ns ++ [node]) := by
  unfold SibDisjoint at *
  rw [List.pairwise_append]
  exact ⟨h, List.pairwise_singleton _ _, fun a ha b hb2 => by
    rw [List.mem_singleton] at hb2
    subst hb2
    exact hb a ha⟩

/-- The node materialised when frame `f` is popped. -/
def frameNode (f : Frame) : CNode := CNode.mk f.el f.children

theorem frameNode_el (f : Frame) : (frameNode f).el = f.el := rfl

/-- Popping the only frame of the stack moves its node to the root list,
preserving the invariant. -/
theorem NInv_popLast (elements : List Elem) (rem : List Elem) (f : Frame)
    (roots : List CNode) (inv : NInv elements [f] roots rem) :
    NInv elements [] (roots ++ [frameNode f]) rem := by
  have hfmem : f ∈ [f] := List.mem_singleton.mpr rfl
  have hnode : Nested (frameNode f) :=
    Nested.mk f.el f.children (inv.childC f hfmem) (inv.childN f hfmem)
  have hnodeO : OrderedF (frameNode f) :=
    OrderedF.mk f.el f.children (inv.childM f hfmem) (inv.childO f hfmem)
  refine
    { stackC := List.Pairwise.nil
      childC := by simp
      childN := by simp
      rootsN := ?_
      childM := by simp
      childO := by simp
      rootsM := ?_
      rootsO := ?_
      aboveS := List.Pairwise.nil
      frameRem := by simp
      childRem := by simp
      rootsRem := ?_
      rootsStack := by simp
      frameMem := by simp
      childMem := by simp
      rootsMem := ?_
      remMem := inv.remMem
      remSorted := inv.remSorted }
  · intro n hn
    rcases List.mem_append.mp hn with hn | hn
    · exact inv.rootsN n hn
    · rw [List.mem_singleton] at hn
      subst hn
      exact hnode
  · exact StartsMono_append_one inv.rootsM
      (fun c hc2 => inv.rootsStack c hc2 f hfmem)
  · intro n hn
    rcases List.mem_append.mp hn with hn | hn
    · exact inv.rootsO n hn
    · rw [List.mem_singleton] at hn
      subst hn
      exact hnodeO
  · intro n hn r hr
    rcases List.mem_append.mp hn with hn | hn
    · exact inv.rootsRem n hn r hr
    · rw [List.mem_singleton] at hn
      subst hn
      exact inv.frameRem f hfmem r hr
  · intro n hn e he
    rcases List.mem_append.mp hn with hn | hn
    · exact inv.rootsMem n hn e he
    · rw [List.mem_singleton] at hn
      subst hn
      rcases InTreeE_mk he with rfl | ⟨c, hc2, ht⟩
      · exact inv.frameMem f hfmem
      · exact inv.childMem f hfmem c hc2 e ht

/-- Popping the top frame into the frame below preserves the invariant. -/
theorem NInv_squash (elements : List Elem) (rem : List Elem) (f g : Frame)
    (gs : List Frame) (roots : List CNode)
    (inv : NInv elements (f :: g :: gs) roots rem) :
    NInv elements (⟨g.el, g.children ++ [frameNode f]⟩ :: gs) roots rem := by
  have hfmem : f ∈ f :: g :: gs := List.mem_cons_self _ _
  have hgmem : g ∈ f :: g :: gs :=
    List.mem_cons_of_mem _ (List.mem_cons_self _ _)
  have hnode : Nested (frameNode f) :=
    Nested.mk f.el f.children (inv.childC f hfmem) (inv.childN f hfmem)
  have hnodeO : OrderedF (frameNode f) :=
    OrderedF.mk f.el f.children (inv.childM f hfmem) (inv.childO f hfmem)
  have hgf : Contains g.el f.el := by
    have := inv.stackC
    rcases this with _ | ⟨hhead, _⟩
    exact hhead g (List.mem_cons_self _ _)
  have hfg_start : ∀ c ∈ g.children, c.el.startLine ≤ f.el.startLine := by
    have := inv.aboveS
    rcases this with _ | ⟨hhead, _⟩
    exact hhead g (List.mem_cons_self _ _)
  have htail : List.Pairwise (fun a b => Contains b.el a.el) (g :: gs) :=
    inv.stackC.of_cons
  have haboveTail : List.Pairwise
      (fun a b => ∀ c ∈ b.children, c.el.startLine ≤ a.el.startLine)
      (g :: gs) := inv.aboveS.of_cons
  refine
    { stackC := ?_
      childC := ?_
      childN := ?_
      rootsN := inv.rootsN
      childM := ?_
      childO := ?_
      rootsM := inv.rootsM
      rootsO := inv.rootsO
      aboveS := ?_
      frameRem := ?_
      childRem := ?_
      rootsRem := inv.rootsRem
      rootsStack := ?_
      frameMem := ?_
      childMem := ?_
      rootsMem := inv.rootsMem
      remMem := inv.remMem
      remSorted := inv.remSorted }
  · rcases htail with _ | ⟨hgGs, hgs⟩
    exact List.Pairwise.cons (fun b hb => hgGs b hb) hgs
  · intro f3 hf3 c hc3
    rcases List.mem_cons.mp hf3 with rfl | hf3
    · rcases List.mem_append.mp hc3 with hc3 | hc3
      · exact inv.childC g hgmem c hc3
      · rw [List.mem_singleton] at hc3
        subst hc3
        exact hgf
    · exact inv.childC f3 (List.mem_cons_of_mem _
        (List.mem_cons_of_mem _ hf3)) c hc3
  · intro f3 hf3 c hc3
    rcases List.mem_cons.mp hf3 with rfl | hf3
    · rcases List.mem_append.mp hc3 with hc3 | hc3
      · exact inv.childN g hgmem c hc3
      · rw [List.mem_singleton] at hc3
        subst hc3
        exact hnode
    · exact inv.childN f3 (List.mem_cons_of_mem _
        (List.mem_cons_of_mem _ hf3)) c hc3
  · intro f3 hf3
    rcases List.mem_cons.mp hf3 with rfl | hf3
    · exact StartsMono_append_one (inv.childM g hgmem) hfg_start
    · exact inv.childM f3 (List.mem_cons_of_mem _
        (List.mem_cons_of_mem _ hf3))
  · intro f3 hf3 c hc3
    rcases List.mem_cons.mp hf3 with rfl | hf3
    · rcases List.mem_append.mp hc3 with hc3 | hc3
      · exact inv.childO g hgmem c hc3
      · rw [List.mem_singleton] at hc3
        subst hc3
        exact hnodeO
    · exact inv.childO f3 (List.mem_cons_of_mem _
        (List.mem_cons_of_mem _ hf3)) c hc3
  · rcases haboveTail with _ | ⟨hgGs, hgs⟩
    refine List.Pairwise.cons ?_ hgs
    intro b hb c hc3
    exact hgGs b hb c hc3
  · intro f3 hf3 r hr
    rcases List.mem_cons.mp hf3 with rfl | hf3
    · exact inv.frameRem g hgmem r hr
    · exact inv.frameRem f3 (List.mem_cons_of_mem _
        (List.mem_cons_of_mem _ hf3)) r hr
  · intro f3 hf3 c hc3 r hr
    rcases List.mem_cons.mp hf3 with rfl | hf3
    · rcases List.mem_append.mp hc3 with hc3 | hc3
      · exact inv.childRem g hgmem c hc3 r hr
      · rw [List.mem_singleton] at hc3
        subst hc3
        exact inv.frameRem f hfmem r hr
    · exact inv.childRem f3 (List.mem_cons_of_mem _
        (List.mem_cons_of_mem _ hf3)) c hc3 r hr
  · intro n hn f3 hf3
    rcases List.mem_cons.mp hf3 with rfl | hf3
    · exact inv.rootsStack n hn g hgmem
    · exact inv.rootsStack n hn f3 (List.mem_cons_of_mem _
        (List.mem_cons_of_mem _ hf3))
  · intro f3 hf3
    rcases List.mem_cons.mp hf3 with rfl | hf3
    · exact inv.frameMem g hgmem
    · exact inv.frameMem f3 (List.mem_cons_of_mem _
        (List.mem_cons_of_mem _ hf3))
  · intro f3 hf3 c hc3 e he
    rcases List.mem_cons.mp hf3 with rfl | hf3
    · rcases List.mem_append.mp hc3 with hc3 | hc3
      · exact inv.childMem g hgmem c hc3 e he
      · rw [List.mem_singleton] at hc3
        subst hc3
        rcases InTreeE_mk he with rfl | ⟨c2, hc4, ht⟩
        · exact inv.frameMem f hfmem
        · exact inv.childMem f hfmem c2 hc4 e ht
    · exact inv.childMem f3 (List.mem_cons_of_mem _
        (List.mem_cons_of_mem _ hf3)) c hc3 e he

/-- The pop loop preserves the unconditional invariant, and its resulting
stack is either empty or topped by a frame whose range contains the
current element. -/
theorem popUntilGo_NInv (elements : List Elem) (el : Elem) (rem : List Elem) :
    ∀ (fs : List Frame) (f : Frame) (roots : List CNode),
      NInv elements (f :: fs) roots rem →
      NInv elements (popUntilGo el f fs roots).1
        (popUntilGo el f fs roots).2 rem ∧
      ((popUntilGo el f fs roots).1 = [] ∨
        ∃ hd tl, (popUntilGo el f fs roots).1 = hd :: tl ∧
          Contains hd.el el) := by
  intro fs
  induction fs with
  | nil =>
    intro f roots inv
    by_cases hc : elContains f.el el
    · simp only [popUntilGo, hc, if_true]
      exact ⟨inv, Or.inr ⟨f, [], rfl, (elContains_iff _ _).mp hc⟩⟩
    · simp only [popUntilGo, hc, Bool.false_eq_true, if_false]
      exact ⟨NInv_popLast elements rem f roots inv, Or.inl (by simp)⟩
  | cons g gs ih =>
    intro f roots inv
    by_cases hc : elContains f.el el
    · simp only [popUntilGo, hc, if_true]
      exact ⟨inv, Or.inr ⟨f, g :: gs, rfl, (elContains_iff _ _).mp hc⟩⟩
    · simp only [popUntilGo, hc, Bool.false_eq_true, if_false]
      exact ih ⟨g.el, g.children ++ [frameNode f]⟩ roots
        (NInv_squash elements rem f g gs roots inv)

/-- Processing one element preserves the invariant. -/
theorem nestStep_NInv (elements : List Elem) (el : Elem) (rest : List Elem)
    (stack : List Frame) (roots : List CNode)
    (inv : NInv elements stack roots (el :: rest)) :
    NInv elements (nestStep (stack, roots) el).1
      (nestStep (stack, roots) el).2 rest := by
  have helmem : el ∈ el :: rest := List.mem_cons_self _ _
  have hrestsub : ∀ r ∈ rest, r ∈ el :: rest :=
    fun r hr => List.mem_cons_of_mem _ hr
  have helrest : ∀ r ∈ rest, el.startLine ≤ r.startLine := by
    have := inv.remSorted
    rcases this with _ | ⟨hhead, _⟩
    exact hhead
  obtain ⟨inv2, htop⟩ :
      NInv elements (popUntil el stack roots).1
        (popUntil el stack roots).2 (el :: rest) ∧
      ((popUntil el stack roots).1 = [] ∨
        ∃ hd tl, (popUntil el stack roots).1 = hd :: tl ∧
          Contains hd.el el) := by
    cases stack with
    | nil => exact ⟨inv, Or.inl rfl⟩
    | cons f fs => exact popUntilGo_NInv elements el (el :: rest) fs f roots inv
  have hcontain : ∀ x ∈ (popUntil el stack roots).1, Contains x.el el := by
    intro x hx
    rcases htop with hnil | ⟨hd, tl, heq, hhd⟩
    · rw [hnil] at hx
      simp at hx
    · rw [heq] at hx
      rcases List.mem_cons.mp hx with rfl | hx
      · exact hhd
      · have := inv2.stackC
        rw [heq] at this
        rcases this with _ | ⟨hhead, _⟩
        exact Contains_trans (hhead x hx) hhd
  have hstep : nestStep (stack, roots) el =
      (⟨el, []⟩ :: (popUntil el stack roots).1,
        (popUntil el stack roots).2) := by
    unfold nestStep
    rfl
  rw [hstep]
  refine
    { stackC := List.Pairwise.cons (fun x hx => hcontain x hx) inv2.stackC
      childC := ?_
      childN := ?_
      rootsN := inv2.rootsN
      childM := ?_
      childO := ?_
      rootsM := inv2.rootsM
      rootsO := inv2.rootsO
      aboveS := ?_
      frameRem := ?_
      childRem := ?_
      rootsRem := fun n hn r hr => inv2.rootsRem n hn r (hrestsub r hr)
      rootsStack := ?_
      frameMem := ?_
      childMem := ?_
      rootsMem := inv2.rootsMem
      remMem := fun r hr => inv2.remMem r (hrestsub r hr)
      remSorted := inv2.remSorted.of_cons }
  · intro f3 hf3 c hc3
    rcases List.mem_cons.mp hf3 with rfl | hf3
    · simp at hc3
    · exact inv2.childC f3 hf3 c hc3
  · intro f3 hf3 c hc3
    rcases List.mem_cons.mp hf3 with rfl | hf3
    · simp at hc3
    · exact inv2.childN f3 hf3 c hc3
  · intro f3 hf3
    rcases List.mem_cons.mp hf3 with rfl | hf3
    · exact List.Pairwise.nil
    · exact inv2.childM f3 hf3
  · intro f3 hf3 c hc3
    rcases List.mem_cons.mp hf3 with rfl | hf3
    · simp at hc3
    · exact inv2.childO f3 hf3 c hc3
  · refine List.Pairwise.cons ?_ inv2.aboveS
    intro b hb c hc3
    exact inv2.childRem b hb c hc3 el helmem
  · intro f3 hf3 r hr
    rcases List.mem_cons.mp hf3 with rfl | hf3
    · exact helrest r hr
    · exact inv2.frameRem f3 hf3 r (hrestsub r hr)
  · intro f3 hf3 c hc3 r hr
    rcases List.mem_cons.mp hf3 with rfl | hf3
    · simp at hc3
    · exact inv2.childRem f3 hf3 c hc3 r (hrestsub r hr)
  · intro n hn f3 hf3
    rcases List.mem_cons.mp hf3 with rfl | hf3
    · exact inv2.rootsRem n hn el helmem
    · exact inv2.rootsStack n hn f3 hf3
  · intro f3 hf3
    rcases List.mem_cons.mp hf3 with rfl | hf3
    · exact inv2.remMem el helmem
    · exact inv2.frameMem f3 hf3
  · intro f3 hf3 c hc3 e he
    rcases List.mem_cons.mp hf3 with rfl | hf3
    · simp at hc3
    · exact inv2.childMem f3 hf3 c hc3 e he

/-- The whole fold preserves the invariant. -/
theorem foldl_nestStep_NInv (elements : List Elem) :
    ∀ (l : List Elem) (st : List Frame × List CNode),
      NInv elements st.1 st.2 l →
      NInv elements (l.foldl nestStep st).1 (l.foldl nestStep st).2 [] := by
  intro l
  induction l with
  | nil => intro st inv; exact inv
  | cons el rest ih =>
    intro st inv
    have h1 := nestStep_NInv elements el rest st.1 st.2 inv
    have : (el :: rest).foldl nestStep st = rest.foldl nestStep (nestStep st el) := by
      simp
    rw [this]
    exact ih (nestStep (st.1, st.2) el) h1

/-- The final flush produces a forest satisfying all unconditional
invariants. -/
theorem flushGo_NInv (elements : List Elem) :
    ∀ (fs : List Frame) (f : Frame) (roots : List CNode),
      NInv elements (f :: fs) roots [] →
      NInv elements [] (flushGo f fs roots) [] := by
  intro fs
  induction fs with
  | nil =>
    intro f roots inv
    exact NInv_popLast elements [] f roots inv
  | cons g gs ih =>
    intro f roots inv
    exact ih ⟨g.el, g.children ++ [frameNode f]⟩ roots
      (NInv_squash elements [] f g gs roots inv)

theorem flushStack_NInv (elements : List Elem) (stack : List Frame)
    (roots : List CNode) (inv : NInv elements stack roots []) :
    NInv elements [] (flushStack stack roots) [] := by
  cases stack with
  | nil => exact inv
  | cons f fs => exact flushGo_NInv elements fs f roots inv

/-- The unconditional guarantees of `nestElements`: every node of the
output forest is range-nested and child-ordered, top-level roots are
ordered, and every element stored in the forest comes from the input
list. -/
theorem nestElements_unconditional (es : List Elem) :
    (∀ n ∈ nestElements es, Nested n ∧ OrderedF n ∧
      ∀ e, InTreeE e n → e ∈ es) ∧ StartsMono (nestElements es) := by
  unfold nestElements
  by_cases hne : es.isEmpty
  · simp only [hne, if_true]
    exact ⟨by simp, List.Pairwise.nil⟩
  · simp only [hne, Bool.false_eq_true, if_false]
    have hsorted := jsSort_sorted nestLe nestLe_total nestLe_trans es
    have hinv : NInv es [] [] (jsSort nestLe es) :=
      { stackC := List.Pairwise.nil
        childC := by simp
        childN := by simp
        rootsN := by simp
        childM := by simp
        childO := by simp
        rootsM := List.Pairwise.nil
        rootsO := by simp
        aboveS := List.Pairwise.nil
        frameRem := by simp
        childRem := by simp
        rootsRem := by simp
        rootsStack := by simp
        frameMem := by simp
        childMem := by simp
        rootsMem := by simp
        remMem := fun r hr => (jsSort_perm nestLe es).subset hr
        remSorted := hsorted.imp (fun h => nestLe_start_le h) }
    have hfold := foldl_nestStep_NInv es (jsSort nestLe es) ([], []) hinv
    have hout := flushStack_NInv es _ _ hfold
    refine ⟨fun n hn => ⟨hout.rootsN n hn, hout.rootsO n hn,
      fun e he => hout.rootsMem n hn e he⟩, hout.rootsM⟩

-- The conditional (laminar-input) invariant: sibling disjointness.

/-- When the top frame is popped because it does not contain the current
element, a laminar well-formed family forces the two ranges to be disjoint,
with the popped frame entirely before the current element. -/
theorem pop_disjoint {elements : List Elem} (hLam : Laminar elements)
    (hWf : WfElems elements) {t cur : Elem} (ht : t ∈ elements)
    (hcur : cur ∈ elements) (hle : nestLe t cur = true)
    (hnc : ¬ elContains t cur = true) : t.endLine < cur.startLine := by
  have hts : t.startLine ≤ cur.startLine := nestLe_start_le hle
  have hwc : cur.startLine ≤ cur.endLine := hWf cur hcur
  have hncP : ¬ Contains t cur := fun h => hnc ((elContains_iff t cur).mpr h)
  rcases hLam t ht cur hcur with h | h | h | h
  · exact absurd h hncP
  · have heq : t.startLine = cur.startLine := le_antisymm hts h.1
    have hspan : (cur.endLine : Int) - cur.startLine ≤
        (t.endLine : Int) - t.startLine := by
      unfold nestLe at hle
      rw [if_neg (by omega : ¬ t.startLine ≠ cur.startLine)] at hle
      simpa [decide_eq_true_eq] using hle
    exfalso
    apply hncP
    unfold Contains at h ⊢
    omega
  · exact h
  · omega

/-- The invariant of the attachment loop that additionally holds for a
laminar, well-formed input: sibling lists are pairwise disjoint. -/
structure DInv (elements : List Elem) (stack : List Frame)
    (roots : List CNode) (rem : List Elem) : Prop where
  frameMem : ∀ f ∈ stack, f.el ∈ elements
  frameLe : ∀ f ∈ stack, ∀ r ∈ rem, nestLe f.el r = true
  childD : ∀ f ∈ stack, SibDisjoint f.children
  childDF : ∀ f ∈ stack, ∀ c ∈ f.children, DisjointF c
  rootsD : SibDisjoint roots
  rootsDF : ∀ n ∈ roots, DisjointF n
  aboveD : List.Pairwise
    (fun a b => ∀ c ∈ b.children, c.el.endLine < a.el.startLine) stack
  childRemD : ∀ f ∈ stack, ∀ c ∈ f.children, ∀ r ∈ rem,
    c.el.endLine < r.startLine
  rootsRemD : ∀ n ∈ roots, ∀ r ∈ rem, n.el.endLine < r.startLine
  rootsStackD : ∀ n ∈ roots, ∀ f ∈ stack, n.el.endLine < f.el.startLine
  remMem : ∀ r ∈ rem, r ∈ elements
  remSorted : List.Pairwise (fun a b : Elem => nestLe a b = true) rem

/-- Popping the only frame, conditional invariant.  `hfd` bounds the popped
frame's end against every remaining element. -/
theorem DInv_popLast (elements : List Elem) (rem : List Elem) (f : Frame)
    (roots : List CNode) (inv : DInv elements [f] roots rem)
    (hfd : ∀ r ∈ rem, f.el.endLine < r.startLine) :
    DInv elements [] (roots ++ [frameNode f]) rem := by
  have hfmem : f ∈ [f] := List.mem_singleton.mpr rfl
  have hnodeD : DisjointF (frameNode f) :=
    DisjointF.mk f.el f.children (inv.childD f hfmem) (inv.childDF f hfmem)
  refine
    { frameMem := by simp
      frameLe := by simp
      childD := by simp
      childDF := by simp
      rootsD := ?_
      rootsDF := ?_
      aboveD := List.Pairwise.nil
      childRemD := by simp
      rootsRemD := ?_
      rootsStackD := by simp
      remMem := inv.remMem
      remSorted := inv.remSorted }
  · exact SibDisjoint_append_one inv.rootsD
      (fun c hc2 => inv.rootsStackD c hc2 f hfmem)
  · intro n hn
    rcases List.mem_append.mp hn with hn | hn
    · exact inv.rootsDF n hn
    · rw [List.mem_singleton] at hn
      subst hn
      exact hnodeD
  · intro n hn r hr
    rcases List.mem_append.mp hn with hn | hn
    · exact inv.rootsRemD n hn r hr
    · rw [List.mem_singleton] at hn
      subst hn
      exact hfd r hr

/-- Popping the top frame into the frame below, conditional invariant. -/
theorem DInv_squash (elements : List Elem) (rem : List Elem) (f g : Frame)
    (gs : List Frame) (roots : List CNode)
    (inv : DInv elements (f :: g :: gs) roots rem)
    (hfd : ∀ r ∈ rem, f.el.endLine < r.startLine) :
    DInv elements (⟨g.el, g.children ++ [frameNode f]⟩ :: gs) roots rem := by
  have hfmem : f ∈ f :: g :: gs := List.mem_cons_self _ _
  have hgmem : g ∈ f :: g :: gs :=
    List.mem_cons_of_mem _ (List.mem_cons_self _ _)
  have hnodeD : DisjointF (frameNode f) :=
    DisjointF.mk f.el f.children (inv.childD f hfmem) (inv.childDF f hfmem)
  have hfg_end : ∀ c ∈ g.children, c.el.endLine < f.el.startLine := by
    have := inv.aboveD
    rcases this with _ | ⟨hhead, _⟩
    exact hhead g (List.mem_cons_self _ _)
  have haboveTail : List.Pairwise
      (fun a b => ∀ c ∈ b.children, c.el.endLine < a.el.startLine)
      (g :: gs) := inv.aboveD.of_cons
  refine
    { frameMem := ?_
      frameLe := ?_
      childD := ?_
      childDF := ?_
      rootsD := inv.rootsD
      rootsDF := inv.rootsDF
      aboveD := ?_
      childRemD := ?_
      rootsRemD := inv.rootsRemD
      rootsStackD := ?_
      remMem := inv.remMem
      remSorted := inv.remSorted }
  · intro f3 hf3
    rcases List.mem_cons.mp hf3 with rfl | hf3
    · exact inv.frameMem g hgmem
    · exact inv.frameMem f3 (List.mem_cons_of_mem _
        (List.mem_cons_of_mem _ hf3))
  · intro f3 hf3 r hr
    rcases List.mem_cons.mp hf3 with rfl | hf3
    · exact inv.frameLe g hgmem r hr
    · exact inv.frameLe f3 (List.mem_cons_of_mem _
        (List.mem_cons_of_mem _ hf3)) r hr
  · intro f3 hf3
    rcases List.mem_cons.mp hf3 with rfl | hf3
    · exact SibDisjoint_append_one (inv.childD g hgmem) hfg_end
    · exact inv.childD f3 (List.mem_cons_of_mem _
        (List.mem_cons_of_mem _ hf3))
  · intro f3 hf3 c hc3
    rcases List.mem_cons.mp hf3 with rfl | hf3
    · rcases List.mem_append.mp hc3 with hc3 | hc3
      · exact inv.childDF g hgmem c hc3
      · rw [List.mem_singleton] at hc3
        subst hc3
        exact hnodeD
    · exact inv.childDF f3 (List.mem_cons_of_mem _
        (List.mem_cons_of_mem _ hf3)) c hc3
  · rcases haboveTail with _ | ⟨hgGs, hgs⟩
    refine List.Pairwise.cons ?_ hgs
    intro b hb c hc3
    exact hgGs b hb c hc3
  · intro f3 hf3 c hc3 r hr
    rcases List.mem_cons.mp hf3 with rfl | hf3
    · rcases List.mem_append.mp hc3 with hc3 | hc3
      · exact inv.childRemD g hgmem c hc3 r hr
      · rw [List.mem_singleton] at hc3
        subst hc3
        exact hfd r hr
    · exact inv.childRemD f3 (List.mem_cons_of_mem _
        (List.mem_cons_of_mem _ hf3)) c hc3 r hr
  · intro n hn f3 hf3
    rcases List.mem_cons.mp hf3 with rfl | hf3
    · exact inv.rootsStackD n hn g hgmem
    · exact inv.rootsStackD n hn f3 (List.mem_cons_of_mem _
        (List.mem_cons_of_mem _ hf3))

/-- The pop loop preserves the conditional invariant.  `helmem` places the
current element in the family; `helrem` bounds it against the remaining
elements (it is their minimum). -/
theorem popUntilGo_DInv (elements : List Elem) (hLam : Laminar elements)
    (hWf : WfElems elements) (el : Elem) (rem : List Elem)
    (helmem : el ∈ elements) (helrem : ∀ r ∈ rem, el.startLine ≤ r.startLine)
    (helin : el ∈ rem) :
    ∀ (fs : List Frame) (f : Frame) (roots : List CNode),
      DInv elements (f :: fs) roots rem →
      DInv elements (popUntilGo el f fs roots).1
        (popUntilGo el f fs roots).2 rem := by
  intro fs
  induction fs with
  | nil =>
    intro f roots inv
    by_cases hc : elContains f.el el
    · simp only [popUntilGo, hc, if_true]
      exact inv
    · simp only [popUntilGo, hc, Bool.false_eq_true, if_false]
      have hfmem : f ∈ [f] := List.mem_singleton.mpr rfl
      have hlt : f.el.endLine < el.startLine :=
        pop_disjoint hLam hWf (inv.frameMem f hfmem) helmem
          (inv.frameLe f hfmem el helin) hc
      exact DInv_popLast elements rem f roots inv
        (fun r hr => lt_of_lt_of_le hlt (helrem r hr))
  | cons g gs ih =>
    intro f roots inv
    by_cases hc : elContains f.el el
    · simp only [popUntilGo, hc, if_true]
      exact inv
    · simp only [popUntilGo, hc, Bool.false_eq_true, if_false]
      have hfmem : f ∈ f :: g :: gs := List.mem_cons_self _ _
      have hlt : f.el.endLine < el.startLine :=
        pop_disjoint hLam hWf (inv.frameMem f hfmem) helmem
          (inv.frameLe f hfmem el helin) hc
      exact ih ⟨g.el, g.children ++ [frameNode f]⟩ roots
        (DInv_squash elements rem f g gs roots inv
          (fun r hr => lt_of_lt_of_le hlt (helrem r hr)))

theorem nestStep_DInv (elements : List Elem) (hLam : Laminar elements)
    (hWf : WfElems elements) (el : Elem) (rest : List Elem)
    (stack : List Frame) (roots : List CNode)
    (inv : DInv elements stack roots (el :: rest)) :
    DInv elements (nestStep (stack, roots) el).1
      (nestStep (stack, roots) el).2 rest := by
  have helmem : el ∈ el :: rest := List.mem_cons_self _ _
  have hrestsub : ∀ r ∈ rest, r ∈ el :: rest :=
    fun r hr => List.mem_cons_of_mem _ hr
  have helrest : ∀ r ∈ rest, nestLe el r = true := by
    have := inv.remSorted
    rcases this with _ | ⟨hhead, _⟩
    exact hhead
  have helrem : ∀ r ∈ el :: rest, el.startLine ≤ r.startLine := by
    intro r hr
    rcases List.mem_cons.mp hr with rfl | hr
    · exact le_refl _
    · exact nestLe_start_le (helrest r hr)
  have helel : el ∈ elements := inv.remMem el helmem
  have inv2 : DInv elements (popUntil el stack roots).1
      (popUntil el stack roots).2 (el :: rest) := by
    cases stack with
    | nil => exact inv
    | cons f fs =>
      exact popUntilGo_DInv elements hLam hWf el (el :: rest) helel helrem
        helmem fs f roots inv
  have hstep : nestStep (stack, roots) el =
      (⟨el, []⟩ :: (popUntil el stack roots).1,
        (popUntil el stack roots).2) := by
    unfold nestStep
    rfl
  rw [hstep]
  refine
    { frameMem := ?_
      frameLe := ?_
      childD := ?_
      childDF := ?_
      rootsD := inv2.rootsD
      rootsDF := inv2.rootsDF
      aboveD := ?_
      childRemD := ?_
      rootsRemD := fun n hn r hr => inv2.rootsRemD n hn r (hrestsub r hr)
      rootsStackD := ?_
      remMem := fun r hr => inv2.remMem r (hrestsub r hr)
      remSorted := inv2.remSorted.of_cons }
  · intro f3 hf3
    rcases List.mem_cons.mp hf3 with rfl | hf3
    · exact helel
    · exact inv2.frameMem f3 hf3
  · intro f3 hf3 r hr
    rcases List.mem_cons.mp hf3 with rfl | hf3
    · exact helrest r hr
    · exact inv2.frameLe f3 hf3 r (hrestsub r hr)
  · intro f3 hf3
    rcases List.mem_cons.mp hf3 with rfl | hf3
    · exact List.Pairwise.nil
    · exact inv2.childD f3 hf3
  · intro f3 hf3 c hc3
    rcases List.mem_cons.mp hf3 with rfl | hf3
    · simp at hc3
    · exact inv2.childDF f3 hf3 c hc3
  · refine List.Pairwise.cons ?_ inv2.aboveD
    intro b hb c hc3
    exact inv2.childRemD b hb c hc3 el helmem
  · intro f3 hf3 c hc3 r hr
    rcases List.mem_cons.mp hf3 with rfl | hf3
    · simp at hc3
    · exact inv2.childRemD f3 hf3 c hc3 r (hrestsub r hr)
  · intro n hn f3 hf3
    rcases List.mem_cons.mp hf3 with rfl | hf3
    · exact inv2.rootsRemD n hn el helmem
    · exact inv2.rootsStackD n hn f3 hf3

theorem foldl_nestStep_DInv (elements : List Elem) (hLam : Laminar elements)
    (hWf : WfElems elements) :
    ∀ (l : List Elem) (st : List Frame × List CNode),
      DInv elements st.1 st.2 l →
      DInv elements (l.foldl nestStep st).1 (l.foldl nestStep st).2 [] := by
  intro l
  induction l with
  | nil => intro st inv; exact inv
  | cons el rest ih =>
    intro st inv
    have h1 := nestStep_DInv elements hLam hWf el rest st.1 st.2 inv
    have : (el :: rest).foldl nestStep st =
        rest.foldl nestStep (nestStep st el) := by
      simp
    rw [this]
    exact ih (nestStep (st.1, st.2) el) h1

theorem flushGo_DInv (elements : List Elem) :
    ∀ (fs : List Frame) (f : Frame) (roots : List CNode),
      DInv elements (f :: fs) roots [] →
      DInv elements [] (flushGo f fs roots) [] := by
  intro fs
  induction fs with
  | nil =>
    intro f roots inv
    exact DInv_popLast elements [] f roots inv (by simp)
  | cons g gs ih =>
    intro f roots inv
    exact ih ⟨g.el, g.children ++ [frameNode f]⟩ roots
      (DInv_squash elements [] f g gs roots inv (by simp))

theorem flushStack_DInv (elements : List Elem) (stack : List Frame)
    (roots : List CNode) (inv : DInv elements stack roots []) :
    DInv elements [] (flushStack stack roots) [] := by
  cases stack with
  | nil => exact inv
  | cons f fs => exact flushGo_DInv elements fs f roots inv

/-- The conditional guarantee of `nestElements`: for a laminar, well-formed
input family, sibling lists never overlap, at the top level and in every
subtree. -/
theorem nestElements_disjoint (es : List Elem) (hLam : Laminar es)
    (hWf : WfElems es) :
    (∀ n ∈ nestElements es, DisjointF n) ∧ SibDisjoint (nestElements es) := by
  unfold nestElements
  by_cases hne : es.isEmpty
  · simp only [hne, if_true]
    exact ⟨by simp, List.Pairwise.nil⟩
  · simp only [hne, Bool.false_eq_true, if_false]
    have hsorted := jsSort_sorted nestLe nestLe_total nestLe_trans es
    have hinv : DInv es [] [] (jsSort nestLe es) :=
      { frameMem := by simp
        frameLe := by simp
        childD := by simp
        childDF := by simp
        rootsD := List.Pairwise.nil
        rootsDF := by simp
        aboveD := List.Pairwise.nil
        childRemD := by simp
        rootsRemD := by simp
        rootsStackD := by simp
        remMem := fun r hr => (jsSort_perm nestLe es).subset hr
        remSorted := hsorted }
    have hfold := foldl_nestStep_DInv es hLam hWf (jsSort nestLe es)
      ([], []) hinv
    have hout := flushStack_DInv es _ _ hfold
    exact ⟨hout.rootsDF, hout.rootsD⟩

instance (p c : Elem) : Decidable (Contains p c) := by
  unfold Contains
  infer_instance

instance (l : List Elem) : Decidable (Laminar l) := by
  unfold Laminar
  infer_instance

instance (l : List Elem) : Decidable (WfElems l) := by
  unfold WfElems
  infer_instance

def exOvA : Elem := ⟨str "class", str "c", 1, 20, 0⟩
def exOvB : Elem := ⟨str "fn", str "f", 2, 12, 0⟩
def exOvC : Elem := ⟨str "fn", str "g", 6, 16, 0⟩

/-- Three elements whose ranges partially overlap (not laminar): the two
inner ranges 2–12 and 6–16 overlap on lines 6–12. -/
def exOverlapEs : List Elem := [exOvA, exOvB, exOvC]

/-- **C5 counterexample.**  On the flat list `exOverlapEs`, `nestElements`
attaches both 2–12 and 6–16 as children of 1–20, and these two siblings
overlap (their ranges share lines 6–12): the sibling-non-overlap part of
the claim is false as stated for arbitrary flat lists. -/
theorem claim_C5_counterexample :
    nestElements exOverlapEs =
      [CNode.mk exOvA [CNode.mk exOvB [], CNode.mk exOvC []]] ∧
    ¬ SibDisjoint [CNode.mk exOvB [], CNode.mk exOvC []] ∧
    exOvC.startLine ≤ exOvB.endLine ∧ exOvB.startLine ≤ exOvC.endLine := by
  refine ⟨by rfl, ?_, by decide, by decide⟩
  intro h
  unfold SibDisjoint at h
  rcases h with _ | ⟨hhead, _⟩
  have := hhead _ (List.mem_singleton.mpr rfl)
  simp [CNode.el, exOvB, exOvC] at this

/-- **C5** (amended).  For every flat element list, `nestElements` returns
a forest in which every child's range is contained in its parent's and the
children of every node (and the roots) are ordered by start line; when the
input family is additionally laminar (any two ranges nested or disjoint)
and well-formed (start ≤ end), siblings under the same parent never
overlap.  (The unconditional sibling-non-overlap stated by the spec fails,
see the counterexample.) -/
theorem claim_C5_nesting (es : List Elem) :
    (∀ n ∈ nestElements es, Nested n ∧ OrderedF n) ∧
    StartsMono (nestElements es) ∧
    (Laminar es → WfElems es →
      (∀ n ∈ nestElements es, DisjointF n) ∧
        SibDisjoint (nestElements es)) := by
  obtain ⟨h1, h2⟩ := nestElements_unconditional es
  exact ⟨fun n hn => ⟨(h1 n hn).1, (h1 n hn).2.1⟩, h2,
    fun hLam hWf => nestElements_disjoint es hLam hWf⟩

/-- A laminar well-formed family used as the C5 witness. -/
def exLamEs : List Elem :=
  [{ type := str "class", label := str "c", startLine := 1, endLine := 10,
     size := 0 },
   { type := str "fn", label := str "f", startLine := 2, endLine := 5,
     size := 0 },
   { type := str "fn", label := str "g", startLine := 6, endLine := 9,
     size := 0 }]

/-- Witness for C5 at the concrete laminar family `exLamEs`. -/
theorem claim_C5_witness :
    ((∀ n ∈ nestElements exLamEs, Nested n ∧ OrderedF n) ∧
      StartsMono (nestElements exLamEs)) ∧
    ((∀ n ∈ nestElements exLamEs, DisjointF n) ∧
      SibDisjoint (nestElements exLamEs)) :=
  ⟨⟨(claim_C5_nesting exLamEs).1, (claim_C5_nesting exLamEs).2.1⟩,
    (claim_C5_nesting exLamEs).2.2 (by decide) (by decide)⟩

-- ---------------------------------------------------------------------------
-- C3: element ranges.  Every block-end helper stays below the number of
-- split fragments, so every element's 1-indexed end line is at most
-- `lines.length` — which exceeds the pipeline's `lineCount` by one for a
-- file whose content ends in a newline (the claim's bound `lineCount`
-- fails there, see the counterexample).
-- ---------------------------------------------------------------------------

theorem findBraceBlockEndGo_le :
    ∀ (rest : List Str) (i : Nat) (d : Int) (fo : Bool),
      findBraceBlockEndGo i d fo rest ≤ i + rest.length - 1 := by
  intro rest
  induction rest with
  | nil => intro i d fo; simp [findBraceBlockEndGo]
  | cons line tl ih =>
    intro i d fo
    simp only [findBraceBlockEndGo]
    split
    · simp only [List.length_cons]
      omega
    · have := ih (i + 1) (braceLineStep d fo line).1 (braceLineStep d fo line).2.1
      simp only [List.length_cons]
      omega

theorem findBraceBlockEnd_le (lines : List Str) (startLine : Nat) :
    findBraceBlockEnd lines startLine ≤ lines.length - 1 := by
  unfold findBraceBlockEnd
  split
  · have := findBraceBlockEndGo_le (lines.drop startLine) startLine 0 false
    rw [List.length_drop] at this
    omega
  · exact le_refl _

theorem findIndentBlockEndGo_le :
    ∀ (rest : List Str) (i : Nat) (base : Nat),
      findIndentBlockEndGo i base rest ≤ i + rest.length - 1 := by
  intro rest
  induction rest with
  | nil => intro i base; simp [findIndentBlockEndGo]
  | cons line tl ih =>
    intro i base
    simp only [findIndentBlockEndGo]
    split
    · have := ih (i + 1) base
      simp only [List.length_cons]
      omega
    · split
      · simp only [List.length_cons]
        omega
      · have := ih (i + 1) base
        simp only [List.length_cons]
        omega

theorem findIndentBlockEnd_le (lines : List Str) (startLine : Nat)
    (h : startLine < lines.length) :
    findIndentBlockEnd lines startLine ≤ lines.length - 1 := by
  unfold findIndentBlockEnd
  rw [if_neg (by omega)]
  have := findIndentBlockEndGo_le (lines.drop (startLine + 1)) (startLine + 1)
    (indentOf (lines.getD startLine []))
  rw [List.length_drop] at this
  omega

theorem findRubyBlockEndGo_le :
    ∀ (rest : List Str) (i : Nat) (depth : Int),
      findRubyBlockEndGo i depth rest ≤ i + rest.length - 1 := by
  intro rest
  induction rest with
  | nil => intro i depth; simp [findRubyBlockEndGo]
  | cons line tl ih =>
    intro i depth
    simp only [findRubyBlockEndGo]
    repeat' split
    all_goals first
      | (simp only [List.length_cons]; omega)
      | (simp only [List.length_cons]
         exact le_trans (ih (i + 1) _) (by omega))

theorem findRubyBlockEnd_le (lines : List Str) (startLine : Nat) :
    findRubyBlockEnd lines startLine ≤ lines.length - 1 := by
  unfold findRubyBlockEnd
  split
  · have := findRubyBlockEndGo_le (lines.drop startLine) startLine 0
    rw [List.length_drop] at this
    omega
  · exact le_refl _

theorem findLuaBlockEndGo_le :
    ∀ (rest : List Str) (i : Nat) (depth : Int),
      findLuaBlockEndGo i depth rest ≤ i + rest.length - 1 := by
  intro rest
  induction rest with
  | nil => intro i depth; simp [findLuaBlockEndGo]
  | cons line tl ih =>
    intro i depth
    simp only [findLuaBlockEndGo]
    repeat' split
    all_goals first
      | (simp only [List.length_cons]; omega)
      | (simp only [List.length_cons]
         exact le_trans (ih (i + 1) _) (by omega))

theorem findLuaBlockEnd_le (lines : List Str) (startLine : Nat) :
    findLuaBlockEnd lines startLine ≤ lines.length - 1 := by
  unfold findLuaBlockEnd
  split
  · have := findLuaBlockEndGo_le (lines.drop startLine) startLine 0
    rw [List.length_drop] at this
    omega
  · exact le_refl _

theorem bashLoopEnd_le (lines : List Str) (i : Nat) (h : i < lines.length) :
    bashLoopEnd lines i ≤ lines.length - 1 := by
  unfold bashLoopEnd
  cases hf : (List.range lines.length).find?
      (fun j => decide (i + 1 ≤ j) &&
        decide (jsTrim (lines.getD j []) = str "done")) with
  | none =>
    show i ≤ lines.length - 1
    omega
  | some j =>
    have hj := List.mem_range.mp (List.mem_of_find?_eq_some hf)
    show j ≤ lines.length - 1
    omega

/-- Bounds of a built element given a bounded block end. -/
theorem buildElement_bounds {t l : Str} {i e2 : Nat} {lines : List Str}
    (hi : i < lines.length) (hend : e2 ≤ lines.length - 1) :
    1 ≤ (buildElement t l i e2 lines).startLine ∧
      (buildElement t l i e2 lines).endLine ≤ lines.length := by
  simp only [buildElement]
  omega

/-- An element's 1-indexed range lies within `[1, lines.length]`. -/
def elemBounded (lines : List Str) (e : Elem) : Prop :=
  1 ≤ e.startLine ∧ e.endLine ≤ lines.length

/-- `scanWith`, with the line index known to be in range. -/
theorem scanWith_propLt (P : Elem → Prop) (f : Nat → Option Elem)
    (lines : List Str)
    (h : ∀ i, i < lines.length → ∀ e, f i = some e → P e) :
    ∀ e ∈ scanWith f lines, P e := by
  intro e he
  unfold scanWith at he
  obtain ⟨i, hm, hf⟩ := List.mem_filterMap.mp he
  exact h i (List.mem_range.mp hm) e hf

theorem pyLine_bounds (lines : List Str) (i : Nat) (hi : i < lines.length)
    (e : Elem) (he : pyLine lines i = some e) : elemBounded lines e := by
  have h1 := findIndentBlockEnd_le lines i hi
  simp only [pyLine] at he
  (repeat' split at he) <;> (try cases he) <;>
    (simp only [elemBounded, buildElement, Elem.startLine, Elem.endLine]
     omega)

theorem jsLine_bounds (lines : List Str) (i : Nat) (hi : i < lines.length)
    (e : Elem) (he : jsLine lines i = some e) : elemBounded lines e := by
  have h1 := findBraceBlockEnd_le lines i
  simp only [jsLine, braceLoopBranch] at he
  (repeat' split at he) <;> (try cases he) <;>
    (simp only [elemBounded, buildElement, Elem.startLine, Elem.endLine]
     omega)

theorem tsLine_bounds (lines : List Str) (i : Nat) (hi : i < lines.length)
    (e : Elem) (he : tsLine lines i = some e) : elemBounded lines e := by
  have h1 := findBraceBlockEnd_le lines i
  simp only [tsLine, braceLoopBranch] at he
  (repeat' split at he) <;> (try cases he) <;>
    (simp only [elemBounded, buildElement, Elem.startLine, Elem.endLine]
     omega)

theorem goLine_bounds (lines : List Str) (i : Nat) (hi : i < lines.length)
    (e : Elem) (he : goLine lines i = some e) : elemBounded lines e := by
  have h1 := findBraceBlockEnd_le lines i
  simp only [goLine, braceLoopBranch] at he
  (repeat' split at he) <;> (try cases he) <;>
    (simp only [elemBounded, buildElement, Elem.startLine, Elem.endLine]
     omega)

theorem rsLine_bounds (lines : List Str) (i : Nat) (hi : i < lines.length)
    (e : Elem) (he : rsLine lines i = some e) : elemBounded lines e := by
  have h1 := findBraceBlockEnd_le lines i
  simp only [rsLine, braceLoopBranch] at he
  (repeat' split at he) <;> (try cases he) <;>
    (simp only [elemBounded, buildElement, Elem.startLine, Elem.endLine]
     omega)

theorem jvLine_bounds (lines : List Str) (i : Nat) (hi : i < lines.length)
    (e : Elem) (he : jvLine lines i = some e) : elemBounded lines e := by
  have h1 := findBraceBlockEnd_le lines i
  simp only [jvLine, braceLoopBranch] at he
  (repeat' split at he) <;> (try cases he) <;>
    (simp only [elemBounded, buildElement, Elem.startLine, Elem.endLine]
     omega)

theorem ccLine_bounds (lines : List Str) (i : Nat) (hi : i < lines.length)
    (e : Elem) (he : ccLine lines i = some e) : elemBounded lines e := by
  have h1 := findBraceBlockEnd_le lines i
  simp only [ccLine, braceLoopBranch] at he
  (repeat' split at he) <;> (try cases he) <;>
    (simp only [elemBounded, buildElement, Elem.startLine, Elem.endLine]
     omega)

theorem csLine_bounds (lines : List Str) (i : Nat) (hi : i < lines.length)
    (e : Elem) (he : csLine lines i = some e) : elemBounded lines e := by
  have h1 := findBraceBlockEnd_le lines i
  simp only [csLine, braceLoopBranch] at he
  (repeat' split at he) <;> (try cases he) <;>
    (simp only [elemBounded, buildElement, Elem.startLine, Elem.endLine]
     omega)

theorem phLine_bounds (lines : List Str) (i : Nat) (hi : i < lines.length)
    (e : Elem) (he : phLine lines i = some e) : elemBounded lines e := by
  have h1 := findBraceBlockEnd_le lines i
  simp only [phLine, braceLoopBranch] at he
  (repeat' split at he) <;> (try cases he) <;>
    (simp only [elemBounded, buildElement, Elem.startLine, Elem.endLine]
     omega)

theorem swLine_bounds (lines : List Str) (i : Nat) (hi : i < lines.length)
    (e : Elem) (he : swLine lines i = some e) : elemBounded lines e := by
  have h1 := findBraceBlockEnd_le lines i
  simp only [swLine, braceLoopBranch] at he
  (repeat' split at he) <;> (try cases he) <;>
    (simp only [elemBounded, buildElement, Elem.startLine, Elem.endLine]
     omega)

theorem ktLine_bounds (lines : List Str) (i : Nat) (hi : i < lines.length)
    (e : Elem) (he : ktLine lines i = some e) : elemBounded lines e := by
  have h1 := findBraceBlockEnd_le lines i
  simp only [ktLine, braceLoopBranch] at he
  (repeat' split at he) <;> (try cases he) <;>
    (simp only [elemBounded, buildElement, Elem.startLine, Elem.endLine]
     omega)

theorem scLine_bounds (lines : List Str) (i : Nat) (hi : i < lines.length)
    (e : Elem) (he : scLine lines i = some e) : elemBounded lines e := by
  have h1 := findBraceBlockEnd_le lines i
  simp only [scLine, braceLoopBranch] at he
  (repeat' split at he) <;> (try cases he) <;>
    (simp only [elemBounded, buildElement, Elem.startLine, Elem.endLine]
     omega)

theorem rbLine_bounds (lines : List Str) (i : Nat) (hi : i < lines.length)
    (e : Elem) (he : rbLine lines i = some e) : elemBounded lines e := by
  have h1 := findRubyBlockEnd_le lines i
  simp only [rbLine] at he
  (repeat' split at he) <;> (try cases he) <;>
    (simp only [elemBounded, buildElement, Elem.startLine, Elem.endLine]
     omega)

theorem luLine_bounds (lines : List Str) (i : Nat) (hi : i < lines.length)
    (e : Elem) (he : luLine lines i = some e) : elemBounded lines e := by
  have h1 := findLuaBlockEnd_le lines i
  simp only [luLine] at he
  (repeat' split at he) <;> (try cases he) <;>
    (simp only [elemBounded, buildElement, Elem.startLine, Elem.endLine]
     omega)

theorem plLine_bounds (lines : List Str) (i : Nat) (hi : i < lines.length)
    (e : Elem) (he : plLine lines i = some e) : elemBounded lines e := by
  have h1 := findBraceBlockEnd_le lines i
  simp only [plLine] at he
  (repeat' split at he) <;> (try cases he) <;>
    (simp only [elemBounded, buildElement, Elem.startLine, Elem.endLine]
     omega)

theorem baLine_bounds (lines : List Str) (i : Nat) (hi : i < lines.length)
    (e : Elem) (he : baLine lines i = some e) : elemBounded lines e := by
  have h1 := findBraceBlockEnd_le lines i
  have h2 := bashLoopEnd_le lines i hi
  simp only [baLine, baLine.baLoopBranch] at he
  (repeat' split at he) <;> (try cases he) <;>
    (simp only [elemBounded, buildElement, Elem.startLine, Elem.endLine]
     omega)

/-- Every element returned by the scanner has a 1-based range inside
`[1, (splitNl content).length]`. -/
theorem parseCodeStructure_bounds (filePath content : Str) :
    ∀ e ∈ parseCodeStructure filePath content,
      elemBounded (splitNl content) e := by
  unfold parseCodeStructure
  refine dispatchExt_prop _ _ _ ?_ ?_ ?_ ?_ ?_ ?_ ?_ ?_ ?_ ?_ ?_ ?_ ?_ ?_ ?_ ?_
  · exact scanWith_propLt _ _ _ (fun i hi e he => pyLine_bounds _ i hi e he)
  · exact scanWith_propLt _ _ _ (fun i hi e he => jsLine_bounds _ i hi e he)
  · exact scanWith_propLt _ _ _ (fun i hi e he => tsLine_bounds _ i hi e he)
  · exact scanWith_propLt _ _ _ (fun i hi e he => goLine_bounds _ i hi e he)
  · exact scanWith_propLt _ _ _ (fun i hi e he => rsLine_bounds _ i hi e he)
  · exact scanWith_propLt _ _ _ (fun i hi e he => jvLine_bounds _ i hi e he)
  · exact scanWith_propLt _ _ _ (fun i hi e he => ccLine_bounds _ i hi e he)
  · exact scanWith_propLt _ _ _ (fun i hi e he => csLine_bounds _ i hi e he)
  · exact scanWith_propLt _ _ _ (fun i hi e he => phLine_bounds _ i hi e he)
  · exact scanWith_propLt _ _ _ (fun i hi e he => rbLine_bounds _ i hi e he)
  · exact scanWith_propLt _ _ _ (fun i hi e he => swLine_bounds _ i hi e he)
  · exact scanWith_propLt _ _ _ (fun i hi e he => ktLine_bounds _ i hi e he)
  · exact scanWith_propLt _ _ _ (fun i hi e he => scLine_bounds _ i hi e he)
  · exact scanWith_propLt _ _ _ (fun i hi e he => luLine_bounds _ i hi e he)
  · exact scanWith_propLt _ _ _ (fun i hi e he => plLine_bounds _ i hi e he)
  · exact scanWith_propLt _ _ _ (fun i hi e he => baLine_bounds _ i hi e he)

/-- C3: for every file, every code element produced by the scanner plus
nester has a start line at least 1 and an end line at most the raw
newline-split length of the content, and every child element's range is
contained in its parent's (recursively). The split length exceeds the
file's `jsLineCount` by one exactly when the content ends in a newline, so
the claimed bound `endLine ≤ lineCount` fails in that case (see the
counterexample): the amended upper bound is `splitNlLen content`. -/
theorem claim_C3_bounds (filePath content : Str) :
    ∀ n ∈ nestElements (parseCodeStructure filePath content),
      Nested n ∧
        ∀ e, InTreeE e n →
          1 ≤ e.startLine ∧ e.endLine ≤ splitNlLen content := by
  intro n hn
  have h1 :=
    (nestElements_unconditional (parseCodeStructure filePath content)).1 n hn
  refine ⟨h1.1, fun e he => ?_⟩
  have hb := parseCodeStructure_bounds filePath content e (h1.2.2 e he)
  exact ⟨hb.1, hb.2⟩

/-- C3 counterexample: for the Python file `a.py` with content
`"class A:\n  pass\n"`, whose `jsLineCount` is 2, the scanner and nester
produce a class element with end line 3 > 2: the indentation-based block
end counts the empty fragment after the trailing newline as a line of the
block. -/
theorem claim_C3_counterexample :
    ∃ n ∈ nestElements
        (parseCodeStructure (str "a.py") (str "class A:\n  pass\n")),
      ∃ e, InTreeE e n ∧
        jsLineCount (str "class A:\n  pass\n") < e.endLine := by
  have hv : nestElements
      (parseCodeStructure (str "a.py") (str "class A:\n  pass\n")) =
      [CNode.mk (Elem.mk (str "class") (str "class A") 1 3 17) []] := by rfl
  rw [hv]
  exact ⟨_, List.mem_singleton.mpr rfl, _, InTreeE.here _ _, by decide⟩

/-- C3 witness: the bound theorem applied to the concrete Python file. -/
theorem claim_C3_witness :
    1 ≤ (Elem.mk (str "class") (str "class A") 1 3 17).startLine ∧
      (Elem.mk (str "class") (str "class A") 1 3 17).endLine ≤
        splitNlLen (str "class A:\n  pass\n") := by
  have h := claim_C3_bounds (str "a.py") (str "class A:\n  pass\n")
      (CNode.mk (Elem.mk (str "class") (str "class A") 1 3 17) [])
      (by rw [show nestElements
            (parseCodeStructure (str "a.py") (str "class A:\n  pass\n")) =
            [CNode.mk (Elem.mk (str "class") (str "class A") 1 3 17) []]
          from rfl]
          exact List.mem_singleton.mpr rfl)
  exact h.2 _ (InTreeE.here _ _)

/-- The Go parser only ever emits kinds `class`, `test`, `fn`, `loop`:
never `ctor` (in particular `func init()` is a plain `fn`). -/
theorem goLine_typeRange (lines : List Str) (i : Nat) (e : Elem)
    (he : goLine lines i = some e) :
    e.type = str "class" ∨ e.type = str "test" ∨ e.type = str "fn" ∨
      e.type = str "loop" := by
  simp only [goLine] at he
  (repeat' split at he) <;> (try cases he) <;>
    (simp only [buildElement, Elem.type]
     decide)

/-- In the Python parser, a `ctor` element only arises from a function
named exactly `__init__`. -/
theorem pyLine_ctorShape (lines : List Str) (i : Nat) (e : Elem)
    (he : pyLine lines i = some e) (ht : e.type = str "ctor") :
    ∃ p, e.label = str "ctor __init__(" ++ p := by
  simp only [pyLine] at he
  (repeat' split at he) <;> (try cases he) <;>
    first
      | (exact absurd rfl (by assumption))
      | (exact absurd ht (by simp only [buildElement, Elem.type]; decide))
      | (simp only [buildElement, Elem.label, *]
         exact ⟨_, rfl⟩)

/-- In the JavaScript parser, a `ctor` element only arises from a function
named exactly `constructor`. -/
theorem jsLine_ctorShape (lines : List Str) (i : Nat) (e : Elem)
    (he : jsLine lines i = some e) (ht : e.type = str "ctor") :
    ∃ p, e.label = str "ctor constructor(" ++ p := by
  simp only [jsLine, braceLoopBranch] at he
  (repeat' split at he) <;> (try cases he) <;>
    first
      | (exact absurd rfl (by assumption))
      | (exact absurd ht (by simp only [buildElement, Elem.type]; decide))
      | (simp only [buildElement, Elem.label, *]
         exact ⟨_, rfl⟩)

/-- C8: classification is per-language, not uniform. What holds: the Go
parser only emits kinds `class`/`test`/`fn`/`loop` — a constructor-like
name such as `init` is never classified `ctor` there (see the
counterexample) — while in the Python parser a `ctor` element arises only
from the name `__init__` and in the JavaScript parser only from the name
`constructor` (never from `initialize`, `__construct` or `init`). -/
theorem claim_C8_classification :
    (∀ lines i e, goLine lines i = some e →
        e.type = str "class" ∨ e.type = str "test" ∨ e.type = str "fn" ∨
          e.type = str "loop") ∧
    (∀ lines i e, pyLine lines i = some e → e.type = str "ctor" →
        ∃ p, e.label = str "ctor __init__(" ++ p) ∧
    (∀ lines i e, jsLine lines i = some e → e.type = str "ctor" →
        ∃ p, e.label = str "ctor constructor(" ++ p) := by
  refine ⟨?_, ?_, ?_⟩
  · exact fun lines i e he => goLine_typeRange lines i e he
  · exact fun lines i e he ht => pyLine_ctorShape lines i e he ht
  · exact fun lines i e he ht => jsLine_ctorShape lines i e he ht

/-- C8 counterexample: the Go file line `func init() \x7b ... \x7d`
produces an element of kind `fn`, not `ctor`, although `init` is listed as
a constructor-like name. -/
theorem claim_C8_counterexample :
    ∃ e ∈ parseCodeStructure (str "a.go") (str "func init() \x7b\n\x7d"),
      e.label = str "fn init()" ∧ e.type = str "fn" ∧ e.type ≠ str "ctor" := by
  have hv : parseCodeStructure (str "a.go") (str "func init() \x7b\n\x7d") =
      [Elem.mk (str "fn") (str "fn init()") 1 2 16] := by rfl
  rw [hv]
  exact ⟨_, List.mem_singleton.mpr rfl, by decide, by decide, by decide⟩

/-- C8 witness: the classification theorem applied to three concrete
one-function files (Go test function, Python `__init__`, JavaScript
`constructor`). -/
theorem claim_C8_witness :
    ((Elem.mk (str "test") (str "test TestA()") 1 2 17).type = str "class" ∨
      (Elem.mk (str "test") (str "test TestA()") 1 2 17).type = str "test" ∨
      (Elem.mk (str "test") (str "test TestA()") 1 2 17).type = str "fn" ∨
      (Elem.mk (str "test") (str "test TestA()") 1 2 17).type =
        str "loop") ∧
    (∃ p, (Elem.mk (str "ctor") (str "ctor __init__(self)") 1 2 27).label =
        str "ctor __init__(" ++ p) ∧
    (∃ p, (Elem.mk (str "ctor") (str "ctor constructor(x)") 1 2 28).label =
        str "ctor constructor(" ++ p) := by
  refine ⟨?_, ?_, ?_⟩
  · exact claim_C8_classification.1
      (splitNl (str "func TestA() \x7b\n\x7d")) 0 _ rfl
  · exact claim_C8_classification.2.1
      (splitNl (str "def __init__(self):\n  pass")) 0 _ rfl rfl
  · exact claim_C8_classification.2.2
      (splitNl (str "function constructor(x) \x7b\n\x7d")) 0 _ rfl rfl

-- ---------------------------------------------------------------------------
-- C4: the offset fixed point.  Line counts of rendered text.
-- ---------------------------------------------------------------------------

/-- Number of newline characters in a string. -/
def countNl (s : Str) : Nat := s.count '\n'

/-- The string is empty or ends with a newline. -/
def EndsNl (s : Str) : Prop := s = [] ∨ endsWithNl s = true

/-- A hypothetical third resolver pass: the header line count recomputed
from the second-pass code index. -/
def headerLinesOf3 (cfg : Config) (skip : Str → Bool) (files : List InFile) :
    Nat :=
  totalHeaderLines cfg.header (systemPromptOf cfg.llmsTxt)
    (indexLineCount (indexPass2 cfg skip files))

/-- A hypothetical third pass over the ML table. -/
def filesPass3 (cfg : Config) (skip : Str → Bool) (files : List InFile) :
    List PFile :=
  assignRealMl skip (headerLinesOf3 cfg skip files + 1)
    (procFiles cfg skip files)

/-- A hypothetical third regeneration of the code index. -/
def indexPass3 (cfg : Config) (skip : Str → Bool) (files : List InFile) :
    Str :=
  generateCodeIndex (filesPass3 cfg skip files) cfg.rootName skip
    (! cfg.parse) cfg.fmtBytes

/-- A file with its ML offsets erased; two files agreeing here differ at
most in their ML offsets. -/
def eraseMl (f : PFile) : PFile := { f with mlStart := 0, mlEnd := 0 }

theorem countNl_append (a b : Str) :
    countNl (a ++ b) = countNl a + countNl b := by
  unfold countNl
  exact List.count_append _ _ _

theorem digitChar_ne_nl (n : Nat) : Nat.digitChar n ≠ '\x0a' := by
  by_cases h0 : n = 0
  · subst h0; decide
  by_cases h1 : n = 1
  · subst h1; decide
  by_cases h2 : n = 2
  · subst h2; decide
  by_cases h3 : n = 3
  · subst h3; decide
  by_cases h4 : n = 4
  · subst h4; decide
  by_cases h5 : n = 5
  · subst h5; decide
  by_cases h6 : n = 6
  · subst h6; decide
  by_cases h7 : n = 7
  · subst h7; decide
  by_cases h8 : n = 8
  · subst h8; decide
  by_cases h9 : n = 9
  · subst h9; decide
  by_cases h10 : n = 10
  · subst h10; decide
  by_cases h11 : n = 11
  · subst h11; decide
  by_cases h12 : n = 12
  · subst h12; decide
  by_cases h13 : n = 13
  · subst h13; decide
  by_cases h14 : n = 14
  · subst h14; decide
  by_cases h15 : n = 15
  · subst h15; decide
  · unfold Nat.digitChar
    rw [if_neg h0, if_neg h1, if_neg h2, if_neg h3, if_neg h4, if_neg h5, if_neg h6, if_neg h7, if_neg h8, if_neg h9, if_neg h10, if_neg h11, if_neg h12, if_neg h13, if_neg h14, if_neg h15]
    decide

theorem toDigitsCore_ne_nl (b : Nat) :
    ∀ fuel n ds, '\x0a' ∉ ds → '\x0a' ∉ Nat.toDigitsCore b fuel n ds := by
  intro fuel
  induction fuel with
  | zero =>
    intro n ds h
    simpa [Nat.toDigitsCore] using h
  | succ f ih =>
    intro n ds h
    simp only [Nat.toDigitsCore]
    have hd : '\x0a' ∉ Nat.digitChar (n % b) :: ds := by
      intro hm
      rcases List.mem_cons.mp hm with h1 | h1
      · exact digitChar_ne_nl _ h1.symm
      · exact h h1
    split
    · exact hd
    · exact ih _ _ hd

theorem natStr_ne_nl (n : Nat) : '\x0a' ∉ natStr n := by
  intro h
  exact toDigitsCore_ne_nl 10 (n + 1) n [] (by simp) h

theorem countNl_natStr (n : Nat) : countNl (natStr n) = 0 := by
  unfold countNl
  exact List.count_eq_zero.mpr (natStr_ne_nl n)

theorem splitNlLen_eq_countNl (s : Str) : splitNlLen s = countNl s + 1 := by
  induction s with
  | nil => simp [splitNlLen, splitNl, countNl]
  | cons c t ih =>
    by_cases hc : c = '\n'
    · subst hc
      simp only [splitNlLen, splitNl, if_pos rfl, List.length_cons] at *
      simp only [countNl, List.count_cons, if_pos rfl] at *
      simp [countNl] at ih ⊢
      omega
    · cases hsp : splitNl t with
      | nil => exact absurd hsp (splitNl_ne_nil t)
      | cons h r =>
        simp only [splitNlLen, splitNl, if_neg hc, hsp, List.length_cons] at *
        have hcount : countNl (c :: t) = countNl t := by
          simp [countNl, List.count_cons, hc]
        omega

theorem endsWithNl_append (a b : Str) (hb : b ≠ []) :
    endsWithNl (a ++ b) = endsWithNl b := by
  unfold endsWithNl
  rw [List.getLast?_append_of_ne_nil a hb]

theorem EndsNl_append {a b : Str} (ha : EndsNl a) (hb : EndsNl b) :
    EndsNl (a ++ b) := by
  rcases hb with hb | hb
  · subst hb
    simpa using ha
  · right
    rw [endsWithNl_append a b ?_]
    · exact hb
    · intro h0
      rw [h0] at hb
      simp [endsWithNl] at hb

theorem EndsNl_ends {b : Str} (a : Str) (hb : endsWithNl b = true) :
    EndsNl (a ++ b) := by
  right
  rw [endsWithNl_append a b ?_]
  · exact hb
  · intro h0
    rw [h0] at hb
    simp [endsWithNl] at hb

theorem endsWithNl_append_true {b : Str} (a : Str)
    (hb : endsWithNl b = true) : endsWithNl (a ++ b) = true := by
  rw [endsWithNl_append a b ?_]
  · exact hb
  · intro h0
    rw [h0] at hb
    simp [endsWithNl] at hb

theorem renderCodeElements_endsNl (fb : Nat → Str) (o : Nat) :
    ∀ k ns pfx, sizeOf (ns : List CNode) ≤ k →
      EndsNl (renderCodeElements fb o ns pfx) := by
  intro k
  induction k with
  | zero =>
    intro ns pfx h
    cases ns with
    | nil => exact Or.inl (by simp [renderCodeElements])
    | cons n rest => simp at h
  | succ k ih =>
    intro ns pfx h
    cases ns with
    | nil => exact Or.inl (by simp [renderCodeElements])
    | cons n rest =>
      obtain ⟨el, children⟩ := n
      have h1 : sizeOf children ≤ k := by simp at h; omega
      have h2 : sizeOf rest ≤ k := by simp at h; omega
      simp only [renderCodeElements]
      refine EndsNl_append (EndsNl_append ?_ ?_) (ih rest _ h2)
      · exact EndsNl_ends _ (by decide)
      · split
        · exact ih children _ h1
        · exact Or.inl rfl

theorem renderEntries_endsNl (fb : Nat → Str) (skip : Str → Bool)
    (np : Bool) :
    ∀ k entries pfx, sizeOf (entries : List (Str × DirT)) ≤ k →
      EndsNl (renderEntries fb skip np entries pfx) := by
  intro k
  induction k with
  | zero =>
    intro entries pfx h
    cases entries with
    | nil => exact Or.inl (by simp [renderEntries])
    | cons e rest => simp at h
  | succ k ih =>
    intro entries pfx h
    cases entries with
    | nil => exact Or.inl (by simp [renderEntries])
    | cons e rest =>
      obtain ⟨key, v⟩ := e
      have h2 : sizeOf rest ≤ k := by simp at h; omega
      cases v with
      | file f =>
        simp only [renderEntries]
        refine EndsNl_append (EndsNl_append ?_ ?_) (ih rest _ h2)
        · exact EndsNl_ends _ (by decide)
        · split
          · exact EndsNl_ends _ (by decide)
          · split
            · exact renderCodeElements_endsNl fb f.mlStart
                (sizeOf f.codeElements) _ _ (le_refl _)
            · exact Or.inl rfl
      | dir sub =>
        have h1 : sizeOf (jsKeysOrder sub) ≤ k := by
          rw [sizeOf_jsKeysOrder]
          simp at h
          omega
        simp only [renderEntries]
        refine EndsNl_append
          (EndsNl_append (EndsNl_ends _ (by decide)) (ih _ _ h1))
          (ih rest _ h2)

theorem generateCodeIndex_endsNl (files : List PFile) (r : Str)
    (skip : Str → Bool) (np : Bool) (fb : Nat → Str) :
    endsWithNl (generateCodeIndex files r skip np fb) = true := by
  unfold generateCodeIndex
  rcases renderEntries_endsNl fb skip np
      (sizeOf (jsKeysOrder (buildStructure files)))
      (jsKeysOrder (buildStructure files)) [] (le_refl _) with h | h
  · rw [h, List.append_nil]
    apply endsWithNl_append_true
    decide
  · exact endsWithNl_append_true _ h

theorem indexLineCount_gen (files : List PFile) (r : Str)
    (skip : Str → Bool) (np : Bool) (fb : Nat → Str) :
    indexLineCount (generateCodeIndex files r skip np fb) =
      countNl (generateCodeIndex files r skip np fb) := by
  rw [indexLineCount, if_pos (generateCodeIndex_endsNl files r skip np fb),
    splitNlLen_eq_countNl]
  omega

mutual

/-- A directory tree with all ML offsets erased. -/
def eraseT : DirT → DirT
  | .file f => .file (eraseMl f)
  | .dir l => .dir (eraseTL l)

/-- `eraseT` over an entry list. -/
def eraseTL : List (Str × DirT) → List (Str × DirT)
  | [] => []
  | (k, v) :: rest => (k, eraseT v) :: eraseTL rest

end

theorem eraseMl_fields {f1 f2 : PFile} (h : eraseMl f1 = eraseMl f2) :
    f1.relativePath = f2.relativePath ∧ f1.content = f2.content ∧
    f1.size = f2.size ∧ f1.formattedSize = f2.formattedSize ∧
    f1.lineCount = f2.lineCount ∧ f1.codeElements = f2.codeElements := by
  have h1 := congrArg PFile.relativePath h
  have h2 := congrArg PFile.content h
  have h3 := congrArg PFile.size h
  have h4 := congrArg PFile.formattedSize h
  have h5 := congrArg PFile.lineCount h
  have h6 := congrArg PFile.codeElements h
  exact ⟨h1, h2, h3, h4, h5, h6⟩

theorem eraseTL_append (a b : List (Str × DirT)) :
    eraseTL (a ++ b) = eraseTL a ++ eraseTL b := by
  induction a with
  | nil => simp [eraseTL]
  | cons e rest ih =>
    obtain ⟨k, v⟩ := e
    simp [eraseTL, ih]

theorem eraseTL_keyFilter (p : Str → Bool) :
    ∀ l1 l2 : List (Str × DirT), eraseTL l1 = eraseTL l2 →
      eraseTL (l1.filter (fun e => p e.1)) =
        eraseTL (l2.filter (fun e => p e.1)) := by
  intro l1
  induction l1 with
  | nil =>
    intro l2 h
    cases l2 with
    | nil => rfl
    | cons e r =>
      obtain ⟨k, v⟩ := e
      simp [eraseTL] at h
  | cons e1 r1 ih =>
    intro l2 h
    obtain ⟨k1, v1⟩ := e1
    cases l2 with
    | nil => simp [eraseTL] at h
    | cons e2 r2 =>
      obtain ⟨k2, v2⟩ := e2
      simp only [eraseTL, List.cons.injEq, Prod.mk.injEq] at h
      obtain ⟨⟨hk, hv⟩, hr⟩ := h
      subst hk
      simp only [List.filter_cons]
      by_cases hp : p k1
      · simp only [hp, if_true, eraseTL, ih r2 hr, hv]
      · simp only [hp, Bool.false_eq_true, if_false, ih r2 hr]

theorem eraseTL_setKey (k : Str) :
    ∀ {v1 v2 : DirT} (l1 l2 : List (Str × DirT)), eraseT v1 = eraseT v2 →
      eraseTL l1 = eraseTL l2 →
      eraseTL (setKey k v1 l1) = eraseTL (setKey k v2 l2) := by
  intro v1 v2 l1
  induction l1 with
  | nil =>
    intro l2 hv h
    cases l2 with
    | nil => simp [setKey, eraseTL, hv]
    | cons e r =>
      obtain ⟨k2, w⟩ := e
      simp [eraseTL] at h
  | cons e1 r1 ih =>
    intro l2 hv h
    obtain ⟨k1, w1⟩ := e1
    cases l2 with
    | nil => simp [eraseTL] at h
    | cons e2 r2 =>
      obtain ⟨k2, w2⟩ := e2
      simp only [eraseTL, List.cons.injEq, Prod.mk.injEq] at h
      obtain ⟨⟨hk, hw⟩, hr⟩ := h
      subst hk
      simp only [setKey]
      by_cases hkk : k1 = k
      · simp only [hkk, if_true, eraseTL, hv, hr]
      · simp only [hkk, if_false, eraseTL, hw, ih r2 hv hr]

theorem find?_eraseTL (part : Str) :
    ∀ l1 l2 : List (Str × DirT), eraseTL l1 = eraseTL l2 →
      Option.map (fun e => ((e : Str × DirT).1, eraseT e.2))
          (l1.find? (fun e => e.1 = part)) =
        Option.map (fun e => ((e : Str × DirT).1, eraseT e.2))
          (l2.find? (fun e => e.1 = part)) := by
  intro l1
  induction l1 with
  | nil =>
    intro l2 h
    cases l2 with
    | nil => rfl
    | cons e r =>
      obtain ⟨k, v⟩ := e
      simp [eraseTL] at h
  | cons e1 r1 ih =>
    intro l2 h
    obtain ⟨k1, v1⟩ := e1
    cases l2 with
    | nil => simp [eraseTL] at h
    | cons e2 r2 =>
      obtain ⟨k2, v2⟩ := e2
      simp only [eraseTL, List.cons.injEq, Prod.mk.injEq] at h
      obtain ⟨⟨hk, hv⟩, hr⟩ := h
      subst hk
      by_cases hp : k1 = part
      · simp [hp, hv]
      · simp [hp, ih r2 hr]

theorem eraseTL_length : ∀ l : List (Str × DirT), (eraseTL l).length = l.length := by
  intro l
  induction l with
  | nil => rfl
  | cons e rest ih =>
    obtain ⟨k, v⟩ := e
    simp [eraseTL, ih]

theorem insertPath_eraseTL {f1 f2 : PFile} (hf : eraseMl f1 = eraseMl f2) :
    ∀ parts l1 l2, eraseTL l1 = eraseTL l2 →
      eraseTL (insertPath f1 parts l1) = eraseTL (insertPath f2 parts l2) := by
  intro parts
  induction parts with
  | nil =>
    intro l1 l2 h
    simpa [insertPath] using h
  | cons part rest ih =>
    intro l1 l2 h
    cases rest with
    | nil =>
      simp only [insertPath]
      exact eraseTL_setKey part l1 l2 (by simp [eraseT, hf]) h
    | cons q qs =>
      simp only [insertPath]
      have hfind := find?_eraseTL part l1 l2 h
      cases h1 : l1.find? (fun e => e.1 = part) with
      | none =>
        rw [h1] at hfind
        cases h2 : l2.find? (fun e => e.1 = part) with
        | none =>
          exact eraseTL_setKey part l1 l2
            (by simp only [eraseT]; rw [ih [] [] rfl]) h
        | some e2 =>
          rw [h2] at hfind
          simp at hfind
      | some e1 =>
        rw [h1] at hfind
        cases h2 : l2.find? (fun e => e.1 = part) with
        | none =>
          rw [h2] at hfind
          simp at hfind
        | some e2 =>
          rw [h2] at hfind
          obtain ⟨k1, v1⟩ := e1
          obtain ⟨k2, v2⟩ := e2
          simp only [Option.map_some', Option.some.injEq, Prod.mk.injEq]
            at hfind
          obtain ⟨hk, hv⟩ := hfind
          cases v1 with
          | file g1 =>
            cases v2 with
            | file g2 => exact h
            | dir sub2 => simp [eraseT] at hv
          | dir sub1 =>
            cases v2 with
            | file g2 => simp [eraseT] at hv
            | dir sub2 =>
              have hsub : eraseTL sub1 = eraseTL sub2 := by
                simpa [eraseT] using hv
              exact eraseTL_setKey part l1 l2
                (by simp only [eraseT]; rw [ih sub1 sub2 hsub]) h

theorem buildStructure_go_eraseTL :
    ∀ (fl1 fl2 : List PFile), fl1.map eraseMl = fl2.map eraseMl →
      ∀ l1 l2, eraseTL l1 = eraseTL l2 →
      eraseTL (fl1.foldl
        (fun level f => insertPath f (splitSlash f.relativePath) level) l1) =
        eraseTL (fl2.foldl
          (fun level f => insertPath f (splitSlash f.relativePath) level) l2)
    := by
  intro fl1
  induction fl1 with
  | nil =>
    intro fl2 h l1 l2 hl
    cases fl2 with
    | nil => simpa using hl
    | cons g r => simp at h
  | cons f r ih =>
    intro fl2 h l1 l2 hl
    cases fl2 with
    | nil => simp at h
    | cons g r2 =>
      simp only [List.map_cons, List.cons.injEq] at h
      obtain ⟨hf, hr⟩ := h
      simp only [List.foldl_cons]
      refine ih r2 hr _ _ ?_
      rw [(eraseMl_fields hf).1]
      exact insertPath_eraseTL hf _ _ _ hl

theorem buildStructure_eraseTL {fl1 fl2 : List PFile}
    (h : fl1.map eraseMl = fl2.map eraseMl) :
    eraseTL (buildStructure fl1) = eraseTL (buildStructure fl2) :=
  buildStructure_go_eraseTL fl1 fl2 h [] [] rfl

theorem insSorted_eraseTL (cmp : Str × DirT → Str × DirT → Bool)
    (hc : ∀ a b a' b', (a : Str × DirT).1 = (a' : Str × DirT).1 →
      (b : Str × DirT).1 = (b' : Str × DirT).1 → cmp a b = cmp a' b') :
    ∀ (a1 a2 : Str × DirT) (l1 l2 : List (Str × DirT)),
      a1.1 = a2.1 → eraseT a1.2 = eraseT a2.2 → eraseTL l1 = eraseTL l2 →
      eraseTL (insSorted cmp a1 l1) = eraseTL (insSorted cmp a2 l2) := by
  intro a1 a2 l1
  induction l1 with
  | nil =>
    intro l2 hk hv h
    cases l2 with
    | nil =>
      obtain ⟨ka, va⟩ := a1
      obtain ⟨kb, vb⟩ := a2
      simp at hk hv
      simp [insSorted, eraseTL, hk, hv]
    | cons e r =>
      obtain ⟨k2, v2⟩ := e
      simp [eraseTL] at h
  | cons b1 r1 ih =>
    intro l2 hk hv h
    obtain ⟨kb1, vb1⟩ := b1
    cases l2 with
    | nil => simp [eraseTL] at h
    | cons b2 r2 =>
      obtain ⟨kb2, vb2⟩ := b2
      simp only [eraseTL, List.cons.injEq, Prod.mk.injEq] at h
      obtain ⟨⟨hbk, hbv⟩, hr⟩ := h
      have hcmp : cmp (kb1, vb1) a1 = cmp (kb2, vb2) a2 :=
        hc _ _ _ _ hbk hk
      simp only [insSorted]
      by_cases hle : cmp (kb1, vb1) a1
      · rw [if_pos hle, if_pos (by rw [← hcmp]; exact hle)]
        simp only [eraseTL, hbk, hbv, ih r2 hk hv hr]
      · rw [if_neg hle, if_neg (by rw [← hcmp]; exact hle)]
        obtain ⟨ka, va⟩ := a1
        obtain ⟨kb, vb⟩ := a2
        simp at hk hv
        simp [eraseTL, hk, hv, hbk, hbv, hr]

theorem jsSort_eraseTL (cmp : Str × DirT → Str × DirT → Bool)
    (hc : ∀ a b a' b', (a : Str × DirT).1 = (a' : Str × DirT).1 →
      (b : Str × DirT).1 = (b' : Str × DirT).1 → cmp a b = cmp a' b') :
    ∀ l1 l2, eraseTL l1 = eraseTL l2 →
      eraseTL (jsSort cmp l1) = eraseTL (jsSort cmp l2) := by
  intro l1
  induction l1 with
  | nil =>
    intro l2 h
    cases l2 with
    | nil => rfl
    | cons e r =>
      obtain ⟨k, v⟩ := e
      simp [eraseTL] at h
  | cons a r1 ih =>
    intro l2 h
    obtain ⟨k1, v1⟩ := a
    cases l2 with
    | nil => simp [eraseTL] at h
    | cons b r2 =>
      obtain ⟨k2, v2⟩ := b
      simp only [eraseTL, List.cons.injEq, Prod.mk.injEq] at h
      obtain ⟨⟨hk, hv⟩, hr⟩ := h
      simp only [jsSort]
      exact insSorted_eraseTL cmp hc _ _ _ _ hk hv (ih r2 hr)

theorem jsKeysOrder_eraseTL {l1 l2 : List (Str × DirT)}
    (h : eraseTL l1 = eraseTL l2) :
    eraseTL (jsKeysOrder l1) = eraseTL (jsKeysOrder l2) := by
  unfold jsKeysOrder
  rw [eraseTL_append, eraseTL_append]
  have h1 := eraseTL_keyFilter (fun k => isArrayIdx k) l1 l2 h
  have h2 := eraseTL_keyFilter (fun k => ! isArrayIdx k) l1 l2 h
  rw [jsSort_eraseTL _ ?_ _ _ h1, h2]
  intro a b a' b' ha hb
  rw [ha, hb]

theorem renderCodeElements_countNl (fb : Nat → Str) (o1 o2 : Nat) :
    ∀ k ns pfx, sizeOf (ns : List CNode) ≤ k →
      countNl (renderCodeElements fb o1 ns pfx) =
        countNl (renderCodeElements fb o2 ns pfx) := by
  intro k
  induction k with
  | zero =>
    intro ns pfx h
    cases ns with
    | nil => simp [renderCodeElements]
    | cons n rest => simp at h
  | succ k ih =>
    intro ns pfx h
    cases ns with
    | nil => simp [renderCodeElements]
    | cons n rest =>
      obtain ⟨el, children⟩ := n
      have h1 : sizeOf children ≤ k := by simp at h; omega
      have h2 : sizeOf rest ≤ k := by simp at h; omega
      have h4 := ih rest pfx h2
      by_cases hre : rest.isEmpty
      · have h3 := ih children (pfx ++ str "    ") h1
        simp only [renderCodeElements, countNl_append, countNl_natStr, hre,
          if_true]
        split <;> omega
      · have h3 := ih children (pfx ++ str "│   ") h1
        simp only [renderCodeElements, countNl_append, countNl_natStr, hre,
          if_false, Bool.false_eq_true]
        split <;> omega

theorem renderEntries_countNl (fb : Nat → Str) (skip : Str → Bool)
    (np : Bool) :
    ∀ k e1 e2 pfx, sizeOf (e1 : List (Str × DirT)) ≤ k →
      eraseTL e1 = eraseTL e2 →
      countNl (renderEntries fb skip np e1 pfx) =
        countNl (renderEntries fb skip np e2 pfx) := by
  intro k
  induction k with
  | zero =>
    intro e1 e2 pfx h hsim
    cases e1 with
    | nil =>
      cases e2 with
      | nil => rfl
      | cons b r =>
        obtain ⟨k2, v2⟩ := b
        simp [eraseTL] at hsim
    | cons a r1 => simp at h
  | succ k ih =>
    intro e1 e2 pfx h hsim
    cases e1 with
    | nil =>
      cases e2 with
      | nil => rfl
      | cons b r =>
        obtain ⟨k2, v2⟩ := b
        simp [eraseTL] at hsim
    | cons a r1 =>
      obtain ⟨k1, v1⟩ := a
      cases e2 with
      | nil => simp [eraseTL] at hsim
      | cons b r2 =>
        obtain ⟨k2, v2⟩ := b
        simp only [eraseTL, List.cons.injEq, Prod.mk.injEq] at hsim
        obtain ⟨⟨hk, hv⟩, hr⟩ := hsim
        subst hk
        have h2 : sizeOf r1 ≤ k := by simp at h; omega
        have hlen : r1.length = r2.length := by
          have ha := eraseTL_length r1
          have hb := eraseTL_length r2
          rw [hr] at ha
          omega
        have hemp : r2.isEmpty = r1.isEmpty := by
          cases r1 with
          | nil =>
            cases r2 with
            | nil => rfl
            | cons x y => simp at hlen
          | cons x y =>
            cases r2 with
            | nil => simp at hlen
            | cons x2 y2 => rfl
        have hrest := ih r1 r2 pfx h2 hr
        cases v1 with
        | file f1 =>
          cases v2 with
          | dir sub2 => simp [eraseT] at hv
          | file f2 =>
            have hff : eraseMl f1 = eraseMl f2 := by simpa [eraseT] using hv
            obtain ⟨hrp, hct, hsz, hfs, hlc, hce⟩ := eraseMl_fields hff
            by_cases hre : r1.isEmpty
            · have hrc := renderCodeElements_countNl fb f1.mlStart f2.mlStart
                (sizeOf f1.codeElements) f1.codeElements (pfx ++ str "    ")
                (le_refl _)
              simp only [renderEntries, countNl_append, countNl_natStr, hemp,
                hre, if_true, ← hrp, ← hfs, ← hce]
              split
              · omega
              · split <;> omega
            · have hrc := renderCodeElements_countNl fb f1.mlStart f2.mlStart
                (sizeOf f1.codeElements) f1.codeElements (pfx ++ str "│   ")
                (le_refl _)
              simp only [renderEntries, countNl_append, countNl_natStr, hemp,
                hre, if_false, Bool.false_eq_true, ← hrp, ← hfs, ← hce]
              split
              · omega
              · split <;> omega
        | dir sub1 =>
          cases v2 with
          | file f2 => simp [eraseT] at hv
          | dir sub2 =>
            have hsub : eraseTL sub1 = eraseTL sub2 := by
              simpa [eraseT] using hv
            have h1 : sizeOf (jsKeysOrder sub1) ≤ k := by
              rw [sizeOf_jsKeysOrder]
              simp at h
              omega
            by_cases hre : r1.isEmpty
            · have hrec := ih (jsKeysOrder sub1) (jsKeysOrder sub2)
                (pfx ++ str "    ") h1 (jsKeysOrder_eraseTL hsub)
              simp only [renderEntries, countNl_append, hemp, hre, if_true]
              omega
            · have hrec := ih (jsKeysOrder sub1) (jsKeysOrder sub2)
                (pfx ++ str "│   ") h1 (jsKeysOrder_eraseTL hsub)
              simp only [renderEntries, countNl_append, hemp, hre, if_false,
                Bool.false_eq_true]
              omega

theorem generateCodeIndex_countNl {l1 l2 : List PFile} (r : Str)
    (skip : Str → Bool) (np : Bool) (fb : Nat → Str)
    (h : l1.map eraseMl = l2.map eraseMl) :
    countNl (generateCodeIndex l1 r skip np fb) =
      countNl (generateCodeIndex l2 r skip np fb) := by
  unfold generateCodeIndex
  simp only [countNl_append]
  have := renderEntries_countNl fb skip np
    (sizeOf (jsKeysOrder (buildStructure l1)))
    (jsKeysOrder (buildStructure l1)) (jsKeysOrder (buildStructure l2)) []
    (le_refl _) (jsKeysOrder_eraseTL (buildStructure_eraseTL h))
  omega

theorem assignTempMl_eraseMl (skip : Str → Bool) :
    ∀ t fs, (assignTempMl skip t fs).map eraseMl = fs.map eraseMl := by
  intro t fs
  induction fs generalizing t with
  | nil => rfl
  | cons f r ih =>
    simp only [assignTempMl]
    split <;> simp only [List.map_cons, ih, List.cons.injEq] <;>
      exact ⟨rfl, trivial⟩

theorem assignRealMl_eraseMl (skip : Str → Bool) :
    ∀ c fs, (assignRealMl skip c fs).map eraseMl = fs.map eraseMl := by
  intro c fs
  induction fs generalizing c with
  | nil => rfl
  | cons f r ih =>
    simp only [assignRealMl]
    split <;> simp only [List.map_cons, ih, List.cons.injEq] <;>
      exact ⟨rfl, trivial⟩

theorem indexLineCount_pass2_eq_pass1 (cfg : Config) (skip : Str → Bool)
    (files : List InFile) :
    indexLineCount (indexPass2 cfg skip files) =
      indexLineCount (indexPass1 cfg skip files) := by
  unfold indexPass2 indexPass1 filesPass2
  rw [indexLineCount_gen, indexLineCount_gen]
  apply generateCodeIndex_countNl
  rw [assignRealMl_eraseMl, assignTempMl_eraseMl]

theorem headerLinesOf3_eq (cfg : Config) (skip : Str → Bool)
    (files : List InFile) :
    headerLinesOf3 cfg skip files = headerLinesOf cfg skip files := by
  unfold headerLinesOf3 headerLinesOf
  rw [indexLineCount_pass2_eq_pass1]

/-- C4: the resolver's fixed point is reached after the two implemented
passes.  Recomputing the header line count from the second-pass code index
and reassigning ML offsets (a hypothetical third pass) reproduces the
second-pass ML table exactly, and regenerating the code index from it
yields a character-for-character identical text: replacing the ML integers
in the rendered index never changes its line count, so the third header
line count equals the second. -/
theorem claim_C4_idempotence (cfg : Config) (skip : Str → Bool)
    (files : List InFile) :
    filesPass3 cfg skip files = filesPass2 cfg skip files ∧
      indexPass3 cfg skip files = indexPass2 cfg skip files := by
  have hf : filesPass3 cfg skip files = filesPass2 cfg skip files := by
    unfold filesPass3 filesPass2
    rw [headerLinesOf3_eq]
  refine ⟨hf, ?_⟩
  unfold indexPass3 indexPass2
  rw [hf]

-- ---------------------------------------------------------------------------
-- C10: content-omitted files carry `OL: 1-0` everywhere.
-- ---------------------------------------------------------------------------

/-- `a` occurs contiguously inside `b`. -/
def InfStr (a b : Str) : Prop := ∃ s t, b = s ++ a ++ t

/-- A file leaf in the directory structure: walk the directory keys `ds`,
then find the file under key `k`. -/
inductive LeafAt : List Str → Str → PFile → List (Str × DirT) → Prop where
  | here : ∀ k f level, (k, DirT.file f) ∈ level → LeafAt [] k f level
  | deeper : ∀ d ds k f sub level, (d, DirT.dir sub) ∈ level →
      LeafAt ds k f sub → LeafAt (d :: ds) k f level

theorem infStr_appL {a y : Str} (x : Str) (h : InfStr a y) :
    InfStr a (x ++ y) := by
  obtain ⟨s, t, rfl⟩ := h
  exact ⟨x ++ s, t, by simp [List.append_assoc]⟩

theorem infStr_appR {a x : Str} (y : Str) (h : InfStr a x) :
    InfStr a (x ++ y) := by
  obtain ⟨s, t, rfl⟩ := h
  exact ⟨s, t ++ y, by simp [List.append_assoc]⟩

theorem infStr_flatten {x : Str} {L : List Str} (h : x ∈ L) :
    InfStr x L.flatten := by
  obtain ⟨s, t, rfl⟩ := List.append_of_mem h
  refine ⟨s.flatten, t.flatten, ?_⟩
  simp [List.flatten_append, List.append_assoc]

theorem processFile_skip_eq (parse : Bool) (skip : Str → Bool) (f : InFile)
    (hs : skip f.relativePath = true) (c : Str) :
    processFile parse skip f =
      processFile parse skip ⟨f.relativePath, c, f.size, f.formattedSize⟩ := by
  simp [processFile, hs]

theorem processFile_skip_lineCount (parse : Bool) (skip : Str → Bool)
    (f : InFile) (hs : skip f.relativePath = true) :
    (processFile parse skip f).lineCount = 0 := by
  simp [processFile, hs]

theorem assignRealMl_forward (skip : Str → Bool) :
    ∀ (c : Nat) (fs : List PFile) (f : PFile), f ∈ fs →
      ∃ g ∈ assignRealMl skip c fs, g.relativePath = f.relativePath ∧
        g.lineCount = f.lineCount ∧ g.content = f.content ∧
        g.formattedSize = f.formattedSize := by
  intro c fs
  induction fs generalizing c with
  | nil => intro f hf; simp at hf
  | cons f0 rest ih =>
    intro f hf
    by_cases hs : skip f0.relativePath
    · simp only [assignRealMl, hs, if_true]
      rcases List.mem_cons.mp hf with rfl | hf2
      · exact ⟨_, List.mem_cons_self _ _, rfl, rfl, rfl, rfl⟩
      · obtain ⟨g, hg, he⟩ := ih (c + 2 + 1 + 2) f hf2
        exact ⟨g, List.mem_cons_of_mem _ hg, he⟩
    · simp only [assignRealMl, hs, Bool.false_eq_true, if_false]
      rcases List.mem_cons.mp hf with rfl | hf2
      · exact ⟨_, List.mem_cons_self _ _, rfl, rfl, rfl, rfl⟩
      · obtain ⟨g, hg, he⟩ := ih (c + 2 + f0.lineCount + 2) f hf2
        exact ⟨g, List.mem_cons_of_mem _ hg, he⟩

theorem filesPass2_skip_lineCount (cfg : Config) (skip : Str → Bool)
    (files : List InFile) (g : PFile) (hg : g ∈ filesPass2 cfg skip files)
    (hs : skip g.relativePath = true) : g.lineCount = 0 := by
  unfold filesPass2 at hg
  obtain ⟨f', hf', hrp, hlc, _⟩ := assignRealMl_shape skip _ _ g hg
  unfold procFiles processAll at hf'
  obtain ⟨inf, _, rfl⟩ := List.mem_map.mp hf'
  rw [hlc]
  apply processFile_skip_lineCount
  rw [← processFile_relativePath cfg.parse skip inf, ← hrp]
  exact hs

theorem setKey_mem_inv {e : Str × DirT} (k : Str) (v : DirT) :
    ∀ l, e ∈ setKey k v l → e ∈ l ∨ e = (k, v) := by
  intro l
  induction l with
  | nil =>
    intro h
    simp [setKey] at h
    exact Or.inr h
  | cons e2 rest ih =>
    intro h
    obtain ⟨k2, v2⟩ := e2
    simp only [setKey] at h
    by_cases hk : k2 = k
    · rw [if_pos hk] at h
      rcases List.mem_cons.mp h with rfl | h2
      · exact Or.inr rfl
      · exact Or.inl (List.mem_cons_of_mem _ h2)
    · rw [if_neg hk] at h
      rcases List.mem_cons.mp h with rfl | h2
      · exact Or.inl (List.mem_cons_self _ _)
      · rcases ih h2 with h3 | h3
        · exact Or.inl (List.mem_cons_of_mem _ h3)
        · exact Or.inr h3

theorem LeafAt_nil (ds : List Str) (k : Str) (f : PFile) :
    ¬ LeafAt ds k f ([] : List (Str × DirT)) := by
  intro h
  cases h <;> simp_all

theorem insertPath_leaf_inv (f : PFile) :
    ∀ parts level ds k g, LeafAt ds k g (insertPath f parts level) →
      LeafAt ds k g level ∨ g = f := by
  intro parts
  induction parts with
  | nil =>
    intro level ds k g h
    exact Or.inl h
  | cons p rest ih =>
    intro level ds k g h
    cases rest with
    | nil =>
      simp only [insertPath] at h
      cases h with
      | here k2 f2 lv hm =>
        rcases setKey_mem_inv p (DirT.file f) level hm with h2 | h2
        · exact Or.inl (LeafAt.here _ _ _ h2)
        · obtain ⟨hk, hv⟩ := Prod.mk.injEq .. |>.mp h2
          cases hv
          exact Or.inr rfl
      | deeper d ds2 k2 f2 sub lv hm hin =>
        rcases setKey_mem_inv p (DirT.file f) level hm with h2 | h2
        · exact Or.inl (LeafAt.deeper _ _ _ _ _ _ h2 hin)
        · obtain ⟨hk, hv⟩ := Prod.mk.injEq .. |>.mp h2
          cases hv
    | cons q qs =>
      simp only [insertPath] at h
      split at h
      · rename_i k0 sub0 heq
        cases h with
        | here k2 f2 lv hm =>
          rcases setKey_mem_inv p _ level hm with h2 | h2
          · exact Or.inl (LeafAt.here _ _ _ h2)
          · obtain ⟨hk, hv⟩ := Prod.mk.injEq .. |>.mp h2
            cases hv
        | deeper d ds2 k2 f2 sub lv hm hin =>
          rcases setKey_mem_inv p _ level hm with h2 | h2
          · exact Or.inl (LeafAt.deeper _ _ _ _ _ _ h2 hin)
          · obtain ⟨hk, hv⟩ := Prod.mk.injEq .. |>.mp h2
            cases hv
            rcases ih _ _ _ _ hin with h3 | h3
            · have hmem := List.mem_of_find?_eq_some heq
              have hkey : k0 = p := by
                have := List.find?_some heq
                simpa using this
              subst hkey
              subst hk
              exact Or.inl (LeafAt.deeper _ _ _ _ _ _ hmem h3)
            · exact Or.inr h3
      · exact Or.inl h
      · rename_i heq
        cases h with
        | here k2 f2 lv hm =>
          rcases setKey_mem_inv p _ level hm with h2 | h2
          · exact Or.inl (LeafAt.here _ _ _ h2)
          · obtain ⟨hk, hv⟩ := Prod.mk.injEq .. |>.mp h2
            cases hv
        | deeper d ds2 k2 f2 sub lv hm hin =>
          rcases setKey_mem_inv p _ level hm with h2 | h2
          · exact Or.inl (LeafAt.deeper _ _ _ _ _ _ h2 hin)
          · obtain ⟨hk, hv⟩ := Prod.mk.injEq .. |>.mp h2
            cases hv
            rcases ih _ _ _ _ hin with h3 | h3
            · exact absurd h3 (LeafAt_nil _ _ _)
            · exact Or.inr h3

theorem buildStructure_leaf_mem :
    ∀ (FL : List PFile) (level : List (Str × DirT)) ds k g,
      LeafAt ds k g (FL.foldl
        (fun lv f => insertPath f (splitSlash f.relativePath) lv) level) →
      LeafAt ds k g level ∨ g ∈ FL := by
  intro FL
  induction FL with
  | nil =>
    intro level ds k g h
    exact Or.inl h
  | cons f rest ih =>
    intro level ds k g h
    simp only [List.foldl_cons] at h
    rcases ih _ _ _ _ h with h2 | h2
    · rcases insertPath_leaf_inv f _ _ _ _ _ h2 with h3 | rfl
      · exact Or.inl h3
      · exact Or.inr (List.mem_cons_self _ _)
    · exact Or.inr (List.mem_cons_of_mem _ h2)

theorem LeafAt_perm {l1 l2 : List (Str × DirT)} (hp : l1.Perm l2) :
    ∀ ds k f, LeafAt ds k f l1 → LeafAt ds k f l2 := by
  intro ds k f h
  cases h with
  | here k2 f2 lv hm => exact LeafAt.here _ _ _ (hp.mem_iff.mp hm)
  | deeper d ds2 k2 f2 sub lv hm hin =>
    exact LeafAt.deeper _ _ _ _ _ _ (hp.mem_iff.mp hm) hin

theorem renderEntries_leaf (fb : Nat → Str) (skip : Str → Bool) (np : Bool) :
    ∀ n entries pfx ds k f, sizeOf (entries : List (Str × DirT)) ≤ n →
      LeafAt ds k f entries →
      InfStr (k ++ str " [" ++ str "OL: 1-" ++ natStr f.lineCount ++
          str " | ")
        (renderEntries fb skip np entries pfx) := by
  intro n
  induction n with
  | zero =>
    intro entries pfx ds k f h hl
    cases entries with
    | nil => exact absurd hl (LeafAt_nil _ _ _)
    | cons e rest => simp at h
  | succ n ih =>
    intro entries pfx ds k f h hl
    cases entries with
    | nil => exact absurd hl (LeafAt_nil _ _ _)
    | cons e rest =>
      obtain ⟨k1, v1⟩ := e
      have h2 : sizeOf rest ≤ n := by simp at h; omega
      cases hl with
      | here k2 f2 lv hm =>
        rcases List.mem_cons.mp hm with heq | hm2
        · injection heq with hk hv
          subst hk
          subst hv
          simp only [renderEntries]
          apply infStr_appR
          apply infStr_appR
          refine ⟨pfx ++ (if rest.isEmpty then str "└── " else str "├── "),
            str "ML: " ++ natStr f.mlStart ++ str "-" ++ natStr f.mlEnd ++
              str " | " ++ f.formattedSize ++ str "]\n", ?_⟩
          simp [List.append_assoc]
        · cases v1 <;>
            (simp only [renderEntries]
             exact infStr_appL _
               (ih rest pfx [] k f h2 (LeafAt.here _ _ _ hm2)))
      | deeper d ds2 k2 f2 sub lv hm hin =>
        rcases List.mem_cons.mp hm with heq | hm2
        · injection heq with hk hv
          subst hk
          subst hv
          simp only [renderEntries]
          apply infStr_appR
          apply infStr_appL
          have hb : sizeOf (jsKeysOrder sub) ≤ n := by
            rw [sizeOf_jsKeysOrder]
            simp at h
            omega
          exact ih _ _ ds2 k f hb
            (LeafAt_perm (jsKeysOrder_perm sub).symm _ _ _ hin)
        · cases v1 <;>
            (simp only [renderEntries]
             exact infStr_appL _
               (ih rest pfx (d :: ds2) k f h2
                 (LeafAt.deeper _ _ _ _ _ _ hm2 hin)))

theorem infStr_trans {a b c : Str} (h1 : InfStr a b) (h2 : InfStr b c) :
    InfStr a c := by
  obtain ⟨s1, t1, rfl⟩ := h1
  obtain ⟨s2, t2, rfl⟩ := h2
  exact ⟨s2 ++ s1, t1 ++ t2, by simp [List.append_assoc]⟩

/-- C10: a content-omitted file is processed without reading its content
(any content yields the same processed record), gets line count 0, and its
header line in the merged body and its leaf line in the code index carry
the annotation `OL: 1-0` — whatever the file's real line count. -/
theorem claim_C10_omitted (cfg : Config) (skip : Str → Bool)
    (files : List InFile) (f : InFile) (hf : f ∈ files)
    (hs : skip f.relativePath = true) :
    (∀ c : Str, processFile cfg.parse skip f =
        processFile cfg.parse skip
          ⟨f.relativePath, c, f.size, f.formattedSize⟩) ∧
    (processFile cfg.parse skip f).lineCount = 0 ∧
    (∃ g ∈ filesPass2 cfg skip files,
      g.relativePath = f.relativePath ∧ g.lineCount = 0 ∧
      InfStr (str "# FILE: " ++ replaceBS f.relativePath ++
          str " [OL: 1-" ++ natStr 0 ++ str " | ML: ")
        (combineDoc cfg skip files)) ∧
    (∀ ds k g, LeafAt ds k g (buildStructure (filesPass2 cfg skip files)) →
      skip g.relativePath = true →
      InfStr (k ++ str " [" ++ str "OL: 1-" ++ natStr 0 ++ str " | ")
        (indexPass2 cfg skip files)) := by
  refine ⟨processFile_skip_eq cfg.parse skip f hs,
    processFile_skip_lineCount cfg.parse skip f hs, ?_, ?_⟩
  · have hmem : processFile cfg.parse skip f ∈ procFiles cfg skip files :=
      List.mem_map_of_mem _ hf
    obtain ⟨g, hg, hrp, hlc, hct, hfs⟩ :=
      assignRealMl_forward skip (headerLinesOf cfg skip files + 1) _ _ hmem
    rw [processFile_relativePath] at hrp
    rw [processFile_skip_lineCount cfg.parse skip f hs] at hlc
    refine ⟨g, hg, hrp, hlc, ?_⟩
    unfold combineDoc assembleDoc
    apply infStr_appR
    apply infStr_appL
    have hmem2 : fileBlock skip g ∈
        (filesPass2 cfg skip files).map (fileBlock skip) :=
      List.mem_map_of_mem _ hg
    refine infStr_trans ?_ (infStr_flatten hmem2)
    refine ⟨[], natStr g.mlStart ++ str "-" ++ natStr g.mlEnd ++ str " | " ++
      g.formattedSize ++ str "]\n" ++ str "````\n" ++
      (str "(Content omitted - file size: " ++ g.formattedSize ++
        str ")\n") ++ str "````\n\n", ?_⟩
    simp [fileBlock, hrp, hlc, hs, List.append_assoc]
  · intro ds k g hleaf hsg
    rcases buildStructure_leaf_mem _ _ _ _ _ hleaf with h0 | hmem
    · exact absurd h0 (LeafAt_nil _ _ _)
    · have hlc0 := filesPass2_skip_lineCount cfg skip files g hmem hsg
      unfold indexPass2 generateCodeIndex
      apply infStr_appL
      have hr := renderEntries_leaf cfg.fmtBytes skip (! cfg.parse)
        (sizeOf (jsKeysOrder (buildStructure (filesPass2 cfg skip files))))
        _ [] ds k g (le_refl _)
        (LeafAt_perm (jsKeysOrder_perm _).symm _ _ _ hleaf)
      rw [hlc0] at hr
      exact hr

/-- C10 witness: the omitted-file theorem applied to the concrete two-file
example where `b.txt` is content-omitted. -/
theorem claim_C10_witness :
    (∀ c : Str, processFile exCfgNH.parse exSkipB
        ⟨str "b.txt", str "hello", 5, str "5B"⟩ =
      processFile exCfgNH.parse exSkipB ⟨str "b.txt", c, 5, str "5B"⟩) ∧
    (processFile exCfgNH.parse exSkipB
        ⟨str "b.txt", str "hello", 5, str "5B"⟩).lineCount = 0 ∧
    (∃ g ∈ filesPass2 exCfgNH exSkipB exFiles,
      g.relativePath = str "b.txt" ∧ g.lineCount = 0 ∧
      InfStr (str "# FILE: " ++ replaceBS (str "b.txt") ++ str " [OL: 1-" ++
          natStr 0 ++ str " | ML: ") (combineDoc exCfgNH exSkipB exFiles)) ∧
    (∀ ds k g, LeafAt ds k g
        (buildStructure (filesPass2 exCfgNH exSkipB exFiles)) →
      exSkipB g.relativePath = true →
      InfStr (k ++ str " [" ++ str "OL: 1-" ++ natStr 0 ++ str " | ")
        (indexPass2 exCfgNH exSkipB exFiles)) := by
  have h := claim_C10_omitted exCfgNH exSkipB exFiles
    ⟨str "b.txt", str "hello", 5, str "5B"⟩
    (by unfold exFiles; exact List.mem_cons_of_mem _ (List.mem_cons_self _ _))
    (by decide)
  exact h


-- ---------------------------------------------------------------------------
-- C1/C7: behaviour of the extraction regex on assembled documents.
-- ---------------------------------------------------------------------------

def hasOcc (p : Str) : Str → Bool
  | [] => p.isPrefixOf []
  | c :: t => p.isPrefixOf (c :: t) || hasOcc p t

theorem starGRun_all {α : Type} (f : Char → Bool) :
    ∀ (run rest : Str) (k : Str → Option α) (a : α),
      (∀ c ∈ run, f c = true) →
      (match rest with | [] => True | c :: _ => f c = false) →
      k rest = some a → starGRun f (run ++ rest) k = some a := by
  intro run
  induction run with
  | nil =>
    intro rest k a _ h2 h3
    cases rest with
    | nil => simpa [starGRun] using h3
    | cons c t =>
      simp only [List.nil_append, starGRun]
      simp only at h2
      simp [h2, h3]
  | cons c t ih =>
    intro rest k a h1 h2 h3
    have hc : f c = true := h1 c (List.mem_cons_self _ _)
    simp only [List.cons_append, starGRun, hc, if_true, List.append_eq]
    rw [ih rest k a (fun x hx => h1 x (List.mem_cons_of_mem _ hx)) h2 h3]
    rfl

theorem starLRun_first {α : Type} (f : Char → Bool) :
    ∀ (p rest : Str) (k : Str → Option α) (a : α),
      (∀ p1 p2, p = p1 ++ p2 → p2 ≠ [] → k (p2 ++ rest) = none) →
      (∀ c ∈ p, f c = true) →
      k rest = some a → starLRun f (p ++ rest) k = some a := by
  intro p
  induction p with
  | nil =>
    intro rest k a _ _ h3
    cases rest with
    | nil => simpa [starLRun] using h3
    | cons c t => simp [starLRun, h3]
  | cons c t ih =>
    intro rest k a h1 h2 h3
    have hc : f c = true := h2 c (List.mem_cons_self _ _)
    have hk0 : k (c :: (t ++ rest)) = none := h1 [] (c :: t) rfl (by simp)
    simp only [List.cons_append, starLRun, List.append_eq]
    rw [hk0]
    show (if f c = true then starLRun f (t ++ rest) k else none) = some a
    rw [if_pos hc]
    exact ih rest k a
      (fun p1 p2 hp hne => h1 (c :: p1) p2 (by simp [hp]) hne)
      (fun x hx => h2 x (List.mem_cons_of_mem _ hx)) h3

theorem isPrefixOf_cons_ne {b : Char} {pt : Str} {a : Char} {t : Str}
    (hne : b ≠ a) : (b :: pt).isPrefixOf (a :: t) = false := by
  simp [List.isPrefixOf, hne]

theorem FILE_RE_head : str "# FILE:" = '#' :: str " FILE:" := rfl

theorem reMatchAt_FILE_none {s : Str}
    (h : (str "# FILE:").isPrefixOf s = false) :
    reMatchAt FILE_RE s = none := by
  simp [reMatchAt, FILE_RE, reCat, reM, h]

theorem reSearch_FILE_none :
    ∀ s, hasOcc (str "# FILE:") s = false → reSearch FILE_RE s = none := by
  intro s
  induction s with
  | nil =>
    intro h
    simp only [hasOcc] at h
    exact reMatchAt_FILE_none h
  | cons c t ih =>
    intro h
    simp only [hasOcc, Bool.or_eq_false_iff] at h
    simp only [reSearch, reMatchAt_FILE_none h.1]
    exact ih h.2

theorem reSearch_FILE_shift :
    ∀ (pre s : Str), '#' ∉ pre →
      reSearch FILE_RE (pre ++ s) = reSearch FILE_RE s := by
  intro pre
  induction pre with
  | nil => intro s _; rfl
  | cons c t ih =>
    intro s h
    have hc : c ≠ '#' := fun he => h (he ▸ List.mem_cons_self _ _)
    have h0 : reMatchAt FILE_RE (c :: (t ++ s)) = none := by
      apply reMatchAt_FILE_none
      rw [FILE_RE_head]
      exact isPrefixOf_cons_ne (fun he => hc he.symm)
    simp only [List.cons_append, reSearch, List.append_eq, h0]
    exact ih s (fun hm => h (List.mem_cons_of_mem _ hm))

theorem hasOcc_suffix {p : Str} : ∀ (c1 c2 : Str),
    hasOcc p c2 = true → hasOcc p (c1 ++ c2) = true := by
  intro c1
  induction c1 with
  | nil => intro c2 h; simpa using h
  | cons a t ih =>
    intro c2 h
    simp only [List.cons_append, hasOcc, Bool.or_eq_true]
    exact Or.inr (ih c2 h)

theorem isPrefixOf_append_ge :
    ∀ (p c2 Y : Str), p.length ≤ c2.length →
      p.isPrefixOf (c2 ++ Y) = true → p.isPrefixOf c2 = true := by
  intro p
  induction p with
  | nil => intro c2 Y _ _; simp [List.isPrefixOf]
  | cons a pt ih =>
    intro c2 Y hlen h
    cases c2 with
    | nil => simp at hlen
    | cons b ct =>
      simp only [List.cons_append, List.isPrefixOf, Bool.and_eq_true] at h ⊢
      exact ⟨h.1, ih ct Y (by simpa using hlen) h.2⟩

theorem nl4_cons : str "\n````" = '\n' :: '`' :: '`' :: '`' :: '`' :: [] := rfl

theorem prefixOf_short_span (X : Str) :
    ∀ c2 : Str, c2 ≠ [] → c2.length < 5 →
      (str "\n````").isPrefixOf (c2 ++ (str "\n````" ++ X)) = false := by
  intro c2 hne hlen
  match c2, hne with
  | [a], _ =>
    rw [nl4_cons]
    simp [List.isPrefixOf]
  | [a, b], _ =>
    rw [nl4_cons]
    simp [List.isPrefixOf]
  | [a, b, c], _ =>
    rw [nl4_cons]
    simp [List.isPrefixOf]
  | [a, b, c, d], _ =>
    rw [nl4_cons]
    simp [List.isPrefixOf]
  | a :: b :: c :: d :: e :: t, _ => exact absurd hlen (by simp)

theorem chop_no_early (X : Str) :
    ∀ (c2 : Str), c2 ≠ [] → hasOcc (str "\n````") c2 = false →
      (str "\n````").isPrefixOf (c2 ++ (str "\n````" ++ X)) = false := by
  intro c2 hne hocc
  by_cases hlen : c2.length < 5
  · exact prefixOf_short_span X c2 hne hlen
  · by_contra hcon
    rw [Bool.not_eq_false] at hcon
    have hp : (str "\n````").isPrefixOf c2 = true :=
      isPrefixOf_append_ge _ c2 _ (by rw [nl4_cons]; simpa using Nat.le_of_not_lt hlen) hcon
    cases c2 with
    | nil => exact hne rfl
    | cons a t =>
      simp only [hasOcc, Bool.or_eq_false_iff] at hocc
      rw [hocc.1] at hp
      exact Bool.false_ne_true hp

theorem prefixOf_self_append : ∀ (l s : Str), l.isPrefixOf (l ++ s) = true := by
  intro l
  induction l with
  | nil => intro s; simp [List.isPrefixOf]
  | cons a t ih => intro s; simp [List.isPrefixOf, ih]

theorem reM_lit_step {α : Type} (l s : Str) (cs : Caps)
    (k : Caps → Str → Option α) : reM (.lit l) (l ++ s) cs k = k cs s := by
  simp [reM, prefixOf_self_append, List.drop_left]

theorem reM_cat_lit {α : Type} (l s : Str) (R : RE) (cs : Caps)
    (k : Caps → Str → Option α) :
    reM (.cat (.lit l) R) (l ++ s) cs k = reM R s cs k := by
  simp [reM, prefixOf_self_append, List.drop_left]

theorem starGRun_nof {α : Type} (f : Char → Bool) (c : Char) (t : Str)
    (k : Str → Option α) (hc : f c = false) :
    starGRun f (c :: t) k = k (c :: t) := by
  simp [starGRun, hc]

theorem take_appDiff (a b : Str) :
    (a ++ b).take ((a ++ b).length - b.length) = a := by
  rw [List.length_append, Nat.add_sub_cancel, List.take_left]

theorem lb_cons : str "[" = '[' :: [] := rfl

theorem rb_cons : str "]" = ']' :: [] := rfl

theorem reM_cat_starG {α : Type} (f : Char → Bool) (R : RE) (run s : Str)
    (cs : Caps) (k : Caps → Str → Option α) (a : α)
    (hrun : ∀ c ∈ run, f c = true)
    (hhead : match s with | [] => True | c :: _ => f c = false)
    (hk : reM R s cs k = some a) :
    reM (.cat (.starG f) R) (run ++ s) cs k = some a := by
  show starGRun f (run ++ s) (fun s2 => reM R s2 cs k) = some a
  exact starGRun_all f run s _ a hrun hhead hk

theorem reM_cat_starL {α : Type} (f : Char → Bool) (R : RE) (p s : Str)
    (cs : Caps) (k : Caps → Str → Option α) (a : α)
    (hchars : ∀ c ∈ p, f c = true)
    (hfail : ∀ p1 p2, p = p1 ++ p2 → p2 ≠ [] → reM R (p2 ++ s) cs k = none)
    (hk : reM R s cs k = some a) :
    reM (.cat (.starL f) R) (p ++ s) cs k = some a := by
  show starLRun f (p ++ s) (fun s2 => reM R s2 cs k) = some a
  exact starLRun_first f p s _ a hfail hchars hk

theorem reM_cat_grp_plusL {α : Type} (f : Char → Bool) (n : Nat) (R : RE)
    (p s : Str) (cs : Caps) (k : Caps → Str → Option α) (a : α)
    (hp1 : p ≠ []) (hchars : ∀ c ∈ p, f c = true)
    (hfail : ∀ cs2 p1 p2, p = p1 ++ p2 → p2 ≠ [] →
      reM R (p2 ++ s) cs2 k = none)
    (hk : reM R s ((n, p) :: cs) k = some a) :
    reM (.cat (.grp n (.plusL f)) R) (p ++ s) cs k = some a := by
  cases p with
  | nil => exact absurd rfl hp1
  | cons p0 pt =>
    show (if f p0 = true then
        starLRun f (pt ++ s) (fun s2 =>
          reM R s2 ((n, ((p0 :: pt) ++ s).take
            (((p0 :: pt) ++ s).length - s2.length)) :: cs) k)
      else none) = some a
    rw [if_pos (hchars p0 (List.mem_cons_self _ _))]
    refine starLRun_first f pt s _ a ?_
      (fun c hc => hchars c (List.mem_cons_of_mem _ hc)) ?_
    · intro p1 p2 hsp hne
      exact hfail _ (p0 :: p1) p2 (by simp [hsp]) hne
    · show reM R s ((n, ((p0 :: pt) ++ s).take
          (((p0 :: pt) ++ s).length - s.length)) :: cs) k = some a
      rw [take_appDiff (p0 :: pt) s]
      exact hk

theorem reM_cat_grp_starL {α : Type} (f : Char → Bool) (n : Nat) (R : RE)
    (p s : Str) (cs : Caps) (k : Caps → Str → Option α) (a : α)
    (hchars : ∀ c ∈ p, f c = true)
    (hfail : ∀ cs2 p1 p2, p = p1 ++ p2 → p2 ≠ [] →
      reM R (p2 ++ s) cs2 k = none)
    (hk : reM R s ((n, p) :: cs) k = some a) :
    reM (.cat (.grp n (.starL f)) R) (p ++ s) cs k = some a := by
  show starLRun f (p ++ s) (fun s2 =>
      reM R s2 ((n, (p ++ s).take ((p ++ s).length - s2.length)) :: cs) k) =
    some a
  refine starLRun_first f p s _ a ?_ hchars ?_
  · intro p1 p2 hsp hne
    exact hfail _ p1 p2 hsp hne
  · show reM R s ((n, (p ++ s).take ((p ++ s).length - s.length)) :: cs) k =
      some a
    rw [take_appDiff p s]
    exact hk

theorem fileBlock_reMatch (path olml chop rest : Str)
    (hp1 : path ≠ [])
    (hp2 : ∀ c ∈ path, isDotChar c = true ∧ isWsChar c = false ∧ c ≠ '[')
    (ho : ∀ c ∈ olml, isDotChar c = true ∧ c ≠ ']')
    (hb : hasOcc (str "\n````") chop = false) :
    reMatchAt FILE_RE (str "# FILE: " ++ path ++ str " [" ++ olml ++
        str "]\n````\n" ++ chop ++ str "\n````" ++ rest) =
      some ([(2, chop), (1, path)], rest) := by
  have hI : str "# FILE: " ++ path ++ str " [" ++ olml ++
      str "]\n````\n" ++ chop ++ str "\n````" ++ rest =
      str "# FILE:" ++ (str " " ++ (path ++ (str " " ++ (str "[" ++
        (olml ++ (str "]" ++ (str "\n````\n" ++
          (chop ++ (str "\n````" ++ rest))))))))) := by
    simp only [List.append_assoc]
    rfl
  rw [reMatchAt, hI, FILE_RE]
  simp only [reCat]
  rw [reM_cat_lit]
  refine reM_cat_starG isWsChar _ (str " ") _ _ _ _ (by decide) ?_ ?_
  · cases path with
    | nil => exact absurd rfl hp1
    | cons p0 pt =>
      simp only [List.cons_append]
      exact (hp2 p0 (List.mem_cons_self _ _)).2.1
  · refine reM_cat_grp_plusL isDotChar 1 _ path _ _ _ _ hp1
      (fun c hc => (hp2 c hc).1) ?_ ?_
    · intro cs2 p1 p2 hsp hne
      cases p2 with
      | nil => exact absurd rfl hne
      | cons c2 t2 =>
        have hc2 : c2 ∈ path := by
          rw [hsp]
          exact List.mem_append.mpr (Or.inr (List.mem_cons_self _ _))
        simp only [List.cons_append, reM]
        rw [starGRun_nof _ _ _ _ (hp2 c2 hc2).2.1]
        rw [lb_cons, isPrefixOf_cons_ne (fun he => (hp2 c2 hc2).2.2 he.symm)]
        try simp
    · refine reM_cat_starG isWsChar _ (str " ") _ _ _ _ (by decide)
        (by rw [lb_cons]; simp only [List.cons_append]; decide) ?_
      rw [reM_cat_lit]
      refine reM_cat_starL isDotChar _ olml _ _ _ _
        (fun c hc => (ho c hc).1) ?_ ?_
      · intro p1 p2 hsp hne
        cases p2 with
        | nil => exact absurd rfl hne
        | cons c2 t2 =>
          have hc2 : c2 ∈ olml := by
            rw [hsp]
            exact List.mem_append.mpr (Or.inr (List.mem_cons_self _ _))
          simp only [List.cons_append, reM]
          rw [rb_cons, isPrefixOf_cons_ne (fun he => (ho c2 hc2).2 he.symm)]
          try simp
      · rw [reM_cat_lit, reM_cat_lit]
        refine reM_cat_grp_starL isAnyChar 2 _ chop _ _ _ _
          (fun c _ => rfl) ?_ ?_
        · intro cs2 p1 p2 hsp hne
          have hocc2 : hasOcc (str "\n````") p2 = false := by
            cases hx : hasOcc (str "\n````") p2 with
            | false => rfl
            | true =>
              have h2 := hasOcc_suffix p1 p2 hx
              rw [← hsp, hb] at h2
              exact absurd h2 (by simp)
          show (if (str "\n````").isPrefixOf (p2 ++ (str "\n````" ++ rest)) =
              true then _ else none) = none
          rw [chop_no_early rest p2 hne hocc2]
          try simp
        · rw [reM_lit_step]

theorem isPrefixOf_mono {p t : Str} (y : Str) (h : p.isPrefixOf t = true) :
    p.isPrefixOf (t ++ y) = true := by
  induction p generalizing t with
  | nil => simp [List.isPrefixOf]
  | cons a pt ih =>
    cases t with
    | nil => simp [List.isPrefixOf] at h
    | cons b tt =>
      simp only [List.cons_append, List.isPrefixOf, Bool.and_eq_true] at h ⊢
      exact ⟨h.1, ih h.2⟩

theorem hasOcc_nil_pat : ∀ y : Str, hasOcc [] y = true := by
  intro y
  cases y <;> simp [hasOcc, List.isPrefixOf]

theorem hasOcc_mono {p s : Str} (y : Str) (h : hasOcc p s = true) :
    hasOcc p (s ++ y) = true := by
  induction s with
  | nil =>
    simp only [hasOcc] at h
    cases p with
    | nil => exact hasOcc_nil_pat y
    | cons a t => simp [List.isPrefixOf] at h
  | cons c t ih =>
    simp only [hasOcc, Bool.or_eq_true] at h ⊢
    rcases h with h | h
    · exact Or.inl (isPrefixOf_mono _ h)
    · exact Or.inr (ih h)

theorem hash_no_hasOcc {s : Str} (h : '#' ∉ s) :
    hasOcc (str "# FILE:") s = false := by
  induction s with
  | nil => rfl
  | cons c t ih =>
    simp only [hasOcc, Bool.or_eq_false_iff]
    constructor
    · rw [FILE_RE_head]
      exact isPrefixOf_cons_ne
        (fun he => h (he ▸ List.mem_cons_self _ _))
    · exact ih (fun hm => h (List.mem_cons_of_mem _ hm))

theorem nl_no_hasOcc {s : Str} (h : '\n' ∉ s) :
    hasOcc (str "\n````") s = false := by
  induction s with
  | nil => rfl
  | cons c t ih =>
    simp only [hasOcc, Bool.or_eq_false_iff]
    constructor
    · rw [nl4_cons]
      exact isPrefixOf_cons_ne
        (fun he => h (he ▸ List.mem_cons_self _ _))
    · exact ih (fun hm => h (List.mem_cons_of_mem _ hm))

theorem reSearch_of_matchAt {re : RE} {s : Str} {r : Caps × Str}
    (h : reMatchAt re s = some r) : reSearch re s = some r := by
  cases s with
  | nil => exact h
  | cons c t => simp [reSearch, h]

theorem scanBlocksF_none : ∀ (fuel : Nat) (s : Str),
    reSearch FILE_RE s = none → scanBlocksF FILE_RE fuel s = [] := by
  intro fuel s h
  cases fuel with
  | zero => rfl
  | succ f => simp [scanBlocksF, h]

theorem capStr_pair1 (a b : Str) : capStr [(2, b), (1, a)] 1 = a := rfl

theorem capStr_pair2 (a b : Str) : capStr [(2, b), (1, a)] 2 = b := rfl

theorem dropWhile_noWs {s : Str} (h : ∀ c ∈ s, isWsChar c = false) :
    s.dropWhile isWsChar = s := by
  cases s with
  | nil => rfl
  | cons c t => simp [List.dropWhile, h c (List.mem_cons_self _ _)]

theorem jsTrim_noWs {s : Str} (h : ∀ c ∈ s, isWsChar c = false) :
    jsTrim s = s := by
  unfold jsTrim
  rw [dropWhile_noWs h,
    dropWhile_noWs (fun c hc => h c (List.mem_reverse.mp hc)),
    List.reverse_reverse]

/-- One FileBlock as a raw string: header, fences, body, blank separator. -/
def blockStr (b : Str × Str × Str) : Str :=
  str "# FILE: " ++ b.1 ++ str " [" ++ b.2.1 ++ str "]\n````\n" ++ b.2.2 ++
    str "\n````" ++ str "\n\n"

/-- Cleanliness of one block's parts. -/
def BClean (b : Str × Str × Str) : Prop :=
  b.1 ≠ [] ∧
  (∀ c ∈ b.1, isDotChar c = true ∧ isWsChar c = false ∧ c ≠ '[' ) ∧
  (∀ c ∈ b.2.1, isDotChar c = true ∧ c ≠ ']') ∧
  hasOcc (str "\n````") b.2.2 = false

theorem scanBlocksF_blocks :
    ∀ (bs : List (Str × Str × Str)) (pre tail : Str) (fuel : Nat),
      (∀ b ∈ bs, BClean b) → '#' ∉ pre → '#' ∉ tail →
      (pre ++ ((bs.map blockStr).flatten ++ tail)).length < fuel →
      scanBlocksF FILE_RE fuel (pre ++ ((bs.map blockStr).flatten ++ tail)) =
        bs.filterMap (fun b =>
          if (str "(Content omitted").isPrefixOf (jsTrim b.2.2) then none
          else some (jsTrim b.1, b.2.2)) := by
  intro bs
  induction bs with
  | nil =>
    intro pre tail fuel _ hpre htail _
    simp only [List.map_nil, List.flatten_nil, List.nil_append,
      List.filterMap_nil]
    apply scanBlocksF_none
    apply reSearch_FILE_none
    apply hash_no_hasOcc
    intro hm
    rcases List.mem_append.mp hm with h | h
    · exact hpre h
    · exact htail h
  | cons b bs ih =>
    intro pre tail fuel hcl hpre htail hfuel
    obtain ⟨path, olml, chop⟩ := b
    obtain ⟨hp1, hp2, ho, hb⟩ := hcl _ (List.mem_cons_self _ _)
    have hshape : pre ++ (((blockStr (path, olml, chop) :: bs.map blockStr).flatten) ++ tail) =
        pre ++ (str "# FILE: " ++ path ++ str " [" ++ olml ++
          str "]\n````\n" ++ chop ++ str "\n````" ++
          (str "\n\n" ++ ((bs.map blockStr).flatten ++ tail))) := by
      simp [blockStr, List.append_assoc]
    rw [List.map_cons, hshape]
    have hsearch := reSearch_of_matchAt
      (fileBlock_reMatch path olml chop
        (str "\n\n" ++ ((bs.map blockStr).flatten ++ tail)) hp1 hp2 ho hb)
    have hsearch2 : reSearch FILE_RE (pre ++ (str "# FILE: " ++ path ++
        str " [" ++ olml ++ str "]\n````\n" ++ chop ++ str "\n````" ++
        (str "\n\n" ++ ((bs.map blockStr).flatten ++ tail)))) =
        some ([(2, chop), (1, path)],
          str "\n\n" ++ ((bs.map blockStr).flatten ++ tail)) := by
      rw [reSearch_FILE_shift pre _ hpre]
      exact hsearch
    cases fuel with
    | zero => simp at hfuel
    | succ f =>
      simp only [scanBlocksF, hsearch2]
      rw [capStr_pair1, capStr_pair2]
      have hrec := ih (str "\n\n") tail f
        (fun x hx => hcl x (List.mem_cons_of_mem _ hx))
        (by decide) htail ?_
      · rw [hrec]
        simp only [List.filterMap_cons]
        split
        · simp
        · simp
      · have hlt := reSearch_lt (show str "# FILE:" ≠ [] by decide)
          _ _ _ _ hsearch
        have hlen := congrArg List.length hshape
        simp only [List.map_cons, List.flatten_cons, List.length_append]
          at hfuel hlt hlen ⊢
        omega

/-- Content as extracted: a single trailing newline stripped. -/
def chopNl (c : Str) : Str := if endsWithNl c then c.dropLast else c

/-- The bracketed annotation of a FileBlock header. -/
def olmlOf (g : PFile) : Str :=
  str "OL: 1-" ++ natStr g.lineCount ++ str " | ML: " ++ natStr g.mlStart ++
    str "-" ++ natStr g.mlEnd ++ str " | " ++ g.formattedSize

/-- The text between the fences of a FileBlock, without its final newline. -/
def chopOf (skip : Str → Bool) (g : PFile) : Str :=
  if skip g.relativePath then
    str "(Content omitted - file size: " ++ g.formattedSize ++ str ")"
  else chopNl g.content

/-- A file's block, split into the parts the extraction regex sees. -/
def toTriple (skip : Str → Bool) (g : PFile) : Str × Str × Str :=
  (replaceBS g.relativePath, olmlOf g, chopOf skip g)

theorem fileBlock_decomp (skip : Str → Bool) (g : PFile) :
    fileBlock skip g = blockStr (toTriple skip g) := by
  have e1 : str " [OL: 1-" = str " [" ++ str "OL: 1-" := rfl
  have e2 : str "]\n" = str "]" ++ str "\n" := rfl
  have e3 : str "````\n" = str "````" ++ str "\n" := rfl
  have e4 : str "]\n````\n" =
      str "]" ++ (str "\n" ++ (str "````" ++ str "\n")) := rfl
  have e5 : str "\n````" = str "\n" ++ str "````" := rfl
  have e6 : str "````\n\n" = str "````" ++ (str "\n" ++ str "\n") := rfl
  have e7 : str "\n\n" = str "\n" ++ str "\n" := rfl
  have e8 : str ")\n" = str ")" ++ str "\n" := rfl
  unfold fileBlock blockStr toTriple olmlOf chopOf chopNl
  by_cases hs : skip g.relativePath
  · rw [if_pos hs, if_pos hs]
    rw [e1, e2, e3, e4, e5, e6, e7, e8]
    simp [List.append_assoc]
  · rw [if_neg hs, if_neg hs]
    by_cases he : endsWithNl g.content
    · rw [if_pos he, if_pos he]
      obtain ⟨s0, hs0⟩ := endsWithNl_exists g.content he
      rw [hs0, List.dropLast_concat]
      rw [e1, e2, e3, e4, e5, e6, e7]
      simp [List.append_assoc]
      rfl
    · rw [if_neg he, if_neg he]
      rw [e1, e2, e3, e4, e5, e6, e7]
      simp [List.append_assoc]

theorem digitChar_mem (n : Nat) : Nat.digitChar n ∈ str "0123456789abcdef*" := by
  by_cases h0 : n = 0
  · subst h0; decide
  by_cases h1 : n = 1
  · subst h1; decide
  by_cases h2 : n = 2
  · subst h2; decide
  by_cases h3 : n = 3
  · subst h3; decide
  by_cases h4 : n = 4
  · subst h4; decide
  by_cases h5 : n = 5
  · subst h5; decide
  by_cases h6 : n = 6
  · subst h6; decide
  by_cases h7 : n = 7
  · subst h7; decide
  by_cases h8 : n = 8
  · subst h8; decide
  by_cases h9 : n = 9
  · subst h9; decide
  by_cases h10 : n = 10
  · subst h10; decide
  by_cases h11 : n = 11
  · subst h11; decide
  by_cases h12 : n = 12
  · subst h12; decide
  by_cases h13 : n = 13
  · subst h13; decide
  by_cases h14 : n = 14
  · subst h14; decide
  by_cases h15 : n = 15
  · subst h15; decide
  unfold Nat.digitChar
  rw [if_neg h0, if_neg h1, if_neg h2, if_neg h3, if_neg h4, if_neg h5,
    if_neg h6, if_neg h7, if_neg h8, if_neg h9, if_neg h10, if_neg h11,
    if_neg h12, if_neg h13, if_neg h14, if_neg h15]
  decide

theorem toDigitsCore_mem (b : Nat) :
    ∀ fuel n ds, (∀ c ∈ ds, c ∈ str "0123456789abcdef*") →
      ∀ c ∈ Nat.toDigitsCore b fuel n ds, c ∈ str "0123456789abcdef*" := by
  intro fuel
  induction fuel with
  | zero =>
    intro n ds h
    simpa [Nat.toDigitsCore] using h
  | succ f ih =>
    intro n ds h
    simp only [Nat.toDigitsCore]
    have hd : ∀ c ∈ Nat.digitChar (n % b) :: ds, c ∈ str "0123456789abcdef*" := by
      intro c hc
      rcases List.mem_cons.mp hc with rfl | hc2
      · exact digitChar_mem _
      · exact h c hc2
    split
    · exact hd
    · exact ih _ _ hd

theorem natStr_mem (n : Nat) : ∀ c ∈ natStr n, c ∈ str "0123456789abcdef*" :=
  toDigitsCore_mem 10 (n + 1) n [] (by simp)

theorem natStr_olml (n : Nat) :
    ∀ c ∈ natStr n, isDotChar c = true ∧ c ≠ ']' := by
  have hall : ∀ c ∈ str "0123456789abcdef*", isDotChar c = true ∧ c ≠ ']' := by
    decide
  exact fun c hc => hall c (natStr_mem n c hc)

theorem dropWhile_nohead {p : Char → Bool} {s : Str}
    (h : match s with | [] => True | c :: _ => p c = false) :
    s.dropWhile p = s := by
  cases s with
  | nil => rfl
  | cons c t => simp only at h; simp [List.dropWhile, h]

theorem jsTrim_edges {s : Str}
    (h1 : match s with | [] => True | c :: _ => isWsChar c = false)
    (h2 : match s.getLast? with | none => True | some c => isWsChar c = false) :
    jsTrim s = s := by
  unfold jsTrim
  rw [dropWhile_nohead h1, dropWhile_nohead ?_, List.reverse_reverse]
  cases hrev : s.reverse with
  | nil => exact True.intro
  | cons d r =>
    have : s.getLast? = some d := by
      rw [← List.head?_reverse, hrev]
      rfl
    rw [this] at h2
    exact h2

/-- Cleanliness assumptions on an input file under which the extraction
regex parses its assembled block exactly: a nonempty path free of
whitespace, newlines and `[`; an annotation free of `]` and newlines; and,
for a kept file, a body with no fence-opening line and not starting (after
trimming) with the omission marker. -/
def CleanFile (skip : Str → Bool) (f : InFile) : Prop :=
  replaceBS f.relativePath ≠ [] ∧
  (∀ c ∈ replaceBS f.relativePath,
    isDotChar c = true ∧ isWsChar c = false ∧ c ≠ '[') ∧
  (∀ c ∈ f.formattedSize, isDotChar c = true ∧ c ≠ ']') ∧
  (skip f.relativePath = false →
    hasOcc (str "\n````") (chopNl f.content) = false ∧
    (str "(Content omitted").isPrefixOf (jsTrim (chopNl f.content)) = false)

theorem assignRealMl_src (skip : Str → Bool) :
    ∀ (c : Nat) (fs : List PFile) (g : PFile), g ∈ assignRealMl skip c fs →
      ∃ f ∈ fs, g.relativePath = f.relativePath ∧ g.content = f.content ∧
        g.formattedSize = f.formattedSize := by
  intro c fs
  induction fs generalizing c with
  | nil => intro g hg; simp [assignRealMl] at hg
  | cons f0 rest ih =>
    intro g hg
    by_cases hs : skip f0.relativePath
    · simp only [assignRealMl, hs, if_true, List.mem_cons] at hg
      rcases hg with rfl | hg2
      · exact ⟨f0, List.mem_cons_self _ _, rfl, rfl, rfl⟩
      · obtain ⟨f, hf, he⟩ := ih _ g hg2
        exact ⟨f, List.mem_cons_of_mem _ hf, he⟩
    · simp only [assignRealMl, hs, Bool.false_eq_true, if_false,
        List.mem_cons] at hg
      rcases hg with rfl | hg2
      · exact ⟨f0, List.mem_cons_self _ _, rfl, rfl, rfl⟩
      · obtain ⟨f, hf, he⟩ := ih _ g hg2
        exact ⟨f, List.mem_cons_of_mem _ hf, he⟩

theorem toTriple_clean (cfg : Config) (skip : Str → Bool)
    (files : List InFile) (hclean : ∀ f ∈ files, CleanFile skip f) :
    ∀ g ∈ filesPass2 cfg skip files, BClean (toTriple skip g) := by
  intro g hg
  unfold filesPass2 at hg
  obtain ⟨p, hp, hrp, hct, hfs⟩ := assignRealMl_src skip _ _ g hg
  unfold procFiles processAll at hp
  obtain ⟨f, hf, rfl⟩ := List.mem_map.mp hp
  have hcf := hclean f hf
  have hrp2 : g.relativePath = f.relativePath := by
    rw [hrp, processFile_relativePath]
  have hfs2 : g.formattedSize = f.formattedSize := by
    rw [hfs]
    unfold processFile
    by_cases h : skip f.relativePath <;> simp [h]
  have hL1 : ∀ c ∈ str "OL: 1-", isDotChar c = true ∧ c ≠ ']' := by decide
  have hL2 : ∀ c ∈ str " | ML: ", isDotChar c = true ∧ c ≠ ']' := by decide
  have hL3 : ∀ c ∈ str "-", isDotChar c = true ∧ c ≠ ']' := by decide
  have hL4 : ∀ c ∈ str " | ", isDotChar c = true ∧ c ≠ ']' := by decide
  refine ⟨?_, ?_, ?_, ?_⟩
  · show replaceBS g.relativePath ≠ []
    rw [hrp2]
    exact hcf.1
  · show ∀ c ∈ replaceBS g.relativePath, _
    rw [hrp2]
    exact hcf.2.1
  · show ∀ c ∈ olmlOf g, isDotChar c = true ∧ c ≠ ']'
    intro c hc
    unfold olmlOf at hc
    simp only [List.mem_append, or_assoc] at hc
    rcases hc with h | h | h | h | h | h | h | h
    · exact hL1 c h
    · exact natStr_olml _ c h
    · exact hL2 c h
    · exact natStr_olml _ c h
    · exact hL3 c h
    · exact natStr_olml _ c h
    · exact hL4 c h
    · rw [hfs2] at h
      exact hcf.2.2.1 c h
  · show hasOcc (str "\n````") (chopOf skip g) = false
    unfold chopOf
    by_cases hsk : skip g.relativePath
    · rw [if_pos hsk]
      apply nl_no_hasOcc
      intro hm
      simp only [List.mem_append] at hm
      have hN1 : '\n' ∉ str "(Content omitted - file size: " := by decide
      have hN2 : '\n' ∉ str ")" := by decide
      rcases hm with (h | h) | h
      · exact hN1 h
      · rw [hfs2] at h
        exact absurd (hcf.2.2.1 _ h).1 (by decide)
      · exact hN2 h
    · rw [if_neg hsk]
      have hskF : skip f.relativePath = false := by
        cases hx : skip f.relativePath
        · rfl
        · exact absurd (by rw [hrp2]; exact hx) hsk
      have hgc : g.content = f.content := by
        rw [hct]
        unfold processFile
        rw [if_neg (by simp [hskF])]
      rw [hgc]
      exact (hcf.2.2.2 hskF).1

theorem placeholder_pfx (fs : Str)
    (hfs : ∀ c ∈ fs, isDotChar c = true ∧ c ≠ ']') :
    (str "(Content omitted").isPrefixOf
      (jsTrim (str "(Content omitted - file size: " ++ fs ++ str ")")) =
      true := by
  rw [jsTrim_edges ?_ ?_]
  · rw [show str "(Content omitted - file size: " =
      str "(Content omitted" ++ str " - file size: " from rfl]
    rw [List.append_assoc, List.append_assoc]
    exact prefixOf_self_append _ _
  · exact (by decide : isWsChar '(' = false)
  · rw [show str "(Content omitted - file size: " ++ fs ++ str ")" =
      (str "(Content omitted - file size: " ++ fs) ++ [')'] from rfl]
    rw [List.getLast?_concat]
    exact (by decide : isWsChar ')' = false)

instance (skip : Str → Bool) (f : InFile) : Decidable (CleanFile skip f) := by
  unfold CleanFile
  infer_instance

theorem scanBlocks_combineDoc (cfg : Config) (skip : Str → Bool)
    (files : List InFile) (hhdr : cfg.header = false)
    (hclean : ∀ f ∈ files, CleanFile skip f) :
    scanBlocks FILE_RE (combineDoc cfg skip files) =
      (filesPass2 cfg skip files).filterMap (fun g =>
        if (str "(Content omitted").isPrefixOf (jsTrim (chopOf skip g)) then
          none
        else some (jsTrim (replaceBS g.relativePath), chopOf skip g)) := by
  have hmapeq : (filesPass2 cfg skip files).map (fileBlock skip) =
      ((filesPass2 cfg skip files).map (toTriple skip)).map blockStr := by
    rw [List.map_map]
    exact List.map_congr_left (fun g _ => fileBlock_decomp skip g)
  have hdoc : combineDoc cfg skip files =
      str "<merged_code>\n" ++
        ((((filesPass2 cfg skip files).map (toTriple skip)).map
            blockStr).flatten ++ str "</merged_code>\n") := by
    unfold combineDoc assembleDoc
    rw [hhdr, hmapeq]
    simp [List.append_assoc]
  rw [hdoc]
  unfold scanBlocks
  rw [scanBlocksF_blocks _ (str "<merged_code>\n") (str "</merged_code>\n") _
    ?_ (by decide) (by decide) (Nat.lt_succ_self _)]
  · rw [List.filterMap_map]
    rfl
  · intro b hb2
    obtain ⟨g, hg, rfl⟩ := List.mem_map.mp hb2
    exact toTriple_clean cfg skip files hclean g hg

theorem assignRealMl_filterMap (skip : Str → Bool) :
    ∀ (c : Nat) (fs : List PFile),
      (assignRealMl skip c fs).filterMap (fun g =>
        if (str "(Content omitted").isPrefixOf (jsTrim (chopOf skip g)) then
          none
        else some (jsTrim (replaceBS g.relativePath), chopOf skip g)) =
      fs.filterMap (fun g =>
        if (str "(Content omitted").isPrefixOf (jsTrim (chopOf skip g)) then
          none
        else some (jsTrim (replaceBS g.relativePath), chopOf skip g)) := by
  intro c fs
  induction fs generalizing c with
  | nil => rfl
  | cons f0 rest ih =>
    by_cases hs : skip f0.relativePath
    · simp only [assignRealMl, hs, if_true, List.filterMap_cons]
      rw [ih]
      rfl
    · simp only [assignRealMl, hs, Bool.false_eq_true, if_false,
        List.filterMap_cons]
      rw [ih]
      rfl

theorem extract_filterMap (cfg : Config) (skip : Str → Bool)
    (files : List InFile) (hclean : ∀ f ∈ files, CleanFile skip f) :
    (filesPass2 cfg skip files).filterMap (fun g =>
      if (str "(Content omitted").isPrefixOf (jsTrim (chopOf skip g)) then
        none
      else some (jsTrim (replaceBS g.relativePath), chopOf skip g)) =
    files.filterMap (fun f =>
      if skip f.relativePath then none
      else some (replaceBS f.relativePath, chopNl f.content)) := by
  unfold filesPass2
  rw [assignRealMl_filterMap]
  unfold procFiles processAll
  rw [List.filterMap_map]
  apply List.filterMap_congr
  intro f hf
  have hcf := hclean f hf
  simp only [Function.comp_apply]
  by_cases hs : skip f.relativePath
  · have hch : chopOf skip (processFile cfg.parse skip f) =
        str "(Content omitted - file size: " ++ f.formattedSize ++
          str ")" := by
      unfold chopOf
      rw [processFile_relativePath, if_pos hs]
      congr 1
      unfold processFile
      rw [if_pos hs]
    have hpp : (str "(Content omitted").isPrefixOf
        (jsTrim (chopOf skip (processFile cfg.parse skip f))) = true := by
      rw [hch]
      exact placeholder_pfx _ hcf.2.2.1
    rw [if_pos hpp, if_pos hs]
  · have hskF : skip f.relativePath = false := by
      cases hx : skip f.relativePath
      · rfl
      · exact absurd hx hs
    have hch : chopOf skip (processFile cfg.parse skip f) =
        chopNl f.content := by
      unfold chopOf
      rw [processFile_relativePath, if_neg (by simp [hskF])]
      congr 1
      unfold processFile
      rw [if_neg (by simp [hskF])]
    rw [if_neg (by rw [hch]; simp [(hcf.2.2.2 hskF).2]),
      if_neg (by simp [hskF])]
    rw [hch, processFile_relativePath,
      jsTrim_noWs (fun c hc => (hcf.2.1 c hc).2.1)]

/-- C1: extraction inverts assembly modulo one stripped trailing newline.
For a headerless invocation on clean files (paths without whitespace,
newlines or brackets; annotations without `]`; kept bodies with no
fence-opening line and not starting with the omission marker) with at
least one kept file, parsing the assembled document returns exactly the
kept files in order, each with `chopNl` of its content: the content itself
when it does not end in a newline, and the content with its final newline
stripped when it does.  Exact round-trip therefore fails for contents
ending in a newline (see the counterexample); omitted files are dropped. -/
theorem claim_C1_roundtrip (cfg : Config) (skip : Str → Bool)
    (files : List InFile) (hhdr : cfg.header = false)
    (hclean : ∀ f ∈ files, CleanFile skip f)
    (hkeep : ∃ f ∈ files, skip f.relativePath = false) :
    recreateParse (combineDoc cfg skip files) =
      files.filterMap (fun f =>
        if skip f.relativePath then none
        else some (replaceBS f.relativePath, chopNl f.content)) := by
  unfold recreateParse
  rw [scanBlocks_combineDoc cfg skip files hhdr hclean,
    extract_filterMap cfg skip files hclean]
  obtain ⟨f0, hf0, hk0⟩ := hkeep
  have hmem : (replaceBS f0.relativePath, chopNl f0.content) ∈
      files.filterMap (fun f =>
        if skip f.relativePath then none
        else some (replaceBS f.relativePath, chopNl f.content)) :=
    List.mem_filterMap.mpr ⟨f0, hf0, by rw [if_neg (by simp [hk0])]⟩
  show (if (files.filterMap (fun f =>
          if skip f.relativePath then none
          else some (replaceBS f.relativePath, chopNl f.content))).isEmpty =
        true
      then scanBlocks LEGACY_RE (combineDoc cfg skip files)
      else files.filterMap (fun f =>
        if skip f.relativePath then none
        else some (replaceBS f.relativePath, chopNl f.content))) =
    files.filterMap (fun f =>
      if skip f.relativePath then none
      else some (replaceBS f.relativePath, chopNl f.content))
  rw [List.isEmpty_eq_false.mpr (List.ne_nil_of_mem hmem)]
  simp

/-- C1 counterexample: a single clean file whose content is `"x\n"` comes
back as `"x"` — the assembled block's closing fence consumes the final
newline, so `extract (assemble F)` is not byte-identical to `F`. -/
theorem claim_C1_counterexample :
    recreateParse (combineDoc exCfgNH exNoSkip
        [⟨str "a.txt", str "x\n", 2, str "2B"⟩]) =
      [(str "a.txt", str "x")] ∧ str "x" ≠ str "x\n" :=
  ⟨by rfl, by decide⟩

/-- C1 witness: the round-trip theorem at a concrete one-file input. -/
theorem claim_C1_witness :
    recreateParse (combineDoc exCfgNH exNoSkip
        [⟨str "a.txt", str "x\n", 2, str "2B"⟩]) =
      [(⟨str "a.txt", str "x\n", 2, str "2B"⟩ : InFile)].filterMap
        (fun f => if exNoSkip f.relativePath then none
          else some (replaceBS f.relativePath, chopNl f.content)) :=
  claim_C1_roundtrip exCfgNH exNoSkip _ rfl (by decide)
    ⟨_, List.mem_cons_self _ _, rfl⟩

/-- C7: what the extractor actually does with one matched FileBlock.  The
text between the fences is captured verbatim (`chop`), and the block is
skipped precisely when the trimmed body starts with `"(Content omitted"`
— not only when it is exactly the omission placeholder line (see the
counterexample). -/
theorem claim_C7_skip_rule (path olml chop tail : Str)
    (hp1 : path ≠ [])
    (hp2 : ∀ c ∈ path, isDotChar c = true ∧ isWsChar c = false ∧ c ≠ '[')
    (ho : ∀ c ∈ olml, isDotChar c = true ∧ c ≠ ']')
    (hb : hasOcc (str "\n````") chop = false)
    (htail : '#' ∉ tail) :
    scanBlocks FILE_RE (str "# FILE: " ++ path ++ str " [" ++ olml ++
        str "]\n````\n" ++ chop ++ str "\n````" ++ str "\n\n" ++ tail) =
      (if (str "(Content omitted").isPrefixOf (jsTrim chop) then []
       else [(jsTrim path, chop)]) := by
  have hinput : ([] : Str) ++
      (([(path, olml, chop)].map blockStr).flatten ++ tail) =
      str "# FILE: " ++ path ++ str " [" ++ olml ++ str "]\n````\n" ++
        chop ++ str "\n````" ++ str "\n\n" ++ tail := by
    simp [blockStr, List.append_assoc]
  unfold scanBlocks
  rw [← hinput]
  rw [scanBlocksF_blocks [(path, olml, chop)] [] tail _
    (by intro b hb2
        rcases List.mem_cons.mp hb2 with rfl | h0
        · exact ⟨hp1, hp2, ho, hb⟩
        · simp at h0)
    (by decide) htail (Nat.lt_succ_self _)]
  by_cases hc : (str "(Content omitted").isPrefixOf (jsTrim chop)
  · rw [if_pos hc]
    simp only [List.filterMap_cons, List.filterMap_nil]
    rw [if_pos hc]
  · rw [if_neg hc]
    simp only [List.filterMap_cons, List.filterMap_nil]
    rw [if_neg hc]

/-- C7 counterexample: a block whose body is `"(Content omittedX"` — not
the omission placeholder for any size — is nevertheless skipped by the
extractor, because the test is `trim().startsWith("(Content omitted")`. -/
theorem claim_C7_counterexample :
    recreateParse (str
        "# FILE: f.txt [OL: 1-1 | ML: 1-1 | 3B]\n````\n(Content omittedX\n````\n\n") =
      [] ∧
    ∀ sz : Str, str "(Content omittedX" ≠
      str "(Content omitted - file size: " ++ sz ++ str ")" := by
  refine ⟨by rfl, ?_⟩
  intro sz h
  have h2 := congrArg List.length h
  rw [List.length_append, List.length_append] at h2
  have e1 : (str "(Content omittedX").length = 17 := rfl
  have e2 : (str "(Content omitted - file size: ").length = 30 := rfl
  have e3 : (str ")").length = 1 := rfl
  rw [e1, e2, e3] at h2
  omega

/-- C7 witness: the skip-rule theorem at one concrete kept block. -/
theorem claim_C7_witness :
    scanBlocks FILE_RE (str "# FILE: " ++ str "f.txt" ++ str " [" ++
        str "OL: 1-1 | ML: 1-1 | 2B" ++ str "]\n````\n" ++ str "hi" ++
        str "\n````" ++ str "\n\n" ++ str "</merged_code>\n") =
      (if (str "(Content omitted").isPrefixOf (jsTrim (str "hi")) then []
       else [(jsTrim (str "f.txt"), str "hi")]) :=
  claim_C7_skip_rule (str "f.txt") (str "OL: 1-1 | ML: 1-1 | 2B")
    (str "hi") (str "</merged_code>\n") (by decide) (by decide) (by decide)
    (by decide) (by decide)

end Combicode
